import Mathlib

/-!
# charcounter: the statistics store (db.go) and the counting / ranking code (main.go)

A shallow embedding of the Go sources.

* A Go `string` that is indexed or ranged over (the `character` column, file
  contents) is a list of bytes, `GoString`.  Strings that are only compared for
  equality (repository URL, extension) are Lean strings.
* A Go `rune` (int32), `int` and `int64` are mathematical integers.  For the
  counters of `countChars` and for row ids no wrap-around is modelled: they stay
  inside the 64-bit range for counts of characters in files.  The `frequency`
  column is exact as well, but its 64-bit range matters and is modelled: a sum
  outside the range is a REAL to SQLite, which `rows.Scan` cannot read into a Go
  `int` (`isInt64`, `scanRows`).
* A Go `map[rune]int` is an association list `GoMap`; a real map never holds a key
  twice (`GoMap.WF`).  `range` over a map visits the list in list order; every
  order is some list, so a statement for all lists covers all iteration orders.
* The SQLite database behind `*sql.DB` is the record `DB`: the three tables of
  `initDB`, the two AUTOINCREMENT counters, the clock used for
  `CURRENT_TIMESTAMP`, and a schedule of storage failures (`faults`).  Each call
  of `db.Exec`, `db.Query` or `db.QueryRow` consumes one step of the schedule.
  The schedule `[]` means that storage never fails.
* The SELECT of `getStatistics` has no ORDER BY; SQLite reads the rows of a
  bucket through the index of the primary key of `char_frequencies`, so they
  come in the byte order of `character` (`queryStatistics`).
* `float64` is modelled by `F64`: exact rationals for finite values, plus the two
  infinities and NaN, with the IEEE rules for division by zero.  Rounding of
  finite results is not modelled.
* The tables of package `unicode` and the (unstable) `sort.Slice` are parameters.
* `DB.WF` collects the constraints of the schema of `initDB` (primary keys, UNIQUE
  columns, foreign keys); `Reachable` are the states the operations reach from
  the empty store, and every reachable state satisfies `DB.WF`.
  `ReachableNonEmpty` are those reached when `addCharFrequency` is only called
  with a non-empty character, as its one caller `saveStatistics` does.
* Of standard output only the table lines of `printFrequency` are modelled, as
  the values passed to `fmt.Printf`; the two constant header lines and the error
  messages of `countChars` and `saveStatistics` are left out.
-/

namespace CharCounter

/-! ## Go values -/

/-- A Go string as its bytes. -/
abbrev GoString := List Nat

/-- A Go rune. -/
abbrev Rune := Int

/-- The replacement rune `utf8.RuneError`, U+FFFD. -/
def RuneError : Rune := 0xFFFD

/-- Encoding of `utf8.AppendRune`, which is what the conversion `string(r)` of a
rune does: invalid code points (negative, surrogates, above U+10FFFF) are
encoded as U+FFFD. -/
def encodeRune (r : Rune) : GoString :=
  if 0 ≤ r ∧ r ≤ 0x7F then [r.toNat]
  else if 0 ≤ r ∧ r ≤ 0x7FF then
    [0xC0 ||| (r.toNat >>> 6), 0x80 ||| (r.toNat &&& 0x3F)]
  else if r < 0 ∨ 0x10FFFF < r ∨ (0xD800 ≤ r ∧ r ≤ 0xDFFF) then [0xEF, 0xBF, 0xBD]
  else if r ≤ 0xFFFF then
    [0xE0 ||| (r.toNat >>> 12), 0x80 ||| ((r.toNat >>> 6) &&& 0x3F),
      0x80 ||| (r.toNat &&& 0x3F)]
  else
    [0xF0 ||| (r.toNat >>> 18), 0x80 ||| ((r.toNat >>> 12) &&& 0x3F),
      0x80 ||| ((r.toNat >>> 6) &&& 0x3F), 0x80 ||| (r.toNat &&& 0x3F)]

/-- A Go `map[rune]int`. -/
abbrev GoMap := List (Rune × Int)

/-- Keys of a map are pairwise distinct. -/
def GoMap.WF (m : GoMap) : Prop := (m.map Prod.fst).Nodup

/-- Lookup with presence, `v, ok := m[k]`. -/
def GoMap.get? : GoMap → Rune → Option Int
  | [], _ => none
  | (k', v) :: rest, k => if k' = k then some v else GoMap.get? rest k

/-- Lookup `m[k]`: the zero value when the key is absent. -/
def GoMap.index (m : GoMap) (k : Rune) : Int := (m.get? k).getD 0

/-- Assignment `m[k] = v`. -/
def GoMap.set : GoMap → Rune → Int → GoMap
  | [], k, v => [(k, v)]
  | (k', v') :: rest, k, v =>
    if k' = k then (k, v) :: rest else (k', v') :: GoMap.set rest k v

/-! ## The database of db.go -/

/-- Row of table `urls` (Go type `URL`). -/
structure URL where
  ID : Int
  Url : String
  CreatedAt : Nat
deriving DecidableEq, Repr

/-- Row of table `file_extensions` (Go type `FileExt`). -/
structure FileExt where
  ID : Int
  Extension : String
deriving DecidableEq, Repr

/-- Range of a Go `int` and of an SQLite INTEGER: signed 64 bits. -/
def isInt64 (n : Int) : Bool := -9223372036854775808 ≤ n ∧ n ≤ 9223372036854775807

/-- Row of table `char_frequencies` (Go type `CharFrequency`).  The value of the
`frequency` column is kept exact; SQLite stores it as an INTEGER while it is in
the signed 64-bit range (`isInt64`), and as a REAL once a sum has left that range
(the rounding of that REAL is not modelled). -/
structure CharFrequency where
  URLID : Int
  FileExtID : Int
  Char : GoString
  Frequency : Int
deriving DecidableEq, Repr

/-- Errors a database call can return. -/
inductive SqlError where
  /-- storage I/O failure -/
  | storage
  /-- statement names a column the table does not have -/
  | noSuchColumn (name : String)
  /-- FOREIGN KEY constraint failed -/
  | foreignKey
  /-- `sql.ErrNoRows` -/
  | noRows
  /-- `rows.Scan` cannot convert a column value to the Go variable -/
  | scan
deriving DecidableEq, Repr

/-- State behind the `*sql.DB` handle. -/
structure DB where
  urls : List URL
  urlSeq : Int
  file_extensions : List FileExt
  extSeq : Int
  char_frequencies : List CharFrequency
  clock : Nat
  faults : List Nat
deriving DecidableEq, Repr

/-- The database right after `initDB` on a new file. -/
def DB.empty : DB :=
  { urls := [], urlSeq := 0, file_extensions := [], extSeq := 0,
    char_frequencies := [], clock := 0, faults := [] }

/-- One database call against the failure schedule: `true` when this call fails.
The head `n` of the schedule says that `n` more calls succeed before one fails. -/
def DB.step (db : DB) : Bool × DB :=
  match db.faults with
  | [] => (false, db)
  | 0 :: rest => (true, { db with faults := rest })
  | (n + 1) :: rest => (false, { db with faults := n :: rest })

/-- Column names of `file_extensions`, from `CREATE TABLE` in `initDB`. -/
def fileExtensionsColumns : List String := ["id", "extension"]

/-- Whether a row of `file_extensions` satisfies `column = ?` for an integer
argument (a TEXT column is compared with the argument's decimal text). -/
def FileExt.colEq (r : FileExt) (col : String) (v : Int) : Bool :=
  if col = "id" then r.ID = v
  else if col = "extension" then r.Extension = toString v
  else false

/-- Row id an AUTOINCREMENT table gives a new row: one more than the largest id
the table ever held. -/
def nextRowid (seq : Int) (ids : List Int) : Int := ids.foldl max seq + 1

/-- Statement `INSERT OR IGNORE INTO urls (url) VALUES (?)`.  The row id is
drawn from the AUTOINCREMENT counter before the UNIQUE column is checked, so
the counter advances also when the insert is ignored. -/
def execInsertOrIgnoreUrl (db : DB) (url : String) : DB × Option SqlError :=
  match db.step with
  | (true, db1) => (db1, some .storage)
  | (false, db1) =>
    let id := nextRowid db1.urlSeq (db1.urls.map URL.ID)
    if db1.urls.any (fun r => r.Url = url) then ({ db1 with urlSeq := id }, none)
    else ({ db1 with urls := db1.urls ++ [⟨id, url, db1.clock⟩], urlSeq := id }, none)

/-- Query `SELECT id FROM urls WHERE url = ?` followed by `Scan(&existingID)`. -/
def queryRowUrlId (db : DB) (url : String) : DB × Int × Option SqlError :=
  match db.step with
  | (true, db1) => (db1, 0, some .storage)
  | (false, db1) =>
    match db1.urls.find? (fun r => r.Url = url) with
    | some r => (db1, r.ID, none)
    | none => (db1, 0, some .noRows)

/-- Go `addURL`. -/
def addURL (db : DB) (url : String) : DB × Int × Option SqlError :=
  match execInsertOrIgnoreUrl db url with
  | (db1, some e) => (db1, 0, some e)
  | (db1, none) => queryRowUrlId db1 url

/-- Statement `INSERT OR IGNORE INTO file_extensions (extension) VALUES (?)`; the
counter advances also when the insert is ignored. -/
def execInsertOrIgnoreExt (db : DB) (ext : String) : DB × Option SqlError :=
  match db.step with
  | (true, db1) => (db1, some .storage)
  | (false, db1) =>
    let id := nextRowid db1.extSeq (db1.file_extensions.map FileExt.ID)
    if db1.file_extensions.any (fun r => r.Extension = ext) then ({ db1 with extSeq := id }, none)
    else
      ({ db1 with file_extensions := db1.file_extensions ++ [⟨id, ext⟩], extSeq := id }, none)

/-- Query `SELECT id FROM file_extensions WHERE extension = ?` followed by `Scan`. -/
def queryRowExtId (db : DB) (ext : String) : DB × Int × Option SqlError :=
  match db.step with
  | (true, db1) => (db1, 0, some .storage)
  | (false, db1) =>
    match db1.file_extensions.find? (fun r => r.Extension = ext) with
    | some r => (db1, r.ID, none)
    | none => (db1, 0, some .noRows)

/-- Go `addExtension`. -/
def addExtension (db : DB) (ext : String) : DB × Int × Option SqlError :=
  match execInsertOrIgnoreExt db ext with
  | (db1, some e) => (db1, 0, some e)
  | (db1, none) => queryRowExtId db1 ext

/-- Primary key test of `char_frequencies`. -/
def CharFrequency.hasKey (r : CharFrequency) (urlID extID : Int) (char : GoString) : Bool :=
  r.URLID = urlID && r.FileExtID = extID && r.Char = char

/-- The upsert of `addCharFrequency`:
`INSERT INTO char_frequencies ... ON CONFLICT(url_id, extension_id, character)
DO UPDATE SET frequency = frequency + excluded.frequency`.
A new row needs its two parent rows (the connection is opened with
`_foreign_keys=1`); the update of an existing row touches no key column.  The
sum is exact: when it leaves the 64-bit range the column holds a REAL. -/
def execUpsert (db : DB) (urlID extID : Int) (char : GoString) (freq : Int) :
    DB × Option SqlError :=
  match db.step with
  | (true, db1) => (db1, some .storage)
  | (false, db1) =>
    if db1.char_frequencies.any (fun r => r.hasKey urlID extID char) then
      ({ db1 with char_frequencies := db1.char_frequencies.map (fun r =>
          if r.hasKey urlID extID char then { r with Frequency := r.Frequency + freq } else r) },
        none)
    else if db1.urls.any (fun u => u.ID = urlID) &&
        db1.file_extensions.any (fun e => e.ID = extID) then
      ({ db1 with char_frequencies := db1.char_frequencies ++ [⟨urlID, extID, char, freq⟩] },
        none)
    else (db1, some .foreignKey)

/-- Go `addCharFrequency`. -/
def addCharFrequency (db : DB) (urlID extID : Int) (char : GoString) (freq : Int) :
    DB × Option SqlError :=
  execUpsert db urlID extID char freq

/-- Rows that the SELECT in `getStatistics` selects, in the order in which the
table holds them: `char_frequencies` joined with `file_extensions` and `urls` on
the two ids, restricted to the given url and extension. -/
def joinedRows (db : DB) (url ext : String) : List (GoString × Int) :=
  db.char_frequencies.flatMap (fun f =>
    (db.file_extensions.filter (fun e => f.FileExtID = e.ID ∧ e.Extension = ext)).flatMap
      (fun _ =>
        (db.urls.filter (fun u => f.URLID = u.ID ∧ u.Url = url)).map
          (fun _ => (f.Char, f.Frequency))))

/-- Byte order of two strings (the BINARY collation of SQLite): the first
differing byte decides, a proper prefix comes first. -/
def bytesLE : GoString → GoString → Bool
  | [], _ => true
  | _ :: _, [] => false
  | a :: as, b :: bs => a < b || (a == b && bytesLE as bs)

/-- Rows of the SELECT in `getStatistics` as SQLite returns them: the statement
has no ORDER BY and the rows of a bucket are read through the index of the
primary key (url_id, extension_id, character), that is in the byte order of
`character`. -/
def queryStatistics (db : DB) (url ext : String) : List (GoString × Int) :=
  (joinedRows db url ext).insertionSort (fun a b => bytesLE a.1 b.1 = true)

/-- Outcome of a Go function returning `(map[rune]int, error)` that may also
stop with a run-time panic. -/
inductive StatsResult where
  | ok (stats : GoMap)
  | err (e : SqlError)
  | runtimePanic
deriving DecidableEq, Repr

/-- The `for rows.Next()` loop of `getStatistics`: `rows.Scan(&char, &freq)`, which
fails on a frequency that is a REAL, then `stats[rune(char[0])] = freq`, where
indexing an empty string panics. -/
def scanRows : List (GoString × Int) → GoMap → StatsResult
  | [], stats => .ok stats
  | (char, freq) :: rest, stats =>
    if isInt64 freq then
      match char with
      | [] => .runtimePanic
      | b :: _ => scanRows rest (stats.set (Int.ofNat b) freq)
    else .err .scan

/-- Go `getStatistics`. -/
def getStatistics (db : DB) (url ext : String) : DB × StatsResult :=
  match db.step with
  | (true, db1) => (db1, .err .storage)
  | (false, db1) => (db1, scanRows (queryStatistics db1 url ext) [])

/-- Statement `DELETE FROM file_extensions WHERE <col1>=? and <col2>=?` with
integer arguments.  The statement is rejected when a column is not one of the table's. -/
def execDeleteFileExtensions (db : DB) (conds : List (String × Int)) : DB × Option SqlError :=
  match db.step with
  | (true, db1) => (db1, some .storage)
  | (false, db1) =>
    match conds.find? (fun c => !(fileExtensionsColumns.contains c.1)) with
    | some c => (db1, some (.noSuchColumn c.1))
    | none =>
      ({ db1 with file_extensions :=
          db1.file_extensions.filter (fun r => !(conds.all (fun c => r.colEq c.1 c.2))) }, none)

/-- Go `deleteStatistics`:
`DELETE FROM file_extensions WHERE url_id=? and extension_id=?`. -/
def deleteStatistics (db : DB) (urlID extID : Int) : DB × Option SqlError :=
  execDeleteFileExtensions db [("url_id", urlID), ("extension_id", extID)]

/-- The `for char, freq := range stat` loop of `saveStatistics`. -/
def saveLoop (db : DB) (urlID extID : Int) : GoMap → DB × Option SqlError
  | [] => (db, none)
  | (char, freq) :: rest =>
    match addCharFrequency db urlID extID (encodeRune char) freq with
    | (db1, some e) => (db1, some e)
    | (db1, none) => saveLoop db1 urlID extID rest

/-- Go `saveStatistics`.  The result of `deleteStatistics` is dropped, as in the
source. -/
def saveStatistics (db : DB) (repoURL ext : String) (stat : GoMap) : DB × Option SqlError :=
  match addURL db repoURL with
  | (db1, _, some e) => (db1, some e)
  | (db1, urlID, none) =>
    match addExtension db1 ext with
    | (db2, _, some e) => (db2, some e)
    | (db2, extID, none) =>
      saveLoop (deleteStatistics db2 urlID extID).1 urlID extID stat

/-- Stored frequency of a key of `char_frequencies`, if the key has a row. -/
def storedCount (db : DB) (urlID extID : Int) (char : GoString) : Option Int :=
  (db.char_frequencies.find? (fun r => r.hasKey urlID extID char)).map CharFrequency.Frequency

/-- Results of `n` successive calls `addURL(db, url)`: the final state and what
each call returned, in call order. -/
def addURLRepeat (db : DB) (url : String) : Nat → DB × List (Int × Option SqlError)
  | 0 => (db, [])
  | n + 1 =>
    let r := addURL db url
    let rs := addURLRepeat r.1 url n
    (rs.1, r.2 :: rs.2)

/-- Results of `n` successive calls `addExtension(db, ext)`. -/
def addExtensionRepeat (db : DB) (ext : String) : Nat → DB × List (Int × Option SqlError)
  | 0 => (db, [])
  | n + 1 =>
    let r := addExtension db ext
    let rs := addExtensionRepeat r.1 ext n
    (rs.1, r.2 :: rs.2)

/-! ## Text handling of main.go -/

/-- The parts of package `unicode` that are large tables: the category tests and
the lower-case mapping of code points above U+007F. -/
structure UnicodeTables where
  IsLetter : Rune → Bool
  IsDigit : Rune → Bool
  IsSymbol : Rune → Bool
  lowerCase : Rune → Rune

/-- Go `unicode.IsSpace` (the White_Space property). -/
def unicodeIsSpace (r : Rune) : Bool :=
  (0x09 ≤ r ∧ r ≤ 0x0D) ∨ r = 0x20 ∨ r = 0x85 ∨ r = 0xA0 ∨ r = 0x1680 ∨
    (0x2000 ≤ r ∧ r ≤ 0x200A) ∨ r = 0x2028 ∨ r = 0x2029 ∨ r = 0x202F ∨ r = 0x205F ∨
    r = 0x3000

/-- Go `unicode.ToLower`: ASCII is handled directly, the rest by the table. -/
def unicodeToLower (T : UnicodeTables) (r : Rune) : Rune :=
  if r ≤ 0x7F then (if 0x41 ≤ r ∧ r ≤ 0x5A then r + 32 else r) else T.lowerCase r

/-- UTF-8 continuation byte. -/
def isContByte (b : Nat) : Bool := 0x80 ≤ b ∧ b ≤ 0xBF

/-- First rune of a non-empty string and its width in bytes, as `range` over a
string decodes it: an invalid or truncated sequence yields U+FFFD of width 1. -/
def decodeRune : GoString → Rune × Nat
  | [] => (RuneError, 0)
  | b0 :: rest =>
    if b0 < 0x80 then (Int.ofNat b0, 1)
    else if 0xC2 ≤ b0 ∧ b0 ≤ 0xDF then
      match rest with
      | b1 :: _ =>
        if isContByte b1 then (Int.ofNat (((b0 &&& 0x1F) <<< 6) ||| (b1 &&& 0x3F)), 2)
        else (RuneError, 1)
      | [] => (RuneError, 1)
    else if 0xE0 ≤ b0 ∧ b0 ≤ 0xEF then
      match rest with
      | b1 :: b2 :: _ =>
        if (if b0 = 0xE0 then 0xA0 else 0x80) ≤ b1 ∧ b1 ≤ (if b0 = 0xED then 0x9F else 0xBF) ∧
            isContByte b2 then
          (Int.ofNat (((b0 &&& 0x0F) <<< 12) ||| ((b1 &&& 0x3F) <<< 6) ||| (b2 &&& 0x3F)), 3)
        else (RuneError, 1)
      | _ => (RuneError, 1)
    else if 0xF0 ≤ b0 ∧ b0 ≤ 0xF4 then
      match rest with
      | b1 :: b2 :: b3 :: _ =>
        if (if b0 = 0xF0 then 0x90 else 0x80) ≤ b1 ∧ b1 ≤ (if b0 = 0xF4 then 0x8F else 0xBF) ∧
            isContByte b2 ∧ isContByte b3 then
          (Int.ofNat (((b0 &&& 0x07) <<< 18) ||| ((b1 &&& 0x3F) <<< 12) |||
            ((b2 &&& 0x3F) <<< 6) ||| (b3 &&& 0x3F)), 4)
        else (RuneError, 1)
      | _ => (RuneError, 1)
    else (RuneError, 1)

/-- Runes visited by `for _, char := range text`; `skip` counts the bytes of the
current rune still to pass over. -/
def rangeRunes : Nat → GoString → List Rune
  | _, [] => []
  | skip + 1, _ :: rest => rangeRunes skip rest
  | 0, b :: rest => (decodeRune (b :: rest)).1 :: rangeRunes ((decodeRune (b :: rest)).2 - 1) rest

/-- Go `strings.Map`: every rune of the string is replaced by its image, a
negative image drops the rune. -/
def stringsMap (mapping : Rune → Rune) (s : GoString) : GoString :=
  (rangeRunes 0 s).flatMap (fun c => if 0 ≤ mapping c then encodeRune (mapping c) else [])

/-- Go `strings.ToLower`. -/
def stringsToLower (T : UnicodeTables) (s : GoString) : GoString :=
  if s.all (fun c => c < 0x80) then
    if !(s.any (fun c => 0x41 ≤ c ∧ c ≤ 0x5A)) then s
    else s.map (fun c => if 0x41 ≤ c ∧ c ≤ 0x5A then c + 32 else c)
  else stringsMap (unicodeToLower T) s

/-- Modelled from the spec: the declaration of type `Settings` is not among the
sources.  The fields are the flag values `main` stores in it and the other
functions dereference (`*s.ignoreLetters`, ..., `*s.limitTop`). -/
structure Settings where
  ignoreLetters : Bool
  ignoreDigits : Bool
  ignoreSymbols : Bool
  caseSensetive : Bool
  countSpace : Bool
  limitTop : Int
deriving DecidableEq, Repr

/-- The file system seen by `os.ReadFile`: the content of a path, or the error. -/
abbrev FS := String → Except String GoString

/-- The loop `for _, char := range text { frequency[char]++ }`. -/
def countLoop : List Rune → GoMap → GoMap
  | [], frequency => frequency
  | char :: rest, frequency => countLoop rest (frequency.set char (frequency.index char + 1))

/-- Go `countChars`: the updated map and the returned error. -/
def countChars (T : UnicodeTables) (fs : FS) (file : String) (frequency : GoMap)
    (s : Settings) : GoMap × Option String :=
  match fs file with
  | .error err => (frequency, some err)
  | .ok data =>
    let text := if !s.caseSensetive then stringsToLower T data else data
    (countLoop (rangeRunes 0 text) frequency, none)

/-- The per-extension loop of `main`:
`frequency := make(map[rune]int); for _, file := range files { countChars(file, frequency, s) }`. -/
def countFiles (T : UnicodeTables) (fs : FS) (files : List String) (s : Settings) : GoMap :=
  files.foldl (fun frequency file => (countChars T fs file frequency s).1) []

/-- Go `isIgnoredChar`. -/
def isIgnoredChar (T : UnicodeTables) (char : Rune) (s : Settings) : Bool :=
  if T.IsLetter char && s.ignoreLetters then true
  else if T.IsDigit char && s.ignoreDigits then true
  else if T.IsSymbol char && s.ignoreSymbols then true
  else if unicodeIsSpace char && !s.countSpace then true
  else false

/-! ## Ranking of main.go -/

/-- A `float64`: a finite value (kept exact), an infinity, or NaN. -/
inductive F64 where
  | fin (q : ℚ)
  | posInf
  | negInf
  | nan
deriving DecidableEq

/-- Conversion `float64(n)`. -/
def F64.ofInt (n : Int) : F64 := .fin n

/-- Addition of `float64`. -/
def F64.add : F64 → F64 → F64
  | .fin a, .fin b => .fin (a + b)
  | .nan, _ => .nan
  | _, .nan => .nan
  | .posInf, .negInf => .nan
  | .negInf, .posInf => .nan
  | .posInf, _ => .posInf
  | _, .posInf => .posInf
  | .negInf, _ => .negInf
  | _, .negInf => .negInf

/-- Sign of a `float64` other than NaN: 1, 0 or -1. -/
def F64.sign : F64 → Int
  | .fin q => if 0 < q then 1 else if q < 0 then -1 else 0
  | .posInf => 1
  | .negInf => -1
  | .nan => 0

/-- Infinity of the given sign, NaN for sign 0. -/
def F64.infOfSign (sg : Int) : F64 :=
  if 0 < sg then .posInf else if sg < 0 then .negInf else .nan

/-- Multiplication of `float64`. -/
def F64.mul : F64 → F64 → F64
  | .fin a, .fin b => .fin (a * b)
  | .nan, _ => .nan
  | _, .nan => .nan
  | x, y => F64.infOfSign (x.sign * y.sign)

/-- Division of `float64`: a finite non-zero value over zero is an infinity,
zero over zero is NaN. -/
def F64.div : F64 → F64 → F64
  | .fin a, .fin b => if b = 0 then F64.infOfSign (F64.sign (.fin a)) else .fin (a / b)
  | .nan, _ => .nan
  | _, .nan => .nan
  | .fin _, _ => .fin 0
  | x, .fin b => F64.infOfSign (x.sign * (if b < 0 then -1 else 1))
  | _, _ => .nan

/-- The local type `charFreq` of `printFrequency`. -/
structure charFreq where
  Char : Rune
  Freq : Int
deriving DecidableEq, Repr

/-- The comparison passed to `sort.Slice`: `sortedFreq[i].Freq > sortedFreq[j].Freq`. -/
def freqGreater (a b : charFreq) : Bool := a.Freq > b.Freq

/-- What `sort.Slice` promises of its result: the same elements, none placed
before an element that is less than it.  Equal elements may come in any order. -/
structure SortSliceSpec (sortSlice : List charFreq → (charFreq → charFreq → Bool) → List charFreq) :
    Prop where
  perm : ∀ l less, (sortSlice l less).Perm l
  sorted : ∀ l, (sortSlice l freqGreater).Pairwise (fun a b => freqGreater b a = false)

/-- An insertion sort, one implementation of `sort.Slice`. -/
def insertionSortSlice (l : List charFreq) (less : charFreq → charFreq → Bool) : List charFreq :=
  l.insertionSort (fun a b => less b a = false)

/-- One table line written by `fmt.Printf` in `printFrequency`: the rank `i`,
`kv.Freq`, the two percentages, and the character shown by `RuneToStr`. -/
structure Row where
  rank : Int
  freq : Int
  pctAll : F64
  pctSelected : F64
  char : Rune
deriving DecidableEq

/-- First loop of `printFrequency`: the slice `sortedFreq` and the sums `sum` and
`sumsel`. -/
def totalsLoop (T : UnicodeTables) (s : Settings) :
    GoMap → List charFreq × F64 × F64 → List charFreq × F64 × F64
  | [], acc => acc
  | (char, freq) :: rest, (sortedFreq, sum, sumsel) =>
    totalsLoop T s rest
      (sortedFreq ++ [⟨char, freq⟩], F64.add sum (F64.ofInt freq),
        if !isIgnoredChar T char s then F64.add sumsel (F64.ofInt freq) else sumsel)

/-- Second loop of `printFrequency`, from rank counter `i`: the lines written and
the number of float divisions evaluated. -/
def printLoop (T : UnicodeTables) (s : Settings) (sum sumsel : F64) :
    List charFreq → Int → List Row × Nat
  | [], _ => ([], 0)
  | kv :: rest, i =>
    if !isIgnoredChar T kv.Char s then
      let row : Row :=
        { rank := i + 1, freq := kv.Freq,
          pctAll := F64.div (F64.mul (F64.ofInt kv.Freq) (F64.ofInt 100)) sum,
          pctSelected := F64.div (F64.mul (F64.ofInt kv.Freq) (F64.ofInt 100)) sumsel,
          char := kv.Char }
      if i + 1 > s.limitTop then ([row], 2)
      else (row :: (printLoop T s sum sumsel rest (i + 1)).1,
        (printLoop T s sum sumsel rest (i + 1)).2 + 2)
    else printLoop T s sum sumsel rest i

/-- Go `printFrequency`: the table lines below the two header lines, and the
number of float divisions evaluated. -/
def printFrequency (T : UnicodeTables)
    (sortSlice : List charFreq → (charFreq → charFreq → Bool) → List charFreq)
    (frequency : GoMap) (s : Settings) : List Row × Nat :=
  let totals := totalsLoop T s frequency ([], F64.fin 0, F64.fin 0)
  printLoop T s totals.2.1 totals.2.2 (sortSlice totals.1 freqGreater) 0

/-- Unicode tables that are right on ASCII (letters, digits and the symbols
`$ + < = > ^ | ~` and the grave accent) and say no elsewhere. -/
def asciiTables : UnicodeTables where
  IsLetter r := (0x41 ≤ r ∧ r ≤ 0x5A) ∨ (0x61 ≤ r ∧ r ≤ 0x7A)
  IsDigit r := 0x30 ≤ r ∧ r ≤ 0x39
  IsSymbol r := r = 0x24 ∨ r = 0x2B ∨ (0x3C ≤ r ∧ r ≤ 0x3E) ∨ r = 0x5E ∨ r = 0x60 ∨ r = 0x7C ∨
    r = 0x7E
  lowerCase r := r

/-! ## Auxiliary quantities used in the statements -/

/-- Runes `countChars` counts for a file: none when the read fails. -/
def fileRunes (T : UnicodeTables) (fs : FS) (s : Settings) (file : String) : List Rune :=
  match fs file with
  | .error _ => []
  | .ok data => rangeRunes 0 (if !s.caseSensetive then stringsToLower T data else data)

/-- Sum of all counts of a map. -/
def totalAll (frequency : GoMap) : Int := (frequency.map Prod.snd).sum

/-- Sum of the counts of the characters that are not ignored. -/
def totalSelected (T : UnicodeTables) (s : Settings) (frequency : GoMap) : Int :=
  ((frequency.filter (fun p => !isIgnoredChar T p.1 s)).map Prod.snd).sum

/-- Number of entries of a slice that are not ignored. -/
def survivors (T : UnicodeTables) (s : Settings) (l : List charFreq) : Nat :=
  (l.filter (fun kv => !isIgnoredChar T kv.Char s)).length

/-! ## Example inputs -/

/-- File system of the examples: two readable files, every other path fails. -/
def exampleFS : FS := fun path =>
  if path = "a.txt" then .ok [0x41, 0x62, 0x61]
  else if path = "b.txt" then .ok [0x62, 0x20]
  else .error "open: no such file or directory"

/-- Settings of the examples: nothing is ignored but white space, top 2. -/
def exampleSettings (cs : Bool) : Settings :=
  { ignoreLetters := false, ignoreDigits := false, ignoreSymbols := false,
    caseSensetive := cs, countSpace := false, limitTop := 2 }

/-- Store in which the bucket ("r", "*.go") holds the aggregate a:1, b:1. -/
def exampleStore : DB := (saveStatistics DB.empty "r" "*.go" [(97, 1), (98, 1)]).1

/-- Store with one repository row and one extension row, both with id 1, and no
frequency rows. -/
def exampleIdentities : DB := (addExtension (addURL DB.empty "r").1 "*.go").1

/-- Same tables, sequences and clock; only the failure schedule may differ. -/
def DB.SameData (db db' : DB) : Prop :=
  db'.urls = db.urls ∧ db'.urlSeq = db.urlSeq ∧ db'.file_extensions = db.file_extensions ∧
    db'.extSeq = db.extSeq ∧ db'.char_frequencies = db.char_frequencies ∧ db'.clock = db.clock

/-- Two rows of `char_frequencies` with different primary keys. -/
def CharFrequency.keyNe (a b : CharFrequency) : Prop :=
  ¬(a.URLID = b.URLID ∧ a.FileExtID = b.FileExtID ∧ a.Char = b.Char)

/-- The constraints that the schema of `initDB` puts on the tables: the primary
keys, the UNIQUE columns and the foreign keys. -/
structure DB.WF (db : DB) : Prop where
  urlIds : (db.urls.map URL.ID).Nodup
  urlKeys : (db.urls.map URL.Url).Nodup
  extIds : (db.file_extensions.map FileExt.ID).Nodup
  extKeys : (db.file_extensions.map FileExt.Extension).Nodup
  fkUrl : ∀ f ∈ db.char_frequencies, f.URLID ∈ db.urls.map URL.ID
  fkExt : ∀ f ∈ db.char_frequencies, f.FileExtID ∈ db.file_extensions.map FileExt.ID
  primaryKey : db.char_frequencies.Pairwise CharFrequency.keyNe

/-- The row update of the upsert. -/
def CharFrequency.addFreq (urlID extID : Int) (char : GoString) (freq : Int)
    (r : CharFrequency) : CharFrequency :=
  if r.hasKey urlID extID char then { r with Frequency := r.Frequency + freq } else r

/-- Store states that the operations of db.go reach from the empty store, under
any schedule of storage failures and any passing of time. -/
inductive Reachable : DB → Prop
  | init (faults : List Nat) (clock : Nat) :
      Reachable { DB.empty with faults := faults, clock := clock }
  | advance {db : DB} (clock : Nat) : Reachable db → Reachable { db with clock := clock }
  | addURL {db : DB} (url : String) : Reachable db → Reachable (addURL db url).1
  | addExtension {db : DB} (ext : String) : Reachable db → Reachable (addExtension db ext).1
  | addCharFrequency {db : DB} (urlID extID : Int) (char : GoString) (freq : Int) :
      Reachable db → Reachable (addCharFrequency db urlID extID char freq).1
  | getStatistics {db : DB} (url ext : String) :
      Reachable db → Reachable (getStatistics db url ext).1
  | deleteStatistics {db : DB} (urlID extID : Int) :
      Reachable db → Reachable (deleteStatistics db urlID extID).1
  | saveStatistics {db : DB} (repoURL ext : String) (stat : GoMap) :
      Reachable db → Reachable (saveStatistics db repoURL ext stat).1

/-- Rows that one row of `char_frequencies` contributes to the SELECT of
`getStatistics`. -/
def joinRows (us : List URL) (es : List FileExt) (url ext : String) (f : CharFrequency) :
    List (GoString × Int) :=
  (es.filter (fun e => f.FileExtID = e.ID ∧ e.Extension = ext)).flatMap
    (fun _ => (us.filter (fun u => f.URLID = u.ID ∧ u.Url = url)).map
      (fun _ => (f.Char, f.Frequency)))

/-- The row that `saveStatistics` stores for one entry of the aggregate, as the
SELECT of `getStatistics` returns it. -/
def statRow (p : Rune × Int) : GoString × Int := (encodeRune p.1, p.2)

/-- Empty store on a connection whose seventh database call fails. -/
def exampleFailingStore : DB := { DB.empty with faults := [6] }

/-- Store in which the bucket ("r", "*.go") holds the aggregate a:1, b:1, on a
connection whose next database call fails. -/
def exampleStoreFailingNext : DB :=
  (saveStatistics { DB.empty with faults := [7] } "r" "*.go" [(97, 1), (98, 1)]).1

/-- The entry of `sortedFreq` that a written line shows. -/
def Row.entry (r : Row) : charFreq := ⟨r.char, r.freq⟩

/-- The rune that a code point becomes when it is written as UTF-8 and read
back: itself if valid, U+FFFD otherwise. -/
def normRune (r : Rune) : Rune :=
  if r < 0 ∨ 0x10FFFF < r ∨ (0xD800 ≤ r ∧ r ≤ 0xDFFF) then RuneError else r

/-- The rune that `strings.Map` leaves for a rune of its input. -/
def mapRune (mapping : Rune → Rune) (c : Rune) : Option Rune :=
  if 0 ≤ mapping c then some (normRune (mapping c)) else none

/-- Unicode tables of the case-folding examples: the ASCII tables, with the
lower-case mapping of the two code points above U+007F whose lower case is an
ASCII letter in Unicode, U+212A KELVIN SIGN (k) and U+0130 (i). -/
def kelvinTables : UnicodeTables :=
  { asciiTables with
    lowerCase := fun r => if r = 0x212A then 0x6B else if r = 0x130 then 0x69 else r }

/-- File system with the one file "k.txt", whose content is U+212A followed by
the letter K. -/
def kelvinFS : FS := fun path =>
  if path = "k.txt" then .ok [0xE2, 0x84, 0xAA, 0x4B]
  else .error "open: no such file or directory"

/-- Store states that the write path of the program reaches from the empty
store, under any schedule of storage failures and any passing of time: as
`Reachable`, but `addCharFrequency` is called with a non-empty character, as
`saveStatistics`, its only caller, does (`string(char)` is never empty). -/
inductive ReachableNonEmpty : DB → Prop
  | init (faults : List Nat) (clock : Nat) :
      ReachableNonEmpty { DB.empty with faults := faults, clock := clock }
  | advance {db : DB} (clock : Nat) :
      ReachableNonEmpty db → ReachableNonEmpty { db with clock := clock }
  | addURL {db : DB} (url : String) : ReachableNonEmpty db → ReachableNonEmpty (addURL db url).1
  | addExtension {db : DB} (ext : String) :
      ReachableNonEmpty db → ReachableNonEmpty (addExtension db ext).1
  | addCharFrequency {db : DB} (urlID extID : Int) (char : GoString) (freq : Int) :
      char ≠ [] → ReachableNonEmpty db →
      ReachableNonEmpty (addCharFrequency db urlID extID char freq).1
  | getStatistics {db : DB} (url ext : String) :
      ReachableNonEmpty db → ReachableNonEmpty (getStatistics db url ext).1
  | deleteStatistics {db : DB} (urlID extID : Int) :
      ReachableNonEmpty db → ReachableNonEmpty (deleteStatistics db urlID extID).1
  | saveStatistics {db : DB} (repoURL ext : String) (stat : GoMap) :
      ReachableNonEmpty db → ReachableNonEmpty (saveStatistics db repoURL ext stat).1

/-! ## Lemmas -/

theorem DB.step_of_noFaults (db : DB) (hf : db.faults = []) : db.step = (false, db) := by
  simp [DB.step, hf]

theorem find?_map_upsert (rows : List CharFrequency) (urlID extID : Int) (char : GoString)
    (v : Int) :
    (rows.map (fun r => if r.hasKey urlID extID char then
        { r with Frequency := r.Frequency + v } else r)).find?
        (fun r => r.hasKey urlID extID char)
      = (rows.find? (fun r => r.hasKey urlID extID char)).map
        (fun r => { r with Frequency := r.Frequency + v }) := by
  induction rows with
  | nil => rfl
  | cons r rest ih =>
    by_cases h : r.hasKey urlID extID char = true
    · simp [List.find?, h, CharFrequency.hasKey] at *
      simp [h]
    · simp only [Bool.not_eq_true] at h
      simp [List.find?, h, ih]

theorem storedCount_execUpsert (db : DB) (urlID extID : Int) (char : GoString) (v : Int)
    (hf : db.faults = [])
    (hu : ∃ u ∈ db.urls, u.ID = urlID) (he : ∃ e ∈ db.file_extensions, e.ID = extID) :
    (addCharFrequency db urlID extID char v).2 = none ∧
    (addCharFrequency db urlID extID char v).1.faults = [] ∧
    (addCharFrequency db urlID extID char v).1.urls = db.urls ∧
    (addCharFrequency db urlID extID char v).1.file_extensions = db.file_extensions ∧
    storedCount (addCharFrequency db urlID extID char v).1 urlID extID char
      = some ((storedCount db urlID extID char).getD 0 + v) := by
  obtain ⟨u, hu, hu'⟩ := hu
  obtain ⟨e, he, he'⟩ := he
  have hany1 : db.urls.any (fun u => decide (u.ID = urlID)) = true :=
    List.any_eq_true.2 ⟨u, hu, by simpa using hu'⟩
  have hany2 : db.file_extensions.any (fun e => decide (e.ID = extID)) = true :=
    List.any_eq_true.2 ⟨e, he, by simpa using he'⟩
  unfold addCharFrequency execUpsert
  rw [DB.step_of_noFaults db hf]
  by_cases hk : db.char_frequencies.any (fun r => r.hasKey urlID extID char) = true
  · simp only [hk, if_true, storedCount, find?_map_upsert, hf]
    obtain ⟨r, hr, hr'⟩ := List.any_eq_true.1 hk
    cases hfind : db.char_frequencies.find? (fun r => r.hasKey urlID extID char) with
    | none =>
      have := List.find?_eq_none.1 hfind r hr
      exact absurd hr' this
    | some r0 => simp
  · simp only [hk, hany1, hany2, Bool.and_self, Bool.false_eq_true, if_true, if_false,
      storedCount, hf]
    have hnone : db.char_frequencies.find? (fun r => r.hasKey urlID extID char) = none := by
      rw [List.find?_eq_none]
      intro r hr hr'
      exact hk (List.any_eq_true.2 ⟨r, hr, hr'⟩)
    rw [List.find?_append, hnone]
    simp [CharFrequency.hasKey]

theorem find?_of_filter_singleton {α : Type} (p : α → Bool) (l : List α) (a : α)
    (h : l.filter p = [a]) : l.find? p = some a := by
  induction l with
  | nil => simp at h
  | cons b rest ih =>
    by_cases hb : p b = true
    · rw [List.filter_cons_of_pos hb] at h
      rw [List.find?_cons_of_pos _ hb]
      exact congrArg some (List.cons.inj h).1
    · rw [List.filter_cons_of_neg hb] at h
      rw [List.find?_cons_of_neg _ hb]
      exact ih h

theorem any_of_filter_singleton {α : Type} (p : α → Bool) (l : List α) (a : α)
    (h : l.filter p = [a]) : l.any p = true := by
  have hm : a ∈ l.filter p := by rw [h]; exact List.mem_singleton_self a
  rw [List.mem_filter] at hm
  exact List.any_eq_true.2 ⟨a, hm.1, hm.2⟩

theorem filter_eq_nil_of_any_false {α : Type} (p : α → Bool) (l : List α)
    (h : ¬ l.any p = true) : l.filter p = [] := by
  rw [List.filter_eq_nil_iff]
  intro a ha hp
  exact h (List.any_eq_true.2 ⟨a, ha, hp⟩)

theorem filter_singleton_of_any {α : Type} (p : α → Bool) (l : List α)
    (h : l.any p = true) (hl : (l.filter p).length ≤ 1) : ∃ a, l.filter p = [a] := by
  obtain ⟨a, ha, hp⟩ := List.any_eq_true.1 h
  have hm : a ∈ l.filter p := List.mem_filter.2 ⟨ha, hp⟩
  match hfl : l.filter p with
  | [] => rw [hfl] at hm; cases hm
  | [b] => exact ⟨b, rfl⟩
  | b :: c :: rest => rw [hfl] at hl; simp at hl

theorem addURL_of_present (db : DB) (url : String) (row : URL) (hf : db.faults = [])
    (h : db.urls.filter (fun r => r.Url = url) = [row]) :
    addURL db url
      = ({ db with urlSeq := nextRowid db.urlSeq (db.urls.map URL.ID) }, row.ID, none) := by
  have hstep : ∀ (q : Int), DB.step { db with urlSeq := q } = (false, { db with urlSeq := q }) :=
    fun q => DB.step_of_noFaults { db with urlSeq := q } hf
  simp only [addURL, execInsertOrIgnoreUrl, DB.step_of_noFaults db hf,
    any_of_filter_singleton _ _ _ h, if_true, queryRowUrlId, hstep,
    find?_of_filter_singleton _ _ _ h]

theorem addURL_first (db : DB) (url : String) (hf : db.faults = [])
    (h : (db.urls.filter (fun r => r.Url = url)).length ≤ 1) :
    ∃ row, (addURL db url).2 = (row.ID, none) ∧ (addURL db url).1.faults = [] ∧
      (addURL db url).1.urls.filter (fun r => r.Url = url) = [row] := by
  by_cases hany : db.urls.any (fun r => r.Url = url) = true
  · obtain ⟨row, hrow⟩ := filter_singleton_of_any _ _ hany h
    exact ⟨row, by rw [addURL_of_present db url row hf hrow]; exact ⟨rfl, hf, hrow⟩⟩
  · have hnil := filter_eq_nil_of_any_false _ _ hany
    refine ⟨⟨nextRowid db.urlSeq (db.urls.map URL.ID), url, db.clock⟩, ?_⟩
    have hflt : (db.urls ++ [(⟨nextRowid db.urlSeq (db.urls.map URL.ID), url, db.clock⟩ : URL)]).filter
        (fun r => r.Url = url) = [⟨nextRowid db.urlSeq (db.urls.map URL.ID), url, db.clock⟩] := by
      rw [List.filter_append, hnil]; simp
    have hstep : ∀ (us : List URL) (q : Int), DB.step { db with urls := us, urlSeq := q }
        = (false, { db with urls := us, urlSeq := q }) := fun us q =>
      DB.step_of_noFaults { db with urls := us, urlSeq := q } hf
    simp only [addURL, execInsertOrIgnoreUrl, DB.step_of_noFaults db hf, hany, if_false,
      Bool.false_eq_true, queryRowUrlId, hstep, find?_of_filter_singleton _ _ _ hflt]
    exact ⟨trivial, hf, hflt⟩

theorem addURLRepeat_of_present (url : String) (row : URL) (n : Nat) :
    ∀ (db : DB), db.faults = [] → db.urls.filter (fun r => r.Url = url) = [row] →
      (addURLRepeat db url n).1.urls = db.urls ∧
      (addURLRepeat db url n).2 = List.replicate n (row.ID, none) := by
  induction n with
  | zero => intro db _ _; exact ⟨rfl, rfl⟩
  | succ n ih =>
    intro db hf h
    obtain ⟨h1, h2⟩ := ih { db with urlSeq := nextRowid db.urlSeq (db.urls.map URL.ID) } hf h
    simp only [addURLRepeat, addURL_of_present db url row hf h, h1, h2, List.replicate, and_self]

theorem addURLRepeat_spec (db : DB) (url : String) (n : Nat) (hn : 1 ≤ n) (hf : db.faults = [])
    (h : (db.urls.filter (fun r => r.Url = url)).length ≤ 1) :
    ∃ row, (addURLRepeat db url n).1.urls.filter (fun r => r.Url = url) = [row] ∧
      (addURLRepeat db url n).2 = List.replicate n (row.ID, none) := by
  obtain ⟨m, rfl⟩ : ∃ m, n = m + 1 := ⟨n - 1, by omega⟩
  obtain ⟨row, h1, h2, h3⟩ := addURL_first db url hf h
  refine ⟨row, ?_⟩
  obtain ⟨h4, h5⟩ := addURLRepeat_of_present url row m (addURL db url).1 h2 h3
  simp only [addURLRepeat, h4, h5, h1, h3, List.replicate, and_self]

theorem addExtension_of_present (db : DB) (ext : String) (row : FileExt) (hf : db.faults = [])
    (h : db.file_extensions.filter (fun r => r.Extension = ext) = [row]) :
    addExtension db ext
      = ({ db with extSeq := nextRowid db.extSeq (db.file_extensions.map FileExt.ID) },
          row.ID, none) := by
  have hstep : ∀ (q : Int), DB.step { db with extSeq := q } = (false, { db with extSeq := q }) :=
    fun q => DB.step_of_noFaults { db with extSeq := q } hf
  simp only [addExtension, execInsertOrIgnoreExt, DB.step_of_noFaults db hf,
    any_of_filter_singleton _ _ _ h, if_true, queryRowExtId, hstep,
    find?_of_filter_singleton _ _ _ h]

theorem addExtension_first (db : DB) (ext : String) (hf : db.faults = [])
    (h : (db.file_extensions.filter (fun r => r.Extension = ext)).length ≤ 1) :
    ∃ row, (addExtension db ext).2 = (row.ID, none) ∧ (addExtension db ext).1.faults = [] ∧
      (addExtension db ext).1.file_extensions.filter (fun r => r.Extension = ext) = [row] := by
  by_cases hany : db.file_extensions.any (fun r => r.Extension = ext) = true
  · obtain ⟨row, hrow⟩ := filter_singleton_of_any _ _ hany h
    exact ⟨row, by rw [addExtension_of_present db ext row hf hrow]; exact ⟨rfl, hf, hrow⟩⟩
  · have hnil := filter_eq_nil_of_any_false _ _ hany
    refine ⟨⟨nextRowid db.extSeq (db.file_extensions.map FileExt.ID), ext⟩, ?_⟩
    have hflt : (db.file_extensions ++
        [(⟨nextRowid db.extSeq (db.file_extensions.map FileExt.ID), ext⟩ : FileExt)]).filter
        (fun r => r.Extension = ext)
        = [⟨nextRowid db.extSeq (db.file_extensions.map FileExt.ID), ext⟩] := by
      rw [List.filter_append, hnil]; simp
    have hstep : ∀ (es : List FileExt) (q : Int),
        DB.step { db with file_extensions := es, extSeq := q }
          = (false, { db with file_extensions := es, extSeq := q }) := fun es q =>
      DB.step_of_noFaults { db with file_extensions := es, extSeq := q } hf
    simp only [addExtension, execInsertOrIgnoreExt, DB.step_of_noFaults db hf, hany, if_false,
      Bool.false_eq_true, queryRowExtId, hstep, find?_of_filter_singleton _ _ _ hflt]
    exact ⟨trivial, hf, hflt⟩

theorem addExtensionRepeat_of_present (ext : String) (row : FileExt) (n : Nat) :
    ∀ (db : DB), db.faults = [] →
      db.file_extensions.filter (fun r => r.Extension = ext) = [row] →
      (addExtensionRepeat db ext n).1.file_extensions = db.file_extensions ∧
      (addExtensionRepeat db ext n).2 = List.replicate n (row.ID, none) := by
  induction n with
  | zero => intro db _ _; exact ⟨rfl, rfl⟩
  | succ n ih =>
    intro db hf h
    obtain ⟨h1, h2⟩ :=
      ih { db with extSeq := nextRowid db.extSeq (db.file_extensions.map FileExt.ID) } hf h
    simp only [addExtensionRepeat, addExtension_of_present db ext row hf h, h1, h2,
      List.replicate, and_self]

theorem addExtensionRepeat_spec (db : DB) (ext : String) (n : Nat) (hn : 1 ≤ n)
    (hf : db.faults = [])
    (h : (db.file_extensions.filter (fun r => r.Extension = ext)).length ≤ 1) :
    ∃ row, (addExtensionRepeat db ext n).1.file_extensions.filter
        (fun r => r.Extension = ext) = [row] ∧
      (addExtensionRepeat db ext n).2 = List.replicate n (row.ID, none) := by
  obtain ⟨m, rfl⟩ : ∃ m, n = m + 1 := ⟨n - 1, by omega⟩
  obtain ⟨row, h1, h2, h3⟩ := addExtension_first db ext hf h
  refine ⟨row, ?_⟩
  obtain ⟨h4, h5⟩ := addExtensionRepeat_of_present ext row m (addExtension db ext).1 h2 h3
  simp only [addExtensionRepeat, h4, h5, h1, h3, List.replicate, and_self]

theorem GoMap.get?_set (m : GoMap) (k k' : Rune) (v : Int) :
    (m.set k v).get? k' = if k = k' then some v else m.get? k' := by
  induction m with
  | nil => simp [GoMap.set, GoMap.get?]
  | cons p rest ih =>
    obtain ⟨a, b⟩ := p
    by_cases h : a = k
    · subst h
      by_cases h' : a = k' <;> simp [GoMap.set, GoMap.get?, h']
    · by_cases h' : a = k'
      · subst h'
        simp [GoMap.set, GoMap.get?, h, Ne.symm h]
      · simp [GoMap.set, GoMap.get?, h, h', ih]

theorem GoMap.get?_countLoop (rs : List Rune) (m : GoMap) (c : Rune) :
    (countLoop rs m).get? c =
      if c ∈ rs then some (m.index c + (rs.count c : Int)) else m.get? c := by
  induction rs generalizing m with
  | nil => simp [countLoop]
  | cons r rest ih =>
    rw [countLoop, ih]
    by_cases hc : r = c
    · subst hc
      simp only [GoMap.index, GoMap.get?_set, if_true, Option.getD_some, List.mem_cons,
        true_or, List.count_cons_self]
      by_cases hm : r ∈ rest
      · simp only [hm, if_true, Nat.cast_add, Nat.cast_one]
        congr 1; ring
      · simp [hm, List.count_eq_zero_of_not_mem hm]
    · have hc' : ¬ c = r := fun h => hc h.symm
      simp only [GoMap.index, GoMap.get?_set, hc, if_false, List.mem_cons, hc', false_or]
      rw [List.count_cons_of_ne hc']

theorem countChars_fst (T : UnicodeTables) (fs : FS) (file : String) (m : GoMap) (s : Settings) :
    (countChars T fs file m s).1 = countLoop (fileRunes T fs s file) m := by
  unfold countChars fileRunes
  cases fs file <;> rfl

theorem countLoop_append (a b : List Rune) (m : GoMap) :
    countLoop (a ++ b) m = countLoop b (countLoop a m) := by
  induction a generalizing m with
  | nil => rfl
  | cons r rest ih => simp [countLoop, ih]

theorem foldl_countChars (T : UnicodeTables) (fs : FS) (s : Settings) (files : List String)
    (m : GoMap) :
    files.foldl (fun frequency file => (countChars T fs file frequency s).1) m
      = countLoop (files.flatMap (fileRunes T fs s)) m := by
  induction files generalizing m with
  | nil => rfl
  | cons f rest ih =>
    rw [List.foldl_cons, ih, countChars_fst, List.flatMap_cons, countLoop_append]

theorem countFiles_get? (T : UnicodeTables) (fs : FS) (s : Settings) (files : List String)
    (c : Rune) :
    (countFiles T fs files s).get? c =
      if c ∈ files.flatMap (fileRunes T fs s) then
        some (((files.flatMap (fileRunes T fs s)).count c : Nat) : Int) else none := by
  unfold countFiles
  rw [foldl_countChars, GoMap.get?_countLoop]
  simp [GoMap.index, GoMap.get?]

theorem perFile_index (T : UnicodeTables) (fs : FS) (s : Settings) (file : String) (c : Rune) :
    (countChars T fs file [] s).1.index c = ((fileRunes T fs s file).count c : Int) := by
  rw [countChars_fst, GoMap.index, GoMap.get?_countLoop]
  by_cases h : c ∈ fileRunes T fs s file
  · simp [h, GoMap.index, GoMap.get?]
  · simp [h, GoMap.get?, List.count_eq_zero_of_not_mem h]

theorem count_flatMap_sum (f : String → List Rune) (files : List String) (c : Rune) :
    (((files.flatMap f).count c : Nat) : Int) = (files.map (fun x => ((f x).count c : Int))).sum := by
  induction files with
  | nil => simp
  | cons a rest ih => simp [List.flatMap_cons, List.count_append, ih]

theorem totalsLoop_eq (T : UnicodeTables) (s : Settings) (frequency : GoMap)
    (sf : List charFreq) (a b : Int) :
    totalsLoop T s frequency (sf, F64.ofInt a, F64.ofInt b) =
      (sf ++ frequency.map (fun p => ⟨p.1, p.2⟩), F64.ofInt (a + totalAll frequency),
        F64.ofInt (b + totalSelected T s frequency)) := by
  induction frequency generalizing sf a b with
  | nil => simp [totalsLoop, totalAll, totalSelected]
  | cons p rest ih =>
    obtain ⟨char, freq⟩ := p
    have hadd : ∀ x y : Int, F64.add (F64.ofInt x) (F64.ofInt y) = F64.ofInt (x + y) := by
      intro x y; simp [F64.add, F64.ofInt]
    by_cases hi : isIgnoredChar T char s = true
    · simp only [totalsLoop, hadd, hi, Bool.not_true, Bool.false_eq_true, if_false, ih]
      simp [totalAll, totalSelected, hi, add_assoc]
    · simp only [Bool.not_eq_true] at hi
      simp only [totalsLoop, hadd, hi, Bool.not_false, if_true, ih]
      simp [totalAll, totalSelected, hi, add_assoc]

theorem totalsLoop_init (T : UnicodeTables) (s : Settings) (frequency : GoMap) :
    totalsLoop T s frequency ([], F64.fin 0, F64.fin 0) =
      (frequency.map (fun p => ⟨p.1, p.2⟩), F64.ofInt (totalAll frequency),
        F64.ofInt (totalSelected T s frequency)) := by
  have h := totalsLoop_eq T s frequency [] 0 0
  simpa [F64.ofInt] using h

theorem printLoop_rows (T : UnicodeTables) (s : Settings) (sum sumsel : F64)
    (l : List charFreq) (i : Int) :
    ∀ row ∈ (printLoop T s sum sumsel l i).1,
      isIgnoredChar T row.char s = false ∧ (⟨row.char, row.freq⟩ : charFreq) ∈ l ∧
      row.pctAll = F64.div (F64.mul (F64.ofInt row.freq) (F64.ofInt 100)) sum ∧
      row.pctSelected = F64.div (F64.mul (F64.ofInt row.freq) (F64.ofInt 100)) sumsel := by
  induction l generalizing i with
  | nil => intro row h; simp [printLoop] at h
  | cons kv rest ih =>
    intro row h
    unfold printLoop at h
    by_cases hi : isIgnoredChar T kv.Char s = true
    · simp only [hi, Bool.not_true, Bool.false_eq_true, if_false] at h
      obtain ⟨h1, h2, h3⟩ := ih i row h
      exact ⟨h1, List.mem_cons_of_mem _ h2, h3⟩
    · simp only [Bool.not_eq_true] at hi
      simp only [hi, Bool.not_false, if_true] at h
      have hrow : ∀ r : Row, r = (⟨i + 1, kv.Freq,
          F64.div (F64.mul (F64.ofInt kv.Freq) (F64.ofInt 100)) sum,
          F64.div (F64.mul (F64.ofInt kv.Freq) (F64.ofInt 100)) sumsel, kv.Char⟩ : Row) →
          isIgnoredChar T r.char s = false ∧ (⟨r.char, r.freq⟩ : charFreq) ∈ kv :: rest ∧
          r.pctAll = F64.div (F64.mul (F64.ofInt r.freq) (F64.ofInt 100)) sum ∧
          r.pctSelected = F64.div (F64.mul (F64.ofInt r.freq) (F64.ofInt 100)) sumsel := by
        intro r hr
        subst hr
        exact ⟨hi, List.mem_cons_self _ _, rfl, rfl⟩
      by_cases hlim : i + 1 > s.limitTop
      · simp only [hlim, if_true, List.mem_singleton] at h
        exact hrow row h
      · simp only [hlim, if_false, List.mem_cons] at h
        rcases h with h | h
        · exact hrow row h
        · obtain ⟨h1, h2, h3⟩ := ih (i + 1) row h
          exact ⟨h1, List.mem_cons_of_mem _ h2, h3⟩

theorem printLoop_length (T : UnicodeTables) (s : Settings) (sum sumsel : F64)
    (l : List charFreq) (i : Int) (hi : i ≤ s.limitTop) :
    (((printLoop T s sum sumsel l i).1.length : Nat) : Int)
      = min (survivors T s l : Int) (s.limitTop + 1 - i) := by
  induction l generalizing i with
  | nil => simp [printLoop, survivors]; omega
  | cons kv rest ih =>
    unfold printLoop
    by_cases hig : isIgnoredChar T kv.Char s = true
    · simp only [hig, Bool.not_true, Bool.false_eq_true, if_false]
      rw [ih i hi]
      simp [survivors, hig]
    · simp only [Bool.not_eq_true] at hig
      have hs : survivors T s (kv :: rest) = survivors T s rest + 1 := by
        simp [survivors, hig]
      simp only [hig, Bool.not_false, if_true, hs]
      by_cases hlim : i + 1 > s.limitTop
      · simp only [hlim, if_true, List.length_singleton]
        rw [min_def]; split_ifs <;> push_cast <;> omega
      · simp only [hlim, if_false, List.length_cons]
        push_cast
        rw [ih (i + 1) (by omega), min_def, min_def]
        split_ifs <;> omega

theorem printLoop_divisions (T : UnicodeTables) (s : Settings) (sum sumsel : F64)
    (l : List charFreq) (i : Int) :
    (printLoop T s sum sumsel l i).2 = 2 * (printLoop T s sum sumsel l i).1.length := by
  induction l generalizing i with
  | nil => simp [printLoop]
  | cons kv rest ih =>
    unfold printLoop
    by_cases hig : isIgnoredChar T kv.Char s = true
    · simp only [hig, Bool.not_true, Bool.false_eq_true, if_false]
      exact ih i
    · simp only [Bool.not_eq_true] at hig
      simp only [hig, Bool.not_false, if_true]
      by_cases hlim : i + 1 > s.limitTop
      · simp [hlim]
      · simp only [hlim, if_false, List.length_cons, ih (i + 1)]
        omega

theorem deleteStatistics_rejected (db : DB) (urlID extID : Int) (hf : db.faults = []) :
    deleteStatistics db urlID extID = (db, some (.noSuchColumn "url_id")) := by
  simp only [deleteStatistics, execDeleteFileExtensions, DB.step_of_noFaults db hf]
  rfl

instance freqGeTotal : IsTotal charFreq (fun a b => freqGreater b a = false) :=
  ⟨fun a b => by simp only [freqGreater, decide_eq_false_iff_not, not_lt]; omega⟩

instance freqGeTrans : IsTrans charFreq (fun a b => freqGreater b a = false) :=
  ⟨fun a b c => by simp only [freqGreater, decide_eq_false_iff_not, not_lt]; omega⟩

theorem insertionSortSlice_spec : SortSliceSpec insertionSortSlice where
  perm := fun l _ => List.perm_insertionSort _ l
  sorted := fun l => List.sorted_insertionSort (fun a b => freqGreater b a = false) l

theorem printFrequency_eq (T : UnicodeTables)
    (sortSlice : List charFreq → (charFreq → charFreq → Bool) → List charFreq)
    (frequency : GoMap) (s : Settings) :
    printFrequency T sortSlice frequency s =
      printLoop T s (F64.ofInt (totalAll frequency)) (F64.ofInt (totalSelected T s frequency))
        (sortSlice (frequency.map (fun p => ⟨p.1, p.2⟩)) freqGreater) 0 := by
  simp only [printFrequency, totalsLoop_init]

/-- A slice that is sorted by decreasing count and holds the entries a:10, b:5
and the space with count 3 is that exact sequence. -/
theorem sorted_example (l : List charFreq)
    (hp : l.Perm [⟨97, 10⟩, ⟨98, 5⟩, ⟨32, 3⟩])
    (hs : l.Pairwise (fun a b => freqGreater b a = false)) :
    l = [⟨97, 10⟩, ⟨98, 5⟩, ⟨32, 3⟩] := by
  have hlen := hp.length_eq
  match l, hlen with
  | [x, y, z], _ =>
    have hx := hp.mem_iff.1 (List.mem_cons_self x _)
    have hy := hp.mem_iff.1 (List.mem_cons_of_mem x (List.mem_cons_self y _))
    have hz := hp.mem_iff.1 (List.mem_cons_of_mem x (List.mem_cons_of_mem y (List.mem_cons_self z _)))
    have hnd : [x, y, z].Nodup := hp.nodup_iff.2 (by decide)
    simp only [List.pairwise_cons, List.mem_cons, List.mem_singleton, forall_eq_or_imp,
      forall_eq, List.not_mem_nil, false_implies, implies_true, List.Pairwise.nil, and_true,
      freqGreater, decide_eq_false_iff_not, not_lt] at hs
    simp only [List.nodup_cons, List.mem_cons, List.mem_singleton, not_or, List.not_mem_nil,
      not_false_eq_true, List.nodup_nil, and_true] at hnd
    simp only [List.mem_cons, List.mem_singleton, List.not_mem_nil, or_false] at hx hy hz
    obtain ⟨⟨hxy, hxz⟩, hyz⟩ := hs
    obtain ⟨⟨nxy, nxz⟩, nyz⟩ := hnd
    rcases hx with rfl | rfl | rfl <;> rcases hy with rfl | rfl | rfl <;>
      rcases hz with rfl | rfl | rfl <;> simp_all

theorem survivors_map (T : UnicodeTables) (s : Settings) (frequency : GoMap) :
    survivors T s (frequency.map (fun p => ⟨p.1, p.2⟩))
      = (frequency.filter (fun p => !isIgnoredChar T p.1 s)).length := by
  induction frequency with
  | nil => rfl
  | cons p rest ih =>
    simp only [survivors] at ih
    by_cases h : isIgnoredChar T p.1 s = true <;> simp [survivors, h, ih]

theorem DB.step_sameData (db : DB) : db.SameData db.step.2 := by
  unfold DB.step DB.SameData
  split <;> simp

theorem DB.SameData.schema_kept {db db' : DB} (h : db.SameData db') (hw : db.WF) : db'.WF := by
  obtain ⟨h1, -, h3, -, h5, -⟩ := h
  exact ⟨h1 ▸ hw.urlIds, h1 ▸ hw.urlKeys, h3 ▸ hw.extIds, h3 ▸ hw.extKeys,
    by rw [h1, h5]; exact hw.fkUrl, by rw [h3, h5]; exact hw.fkExt, h5 ▸ hw.primaryKey⟩

theorem le_foldl_max (ids : List Int) (seq : Int) :
    seq ≤ ids.foldl max seq ∧ ∀ i ∈ ids, i ≤ ids.foldl max seq := by
  induction ids generalizing seq with
  | nil => simp
  | cons a rest ih =>
    obtain ⟨h1, h2⟩ := ih (max seq a)
    refine ⟨le_trans (le_max_left _ _) h1, ?_⟩
    intro i hi
    rcases List.mem_cons.1 hi with rfl | hi
    · exact le_trans (le_max_right _ _) h1
    · exact h2 i hi

theorem nextRowid_not_mem (seq : Int) (ids : List Int) : nextRowid seq ids ∉ ids := by
  intro h
  have := (le_foldl_max ids seq).2 _ h
  unfold nextRowid at this
  omega

/-- What `INSERT OR IGNORE INTO urls` can do to the tables. -/
theorem execInsertOrIgnoreUrl_shape (db : DB) (url : String) :
    (execInsertOrIgnoreUrl db url).1.file_extensions = db.file_extensions ∧
    (execInsertOrIgnoreUrl db url).1.char_frequencies = db.char_frequencies ∧
    ((execInsertOrIgnoreUrl db url).1.urls = db.urls ∨
      ((execInsertOrIgnoreUrl db url).1.urls
          = db.urls ++ [⟨nextRowid db.urlSeq (db.urls.map URL.ID), url, db.clock⟩] ∧
        ∀ u ∈ db.urls, u.Url ≠ url)) := by
  obtain ⟨h1, h2, h3, h4, h5, h6⟩ := DB.step_sameData db
  unfold execInsertOrIgnoreUrl
  rcases hs : db.step with ⟨b, db1⟩
  rw [hs] at h1 h2 h3 h4 h5 h6
  simp only at h1 h2 h3 h4 h5 h6
  cases b
  · by_cases hany : db1.urls.any (fun r => r.Url = url) = true
    · simp only [hany, if_true]
      exact ⟨h3, h5, Or.inl h1⟩
    · simp only [hany, if_false, Bool.false_eq_true]
      refine ⟨h3, h5, Or.inr ⟨by rw [h1, h2, h6], ?_⟩⟩
      intro u hu hurl
      rw [← h1] at hu
      exact hany (List.any_eq_true.2 ⟨u, hu, by simpa using hurl⟩)
  · exact ⟨h3, h5, Or.inl h1⟩

theorem queryRowUrlId_shape (db : DB) (url : String) :
    db.SameData (queryRowUrlId db url).1 ∧
    ((queryRowUrlId db url).2.2 = none →
      ∃ u ∈ db.urls, u.Url = url ∧ u.ID = (queryRowUrlId db url).2.1) := by
  have hsd := DB.step_sameData db
  unfold queryRowUrlId
  rcases hs : db.step with ⟨b, db1⟩
  rw [hs] at hsd
  cases b
  · simp only
    cases hf : db1.urls.find? (fun r => r.Url = url) with
    | none => exact ⟨hsd, by simp⟩
    | some r =>
      refine ⟨hsd, fun _ => ⟨r, ?_, ?_, rfl⟩⟩
      · rw [← hsd.1]; exact List.mem_of_find?_eq_some hf
      · simpa using List.find?_some hf
  · exact ⟨hsd, by simp⟩

theorem addURL_shape (db : DB) (url : String) :
    (addURL db url).1.file_extensions = db.file_extensions ∧
    (addURL db url).1.char_frequencies = db.char_frequencies ∧
    ((addURL db url).1.urls = db.urls ∨
      ((addURL db url).1.urls
          = db.urls ++ [⟨nextRowid db.urlSeq (db.urls.map URL.ID), url, db.clock⟩] ∧
        ∀ u ∈ db.urls, u.Url ≠ url)) ∧
    ((addURL db url).2.2 = none →
      ∃ u ∈ (addURL db url).1.urls, u.Url = url ∧ u.ID = (addURL db url).2.1) := by
  obtain ⟨h1, h2, h3⟩ := execInsertOrIgnoreUrl_shape db url
  unfold addURL
  rcases hi : execInsertOrIgnoreUrl db url with ⟨db1, _ | e⟩
  · rw [hi] at h1 h2 h3
    simp only at h1 h2 h3 ⊢
    obtain ⟨hsd, hq⟩ := queryRowUrlId_shape db1 url
    refine ⟨hsd.2.2.1.trans h1, hsd.2.2.2.2.1.trans h2, ?_, ?_⟩
    · rw [hsd.1]; exact h3
    · intro hn
      rw [hsd.1]
      exact hq hn
  · rw [hi] at h1 h2 h3
    exact ⟨h1, h2, h3, by simp⟩

/-- What `INSERT OR IGNORE INTO file_extensions` can do to the tables. -/
theorem execInsertOrIgnoreExt_shape (db : DB) (ext : String) :
    (execInsertOrIgnoreExt db ext).1.urls = db.urls ∧
    (execInsertOrIgnoreExt db ext).1.char_frequencies = db.char_frequencies ∧
    ((execInsertOrIgnoreExt db ext).1.file_extensions = db.file_extensions ∨
      ((execInsertOrIgnoreExt db ext).1.file_extensions
          = db.file_extensions ++
            [⟨nextRowid db.extSeq (db.file_extensions.map FileExt.ID), ext⟩] ∧
        ∀ e ∈ db.file_extensions, e.Extension ≠ ext)) := by
  obtain ⟨h1, h2, h3, h4, h5, h6⟩ := DB.step_sameData db
  unfold execInsertOrIgnoreExt
  rcases hs : db.step with ⟨b, db1⟩
  rw [hs] at h1 h2 h3 h4 h5 h6
  simp only at h1 h2 h3 h4 h5 h6
  cases b
  · by_cases hany : db1.file_extensions.any (fun r => r.Extension = ext) = true
    · simp only [hany, if_true]
      exact ⟨h1, h5, Or.inl h3⟩
    · simp only [hany, if_false, Bool.false_eq_true]
      refine ⟨h1, h5, Or.inr ⟨by rw [h3, h4], ?_⟩⟩
      intro e he hext
      rw [← h3] at he
      exact hany (List.any_eq_true.2 ⟨e, he, by simpa using hext⟩)
  · exact ⟨h1, h5, Or.inl h3⟩

theorem queryRowExtId_shape (db : DB) (ext : String) :
    db.SameData (queryRowExtId db ext).1 ∧
    ((queryRowExtId db ext).2.2 = none →
      ∃ e ∈ db.file_extensions, e.Extension = ext ∧ e.ID = (queryRowExtId db ext).2.1) := by
  have hsd := DB.step_sameData db
  unfold queryRowExtId
  rcases hs : db.step with ⟨b, db1⟩
  rw [hs] at hsd
  cases b
  · simp only
    cases hf : db1.file_extensions.find? (fun r => r.Extension = ext) with
    | none => exact ⟨hsd, by simp⟩
    | some r =>
      refine ⟨hsd, fun _ => ⟨r, ?_, ?_, rfl⟩⟩
      · rw [← hsd.2.2.1]; exact List.mem_of_find?_eq_some hf
      · simpa using List.find?_some hf
  · exact ⟨hsd, by simp⟩

theorem addExtension_shape (db : DB) (ext : String) :
    (addExtension db ext).1.urls = db.urls ∧
    (addExtension db ext).1.char_frequencies = db.char_frequencies ∧
    ((addExtension db ext).1.file_extensions = db.file_extensions ∨
      ((addExtension db ext).1.file_extensions
          = db.file_extensions ++
            [⟨nextRowid db.extSeq (db.file_extensions.map FileExt.ID), ext⟩] ∧
        ∀ e ∈ db.file_extensions, e.Extension ≠ ext)) ∧
    ((addExtension db ext).2.2 = none →
      ∃ e ∈ (addExtension db ext).1.file_extensions,
        e.Extension = ext ∧ e.ID = (addExtension db ext).2.1) := by
  obtain ⟨h1, h2, h3⟩ := execInsertOrIgnoreExt_shape db ext
  unfold addExtension
  rcases hi : execInsertOrIgnoreExt db ext with ⟨db1, _ | e⟩
  · rw [hi] at h1 h2 h3
    simp only at h1 h2 h3 ⊢
    obtain ⟨hsd, hq⟩ := queryRowExtId_shape db1 ext
    refine ⟨hsd.1.trans h1, hsd.2.2.2.2.1.trans h2, ?_, ?_⟩
    · rw [hsd.2.2.1]; exact h3
    · intro hn
      rw [hsd.2.2.1]
      exact hq hn
  · rw [hi] at h1 h2 h3
    exact ⟨h1, h2, h3, by simp⟩

/-- What the upsert can do to the tables: nothing when it returns an error,
otherwise it adds to the rows with the key, or appends a row when the key is
absent and both parent rows exist. -/
theorem execUpsert_shape (db : DB) (urlID extID : Int) (char : GoString) (freq : Int) :
    (execUpsert db urlID extID char freq).1.urls = db.urls ∧
    (execUpsert db urlID extID char freq).1.file_extensions = db.file_extensions ∧
    (((execUpsert db urlID extID char freq).2 ≠ none ∧
        (execUpsert db urlID extID char freq).1.char_frequencies = db.char_frequencies) ∨
      ((execUpsert db urlID extID char freq).2 = none ∧
        (∃ r ∈ db.char_frequencies, r.hasKey urlID extID char = true) ∧
        (execUpsert db urlID extID char freq).1.char_frequencies
          = db.char_frequencies.map (CharFrequency.addFreq urlID extID char freq)) ∨
      ((execUpsert db urlID extID char freq).2 = none ∧
        (∀ r ∈ db.char_frequencies, r.hasKey urlID extID char = false) ∧
        urlID ∈ db.urls.map URL.ID ∧ extID ∈ db.file_extensions.map FileExt.ID ∧
        (execUpsert db urlID extID char freq).1.char_frequencies
          = db.char_frequencies ++ [⟨urlID, extID, char, freq⟩])) := by
  obtain ⟨h1, h2, h3, h4, h5, h6⟩ := DB.step_sameData db
  unfold execUpsert
  rcases hs : db.step with ⟨b, db1⟩
  rw [hs] at h1 h2 h3 h4 h5 h6
  simp only at h1 h2 h3 h4 h5 h6
  cases b
  · by_cases hany : db1.char_frequencies.any (fun r => r.hasKey urlID extID char) = true
    · simp only [hany, if_true]
      refine ⟨h1, h3, Or.inr (Or.inl ⟨trivial, ?_, ?_⟩)⟩
      · rw [← h5]
        obtain ⟨r, hr, hk⟩ := List.any_eq_true.1 hany
        exact ⟨r, hr, hk⟩
      · rw [h5]; rfl
    · simp only [hany, if_false, Bool.false_eq_true]
      have hno : ∀ r ∈ db.char_frequencies, r.hasKey urlID extID char = false := by
        intro r hr
        rw [← h5] at hr
        by_contra hk
        exact hany (List.any_eq_true.2 ⟨r, hr, by simpa using hk⟩)
      by_cases hp : (db1.urls.any (fun u => u.ID = urlID) &&
          db1.file_extensions.any (fun e => e.ID = extID)) = true
      · simp only [hp, if_true]
        refine ⟨h1, h3, Or.inr (Or.inr ⟨trivial, hno, ?_, ?_, by rw [h5]⟩)⟩
        · rw [Bool.and_eq_true] at hp
          obtain ⟨u, hu, hue⟩ := List.any_eq_true.1 hp.1
          rw [h1] at hu
          exact List.mem_map.2 ⟨u, hu, by simpa using hue⟩
        · rw [Bool.and_eq_true] at hp
          obtain ⟨e, he, hee⟩ := List.any_eq_true.1 hp.2
          rw [h3] at he
          exact List.mem_map.2 ⟨e, he, by simpa using hee⟩
      · simp only [hp, if_false, Bool.false_eq_true]
        exact ⟨h1, h3, Or.inl ⟨by simp, h5⟩⟩
  · exact ⟨h1, h3, Or.inl ⟨by simp, h5⟩⟩

theorem deleteStatistics_sameData (db : DB) (urlID extID : Int) :
    db.SameData (deleteStatistics db urlID extID).1 := by
  have h := DB.step_sameData db
  unfold deleteStatistics execDeleteFileExtensions
  rcases hs : db.step with ⟨b, db1⟩
  rw [hs] at h
  cases b
  · exact h
  · exact h

theorem deleteStatistics_fails (db : DB) (urlID extID : Int) :
    (deleteStatistics db urlID extID).2 ≠ none := by
  unfold deleteStatistics execDeleteFileExtensions
  rcases db.step with ⟨b, db1⟩
  cases b
  · simp only; exact fun h => nomatch h
  · simp

theorem addURL_wf (db : DB) (url : String) (hw : db.WF) : (addURL db url).1.WF := by
  obtain ⟨h1, h2, h3, -⟩ := addURL_shape db url
  rcases h3 with h3 | ⟨h3, hnew⟩
  · exact ⟨h3 ▸ hw.urlIds, h3 ▸ hw.urlKeys, h1 ▸ hw.extIds, h1 ▸ hw.extKeys,
      by rw [h3, h2]; exact hw.fkUrl, by rw [h1, h2]; exact hw.fkExt, h2 ▸ hw.primaryKey⟩
  · refine ⟨?_, ?_, h1 ▸ hw.extIds, h1 ▸ hw.extKeys, ?_, by rw [h1, h2]; exact hw.fkExt,
      h2 ▸ hw.primaryKey⟩
    · rw [h3, List.map_append, List.nodup_append]
      refine ⟨hw.urlIds, by simp, ?_⟩
      intro a ha hb
      simp only [List.map_cons, List.map_nil, List.mem_singleton] at hb
      exact nextRowid_not_mem _ _ (hb ▸ ha)
    · rw [h3, List.map_append, List.nodup_append]
      refine ⟨hw.urlKeys, by simp, ?_⟩
      intro a ha hb
      simp only [List.map_cons, List.map_nil, List.mem_singleton] at hb
      obtain ⟨u, hu, rfl⟩ := List.mem_map.1 ha
      exact hnew u hu hb
    · rw [h3, h2]
      intro f hf
      rw [List.map_append]
      exact List.mem_append_left _ (hw.fkUrl f hf)

theorem addExtension_wf (db : DB) (ext : String) (hw : db.WF) : (addExtension db ext).1.WF := by
  obtain ⟨h1, h2, h3, -⟩ := addExtension_shape db ext
  rcases h3 with h3 | ⟨h3, hnew⟩
  · exact ⟨h1 ▸ hw.urlIds, h1 ▸ hw.urlKeys, h3 ▸ hw.extIds, h3 ▸ hw.extKeys,
      by rw [h1, h2]; exact hw.fkUrl, by rw [h3, h2]; exact hw.fkExt, h2 ▸ hw.primaryKey⟩
  · refine ⟨h1 ▸ hw.urlIds, h1 ▸ hw.urlKeys, ?_, ?_, by rw [h1, h2]; exact hw.fkUrl, ?_,
      h2 ▸ hw.primaryKey⟩
    · rw [h3, List.map_append, List.nodup_append]
      refine ⟨hw.extIds, by simp, ?_⟩
      intro a ha hb
      simp only [List.map_cons, List.map_nil, List.mem_singleton] at hb
      exact nextRowid_not_mem _ _ (hb ▸ ha)
    · rw [h3, List.map_append, List.nodup_append]
      refine ⟨hw.extKeys, by simp, ?_⟩
      intro a ha hb
      simp only [List.map_cons, List.map_nil, List.mem_singleton] at hb
      obtain ⟨e, he, rfl⟩ := List.mem_map.1 ha
      exact hnew e he hb
    · rw [h3, h2]
      intro f hf
      rw [List.map_append]
      exact List.mem_append_left _ (hw.fkExt f hf)

theorem addFreq_key (urlID extID : Int) (char : GoString) (freq : Int) (r : CharFrequency) :
    (CharFrequency.addFreq urlID extID char freq r).URLID = r.URLID ∧
    (CharFrequency.addFreq urlID extID char freq r).FileExtID = r.FileExtID ∧
    (CharFrequency.addFreq urlID extID char freq r).Char = r.Char := by
  unfold CharFrequency.addFreq
  split <;> simp

theorem hasKey_iff (r : CharFrequency) (urlID extID : Int) (char : GoString) :
    r.hasKey urlID extID char = true ↔ r.URLID = urlID ∧ r.FileExtID = extID ∧ r.Char = char := by
  simp [CharFrequency.hasKey, and_assoc]

theorem addCharFrequency_wf (db : DB) (urlID extID : Int) (char : GoString) (freq : Int)
    (hw : db.WF) : (addCharFrequency db urlID extID char freq).1.WF := by
  unfold addCharFrequency
  obtain ⟨h1, h2, h3⟩ := execUpsert_shape db urlID extID char freq
  have base : ∀ rows, (execUpsert db urlID extID char freq).1.char_frequencies = rows →
      (∀ f ∈ rows, f.URLID ∈ db.urls.map URL.ID) →
      (∀ f ∈ rows, f.FileExtID ∈ db.file_extensions.map FileExt.ID) →
      rows.Pairwise CharFrequency.keyNe → (execUpsert db urlID extID char freq).1.WF := by
    intro rows hr ha hb hc
    exact ⟨h1 ▸ hw.urlIds, h1 ▸ hw.urlKeys, h2 ▸ hw.extIds, h2 ▸ hw.extKeys,
      by rw [h1, hr]; exact ha, by rw [h2, hr]; exact hb, hr ▸ hc⟩
  rcases h3 with ⟨-, h3⟩ | ⟨-, -, h3⟩ | ⟨-, hno, hu, he, h3⟩
  · exact base _ h3 hw.fkUrl hw.fkExt hw.primaryKey
  · refine base _ h3 ?_ ?_ ?_
    · intro f hf
      obtain ⟨r, hr, rfl⟩ := List.mem_map.1 hf
      rw [(addFreq_key urlID extID char freq r).1]
      exact hw.fkUrl r hr
    · intro f hf
      obtain ⟨r, hr, rfl⟩ := List.mem_map.1 hf
      rw [(addFreq_key urlID extID char freq r).2.1]
      exact hw.fkExt r hr
    · rw [List.pairwise_map]
      refine hw.primaryKey.imp ?_
      intro a b hab
      unfold CharFrequency.keyNe
      rw [(addFreq_key urlID extID char freq a).1, (addFreq_key urlID extID char freq a).2.1,
        (addFreq_key urlID extID char freq a).2.2, (addFreq_key urlID extID char freq b).1,
        (addFreq_key urlID extID char freq b).2.1, (addFreq_key urlID extID char freq b).2.2]
      exact hab
  · refine base _ h3 ?_ ?_ ?_
    · intro f hf
      rcases List.mem_append.1 hf with hf | hf
      · exact hw.fkUrl f hf
      · rw [List.mem_singleton.1 hf]; exact hu
    · intro f hf
      rcases List.mem_append.1 hf with hf | hf
      · exact hw.fkExt f hf
      · rw [List.mem_singleton.1 hf]; exact he
    · rw [List.pairwise_append]
      refine ⟨hw.primaryKey, by simp, ?_⟩
      intro a ha b hb
      rw [List.mem_singleton.1 hb]
      intro hk
      have := hno a ha
      rw [(hasKey_iff a urlID extID char).2 hk] at this
      exact Bool.noConfusion this

theorem deleteStatistics_wf (db : DB) (urlID extID : Int) (hw : db.WF) :
    (deleteStatistics db urlID extID).1.WF :=
  (deleteStatistics_sameData db urlID extID).schema_kept hw

theorem saveLoop_wf (db : DB) (urlID extID : Int) (stat : GoMap) (hw : db.WF) :
    (saveLoop db urlID extID stat).1.WF := by
  induction stat generalizing db with
  | nil => exact hw
  | cons p rest ih =>
    obtain ⟨char, freq⟩ := p
    have h := addCharFrequency_wf db urlID extID (encodeRune char) freq hw
    unfold saveLoop
    rcases hr : addCharFrequency db urlID extID (encodeRune char) freq with ⟨db1, _ | e⟩
    · rw [hr] at h
      exact ih db1 h
    · rw [hr] at h
      exact h

theorem saveStatistics_wf (db : DB) (repoURL ext : String) (stat : GoMap) (hw : db.WF) :
    (saveStatistics db repoURL ext stat).1.WF := by
  have h1 := addURL_wf db repoURL hw
  unfold saveStatistics
  rcases hr : addURL db repoURL with ⟨db1, urlID, _ | e⟩
  · rw [hr] at h1
    have h2 := addExtension_wf db1 ext h1
    simp only
    rcases hr2 : addExtension db1 ext with ⟨db2, extID, _ | e⟩
    · rw [hr2] at h2
      exact saveLoop_wf _ urlID extID stat (deleteStatistics_wf db2 urlID extID h2)
    · rw [hr2] at h2
      exact h2
  · rw [hr] at h1
    exact h1

theorem getStatistics_sameData (db : DB) (url ext : String) :
    db.SameData (getStatistics db url ext).1 := by
  have h := DB.step_sameData db
  unfold getStatistics
  rcases hs : db.step with ⟨b, db1⟩
  rw [hs] at h
  cases b
  · exact h
  · exact h

theorem Reachable.schema_holds {db : DB} (h : Reachable db) : db.WF := by
  induction h with
  | init faults clock =>
    exact ⟨List.nodup_nil, List.nodup_nil, List.nodup_nil, List.nodup_nil,
      fun f hf => (nomatch hf), fun f hf => (nomatch hf), List.Pairwise.nil⟩
  | advance clock _ ih =>
    exact ⟨ih.urlIds, ih.urlKeys, ih.extIds, ih.extKeys, ih.fkUrl, ih.fkExt, ih.primaryKey⟩
  | addURL url _ ih => exact addURL_wf _ url ih
  | addExtension ext _ ih => exact addExtension_wf _ ext ih
  | addCharFrequency urlID extID char freq _ ih => exact addCharFrequency_wf _ _ _ _ _ ih
  | getStatistics url ext _ ih => exact (getStatistics_sameData _ url ext).schema_kept ih
  | deleteStatistics urlID extID _ ih => exact deleteStatistics_wf _ _ _ ih
  | saveStatistics repoURL ext stat _ ih => exact saveStatistics_wf _ _ _ _ ih

theorem saveLoop_identities (db : DB) (urlID extID : Int) (stat : GoMap) :
    (saveLoop db urlID extID stat).1.urls = db.urls ∧
    (saveLoop db urlID extID stat).1.file_extensions = db.file_extensions := by
  induction stat generalizing db with
  | nil => exact ⟨rfl, rfl⟩
  | cons p rest ih =>
    obtain ⟨char, freq⟩ := p
    obtain ⟨h1, h2, -⟩ := execUpsert_shape db urlID extID (encodeRune char) freq
    unfold saveLoop addCharFrequency
    rcases hr : execUpsert db urlID extID (encodeRune char) freq with ⟨db1, _ | e⟩
    · rw [hr] at h1 h2
      simp only at h1 h2 ⊢
      exact ⟨(ih db1).1.trans h1, (ih db1).2.trans h2⟩
    · rw [hr] at h1 h2
      exact ⟨h1, h2⟩

theorem joinedRows_eq (db : DB) (url ext : String) :
    joinedRows db url ext
      = db.char_frequencies.flatMap (joinRows db.urls db.file_extensions url ext) := rfl

theorem flatMap_congr_mem {α β : Type} (l : List α) (f g : α → List β)
    (h : ∀ a ∈ l, f a = g a) : l.flatMap f = l.flatMap g := by
  induction l with
  | nil => rfl
  | cons a rest ih =>
    rw [List.flatMap_cons, List.flatMap_cons, h a (List.mem_cons_self _ _),
      ih (fun b hb => h b (List.mem_cons_of_mem _ hb))]

theorem flatMap_map_comp {α β γ : Type} (l : List α) (f : α → β) (g : β → List γ) :
    (l.map f).flatMap g = l.flatMap (fun a => g (f a)) := by
  induction l with
  | nil => rfl
  | cons a rest ih => rw [List.map_cons, List.flatMap_cons, List.flatMap_cons, ih]

theorem joinRows_append_urls (us xs : List URL) (es : List FileExt) (url ext : String)
    (f : CharFrequency) (h : ∀ u ∈ xs, f.URLID ≠ u.ID) :
    joinRows (us ++ xs) es url ext f = joinRows us es url ext f := by
  have : xs.filter (fun u => decide (f.URLID = u.ID ∧ u.Url = url)) = [] := by
    rw [List.filter_eq_nil_iff]
    intro u hu hc
    simp only [decide_eq_true_eq] at hc
    exact h u hu hc.1
  unfold joinRows
  rw [List.filter_append, this, List.append_nil]

theorem joinRows_append_exts (us : List URL) (es ys : List FileExt) (url ext : String)
    (f : CharFrequency) (h : ∀ e ∈ ys, f.FileExtID ≠ e.ID) :
    joinRows us (es ++ ys) url ext f = joinRows us es url ext f := by
  have : ys.filter (fun e => decide (f.FileExtID = e.ID ∧ e.Extension = ext)) = [] := by
    rw [List.filter_eq_nil_iff]
    intro e he hc
    simp only [decide_eq_true_eq] at hc
    exact h e he hc.1
  unfold joinRows
  rw [List.filter_append, this, List.append_nil]

theorem joinRows_eq_nil (us : List URL) (es : List FileExt) (url ext : String)
    (f : CharFrequency)
    (h : ∀ u ∈ us, ∀ e ∈ es, u.ID = f.URLID → e.ID = f.FileExtID →
      ¬(u.Url = url ∧ e.Extension = ext)) :
    joinRows us es url ext f = [] := by
  unfold joinRows
  rw [List.flatMap_eq_nil_iff]
  intro e he
  rw [List.map_eq_nil_iff, List.filter_eq_nil_iff]
  intro u hu hc
  simp only [List.mem_filter, decide_eq_true_eq] at he hc
  exact h u hu e he.1 hc.1.symm he.2.1.symm ⟨hc.2, he.2.2⟩

theorem joinRows_addFreq (us : List URL) (es : List FileExt) (url ext : String)
    (urlID extID : Int) (char : GoString) (freq : Int) (f : CharFrequency)
    (h : ∀ u ∈ us, ∀ e ∈ es, u.ID = urlID → e.ID = extID → ¬(u.Url = url ∧ e.Extension = ext)) :
    joinRows us es url ext (CharFrequency.addFreq urlID extID char freq f)
      = joinRows us es url ext f := by
  by_cases hk : f.hasKey urlID extID char = true
  · obtain ⟨k1, k2, -⟩ := (hasKey_iff f urlID extID char).1 hk
    obtain ⟨a1, a2, -⟩ := addFreq_key urlID extID char freq f
    rw [joinRows_eq_nil us es url ext f (by rw [k1, k2]; exact h),
      joinRows_eq_nil us es url ext _ (by rw [a1, a2, k1, k2]; exact h)]
  · simp only [CharFrequency.addFreq, hk, if_false, Bool.false_eq_true]

/-- An upsert with ids that do not belong to the bucket (url, ext) leaves the
rows selected for that bucket as they were. -/
theorem joinedRows_execUpsert_other (db : DB) (urlID extID : Int) (char : GoString)
    (freq : Int) (url ext : String)
    (h : ∀ u ∈ db.urls, ∀ e ∈ db.file_extensions, u.ID = urlID → e.ID = extID →
      ¬(u.Url = url ∧ e.Extension = ext)) :
    joinedRows (execUpsert db urlID extID char freq).1 url ext
      = joinedRows db url ext := by
  obtain ⟨h1, h2, h3⟩ := execUpsert_shape db urlID extID char freq
  rw [joinedRows_eq, joinedRows_eq, h1, h2]
  rcases h3 with ⟨-, h3⟩ | ⟨-, -, h3⟩ | ⟨-, -, -, -, h3⟩
  · rw [h3]
  · rw [h3, flatMap_map_comp]
    exact flatMap_congr_mem _ _ _ (fun f _ => joinRows_addFreq _ _ _ _ _ _ _ _ f h)
  · rw [h3, List.flatMap_append, List.flatMap_cons, List.flatMap_nil,
      joinRows_eq_nil db.urls db.file_extensions url ext ⟨urlID, extID, char, freq⟩ h]
    simp

theorem joinedRows_saveLoop_other (db : DB) (urlID extID : Int) (stat : GoMap)
    (url ext : String)
    (h : ∀ u ∈ db.urls, ∀ e ∈ db.file_extensions, u.ID = urlID → e.ID = extID →
      ¬(u.Url = url ∧ e.Extension = ext)) :
    joinedRows (saveLoop db urlID extID stat).1 url ext = joinedRows db url ext := by
  induction stat generalizing db with
  | nil => rfl
  | cons p rest ih =>
    obtain ⟨char, freq⟩ := p
    have hq := joinedRows_execUpsert_other db urlID extID (encodeRune char) freq url ext h
    obtain ⟨h1, h2, -⟩ := execUpsert_shape db urlID extID (encodeRune char) freq
    unfold saveLoop addCharFrequency
    rcases hr : execUpsert db urlID extID (encodeRune char) freq with ⟨db1, _ | e⟩
    · rw [hr] at hq h1 h2
      simp only at hq h1 h2 ⊢
      rw [ih db1 (by rw [h1, h2]; exact h), hq]
    · rw [hr] at hq
      exact hq

theorem joinedRows_sameData {db db' : DB} (h : db.SameData db') (url ext : String) :
    joinedRows db' url ext = joinedRows db url ext := by
  rw [joinedRows_eq, joinedRows_eq, h.1, h.2.2.1, h.2.2.2.2.1]

/-- Creating an identity row changes no bucket's selected rows. -/
theorem joinedRows_addURL (db : DB) (repoURL : String) (hw : db.WF) (url ext : String) :
    joinedRows (addURL db repoURL).1 url ext = joinedRows db url ext := by
  obtain ⟨h1, h2, h3, -⟩ := addURL_shape db repoURL
  rw [joinedRows_eq, joinedRows_eq, h1, h2]
  rcases h3 with h3 | ⟨h3, -⟩
  · rw [h3]
  · rw [h3]
    refine flatMap_congr_mem _ _ _ (fun f hf => joinRows_append_urls _ _ _ _ _ f ?_)
    intro u hu heq
    rw [List.mem_singleton.1 hu] at heq
    simp only at heq
    exact nextRowid_not_mem db.urlSeq (db.urls.map URL.ID) (heq ▸ hw.fkUrl f hf)

theorem joinedRows_addExtension (db : DB) (ext0 : String) (hw : db.WF)
    (url ext : String) :
    joinedRows (addExtension db ext0).1 url ext = joinedRows db url ext := by
  obtain ⟨h1, h2, h3, -⟩ := addExtension_shape db ext0
  rw [joinedRows_eq, joinedRows_eq, h1, h2]
  rcases h3 with h3 | ⟨h3, -⟩
  · rw [h3]
  · rw [h3]
    refine flatMap_congr_mem _ _ _ (fun f hf => joinRows_append_exts _ _ _ _ _ f ?_)
    intro e he heq
    rw [List.mem_singleton.1 he] at heq
    simp only at heq
    exact nextRowid_not_mem db.extSeq (db.file_extensions.map FileExt.ID)
      (heq ▸ hw.fkExt f hf)

theorem addURL_noFaults (db : DB) (url : String) (hf : db.faults = []) :
    (addURL db url).1.faults = [] := by
  unfold addURL execInsertOrIgnoreUrl queryRowUrlId
  rw [DB.step_of_noFaults db hf]
  by_cases hany : db.urls.any (fun r => r.Url = url) = true
  · simp only [hany, if_true, DB.step, hf]
    split <;> rfl
  · simp only [hany, if_false, Bool.false_eq_true, DB.step, hf]
    split <;> rfl

theorem addExtension_noFaults (db : DB) (ext : String) (hf : db.faults = []) :
    (addExtension db ext).1.faults = [] := by
  unfold addExtension execInsertOrIgnoreExt queryRowExtId
  rw [DB.step_of_noFaults db hf]
  by_cases hany : db.file_extensions.any (fun r => r.Extension = ext) = true
  · simp only [hany, if_true, DB.step, hf]
    split <;> rfl
  · simp only [hany, if_false, Bool.false_eq_true, DB.step, hf]
    split <;> rfl

theorem execUpsert_noFaults (db : DB) (urlID extID : Int) (char : GoString) (freq : Int)
    (hf : db.faults = []) : (execUpsert db urlID extID char freq).1.faults = [] := by
  unfold execUpsert
  rw [DB.step_of_noFaults db hf]
  simp only
  split
  · exact hf
  · split <;> exact hf

theorem deleteStatistics_noFaults (db : DB) (urlID extID : Int) (hf : db.faults = []) :
    (deleteStatistics db urlID extID).1.faults = [] := by
  rw [deleteStatistics_rejected db urlID extID hf]
  exact hf

theorem saveLoop_noFaults (db : DB) (urlID extID : Int) (stat : GoMap) (hf : db.faults = []) :
    (saveLoop db urlID extID stat).1.faults = [] := by
  induction stat generalizing db with
  | nil => exact hf
  | cons p rest ih =>
    obtain ⟨char, freq⟩ := p
    have h := execUpsert_noFaults db urlID extID (encodeRune char) freq hf
    unfold saveLoop addCharFrequency
    rcases hr : execUpsert db urlID extID (encodeRune char) freq with ⟨db1, _ | e⟩
    · rw [hr] at h
      exact ih db1 h
    · rw [hr] at h
      exact h

theorem saveStatistics_noFaults (db : DB) (repoURL ext : String) (stat : GoMap)
    (hf : db.faults = []) : (saveStatistics db repoURL ext stat).1.faults = [] := by
  have h1 := addURL_noFaults db repoURL hf
  unfold saveStatistics
  rcases hr : addURL db repoURL with ⟨db1, urlID, _ | e⟩
  · rw [hr] at h1
    have h2 := addExtension_noFaults db1 ext h1
    simp only
    rcases hr2 : addExtension db1 ext with ⟨db2, extID, _ | e⟩
    · rw [hr2] at h2
      exact saveLoop_noFaults _ urlID extID stat (deleteStatistics_noFaults db2 urlID extID h2)
    · rw [hr2] at h2
      exact h2
  · rw [hr] at h1
    exact h1

/-- The ids that `saveStatistics` resolves for its bucket belong to no other
bucket. -/
theorem bucket_ids_separate (db : DB) (hw : db.WF) (repoURL ext url ext1 : String)
    (urlID extID : Int)
    (hu : ∃ u ∈ db.urls, u.Url = repoURL ∧ u.ID = urlID)
    (he : ∃ e ∈ db.file_extensions, e.Extension = ext ∧ e.ID = extID)
    (hne : url ≠ repoURL ∨ ext1 ≠ ext) :
    ∀ u ∈ db.urls, ∀ e ∈ db.file_extensions, u.ID = urlID → e.ID = extID →
      ¬(u.Url = url ∧ e.Extension = ext1) := by
  obtain ⟨u0, hu0, hu1, hu2⟩ := hu
  obtain ⟨e0, he0, he1, he2⟩ := he
  intro u hum e hem hid heid hc
  have e1 : u = u0 := List.inj_on_of_nodup_map hw.urlIds hum hu0 (hid.trans hu2.symm)
  have e2 : e = e0 := List.inj_on_of_nodup_map hw.extIds hem he0 (heid.trans he2.symm)
  subst e1 e2
  rcases hne with h | h
  · exact h (hc.1.symm.trans hu1)
  · exact h (hc.2.symm.trans he1)

/-- Under any schedule of storage failures, `saveStatistics` leaves the rows
selected for every other bucket as they were. -/
theorem joinedRows_saveStatistics_other (db : DB) (repoURL ext : String) (stat : GoMap)
    (url ext1 : String) (hw : db.WF) (hne : url ≠ repoURL ∨ ext1 ≠ ext) :
    joinedRows (saveStatistics db repoURL ext stat).1 url ext1
      = joinedRows db url ext1 := by
  have q1 := joinedRows_addURL db repoURL hw url ext1
  have w1 := addURL_wf db repoURL hw
  obtain ⟨-, -, -, a4⟩ := addURL_shape db repoURL
  unfold saveStatistics
  rcases hr : addURL db repoURL with ⟨db1, urlID, _ | e⟩
  · rw [hr] at q1 w1 a4
    simp only at q1 w1 a4 ⊢
    have q2 := joinedRows_addExtension db1 ext w1 url ext1
    have w2 := addExtension_wf db1 ext w1
    obtain ⟨b1, -, -, b4⟩ := addExtension_shape db1 ext
    rcases hr2 : addExtension db1 ext with ⟨db2, extID, _ | e⟩
    · rw [hr2] at q2 w2 b1 b4
      simp only at q2 w2 b1 b4 ⊢
      have hd := deleteStatistics_sameData db2 urlID extID
      have w3 := hd.schema_kept w2
      have hsep := bucket_ids_separate _ w3 repoURL ext url ext1 urlID extID
        (by rw [hd.1, b1]; exact a4 trivial) (by rw [hd.2.2.1]; exact b4 trivial) hne
      rw [joinedRows_saveLoop_other _ urlID extID stat url ext1 hsep,
        joinedRows_sameData hd, q2, q1]
    · rw [hr2] at q2
      simp only at q2 ⊢
      rw [q2, q1]
  · rw [hr] at q1
    exact q1

theorem filter_key_eq_singleton {α β : Type} [DecidableEq β] (k : α → β) (l : List α) (a : α)
    (hnd : (l.map k).Nodup) (ha : a ∈ l) : l.filter (fun x => k x = k a) = [a] := by
  induction l with
  | nil => cases ha
  | cons b rest ih =>
    rw [List.map_cons, List.nodup_cons] at hnd
    rcases List.mem_cons.1 ha with rfl | hin
    · have hnil : rest.filter (fun x => decide (k x = k a)) = [] := by
        rw [List.filter_eq_nil_iff]
        intro x hx hk
        simp only [decide_eq_true_eq] at hk
        exact hnd.1 (hk ▸ List.mem_map_of_mem k hx)
      rw [List.filter_cons_of_pos (by simp), hnil]
    · have hne : ¬ k b = k a := fun h => hnd.1 (h ▸ List.mem_map_of_mem k hin)
      rw [List.filter_cons_of_neg (by simpa using hne)]
      exact ih hnd.2 hin

theorem flatMap_ite_singleton {α β : Type} (l : List α) (p : α → Bool) (g : α → β) :
    l.flatMap (fun a => if p a = true then [g a] else []) = (l.filter p).map g := by
  induction l with
  | nil => rfl
  | cons a rest ih =>
    rw [List.flatMap_cons, ih]
    by_cases h : p a = true
    · rw [List.filter_cons_of_pos h]; simp [h]
    · rw [List.filter_cons_of_neg h]; simp [h]

/-- With the identity rows of a bucket known, a frequency row contributes to the
bucket's SELECT exactly when it carries the two ids, and then once. -/
theorem joinRows_bucket (db : DB) (hw : db.WF) (repoURL ext : String) (u0 : URL) (e0 : FileExt)
    (hu : u0 ∈ db.urls) (hu1 : u0.Url = repoURL) (he : e0 ∈ db.file_extensions)
    (he1 : e0.Extension = ext) (f : CharFrequency) :
    joinRows db.urls db.file_extensions repoURL ext f
      = if (decide (f.URLID = u0.ID ∧ f.FileExtID = e0.ID)) = true
        then [(f.Char, f.Frequency)] else [] := by
  have h1 : db.urls.filter (fun u => decide (f.URLID = u.ID ∧ u.Url = repoURL))
      = if f.URLID = u0.ID then [u0] else [] := by
    have := filter_key_eq_singleton URL.Url db.urls u0 hw.urlKeys hu
    have e : db.urls.filter (fun u => decide (f.URLID = u.ID ∧ u.Url = repoURL))
        = (db.urls.filter (fun x => decide (x.Url = u0.Url))).filter
          (fun u => decide (f.URLID = u.ID)) := by
      rw [List.filter_filter]
      congr 1
      funext u
      simp [hu1]
    rw [e, this]
    by_cases h : f.URLID = u0.ID <;> simp [h]
  have h2 : db.file_extensions.filter (fun e => decide (f.FileExtID = e.ID ∧ e.Extension = ext))
      = if f.FileExtID = e0.ID then [e0] else [] := by
    have := filter_key_eq_singleton FileExt.Extension db.file_extensions e0 hw.extKeys he
    have e : db.file_extensions.filter
          (fun e => decide (f.FileExtID = e.ID ∧ e.Extension = ext))
        = (db.file_extensions.filter (fun x => decide (x.Extension = e0.Extension))).filter
          (fun e => decide (f.FileExtID = e.ID)) := by
      rw [List.filter_filter]
      congr 1
      funext e
      simp [he1]
    rw [e, this]
    by_cases h : f.FileExtID = e0.ID <;> simp [h]
  unfold joinRows
  rw [h1, h2]
  by_cases a : f.URLID = u0.ID <;> by_cases b : f.FileExtID = e0.ID <;> simp [a, b]

/-- The rows selected for a bucket are the frequency rows with its two ids. -/
theorem joinedRows_bucket (db : DB) (hw : db.WF) (repoURL ext : String) (u0 : URL)
    (e0 : FileExt) (hu : u0 ∈ db.urls) (hu1 : u0.Url = repoURL) (he : e0 ∈ db.file_extensions)
    (he1 : e0.Extension = ext) :
    joinedRows db repoURL ext
      = (db.char_frequencies.filter
          (fun f => decide (f.URLID = u0.ID ∧ f.FileExtID = e0.ID))).map
        (fun f => (f.Char, f.Frequency)) := by
  rw [joinedRows_eq, ← flatMap_ite_singleton]
  exact flatMap_congr_mem _ _ _
    (fun f _ => joinRows_bucket db hw repoURL ext u0 e0 hu hu1 he he1 f)

/-- One insert into a bucket whose identity rows exist and which does not hold
the character yet: either it fails and the bucket's rows stay, or it succeeds
and the row is added behind them. -/
theorem joinedRows_execUpsert_bucket (db : DB) (hw : db.WF) (repoURL ext : String)
    (u0 : URL) (e0 : FileExt) (hu : u0 ∈ db.urls) (hu1 : u0.Url = repoURL)
    (he : e0 ∈ db.file_extensions) (he1 : e0.Extension = ext) (char : GoString) (freq : Int)
    (hnew : char ∉ (joinedRows db repoURL ext).map Prod.fst) :
    ((execUpsert db u0.ID e0.ID char freq).2 ≠ none ∧
      joinedRows (execUpsert db u0.ID e0.ID char freq).1 repoURL ext
        = joinedRows db repoURL ext) ∨
    ((execUpsert db u0.ID e0.ID char freq).2 = none ∧
      joinedRows (execUpsert db u0.ID e0.ID char freq).1 repoURL ext
        = joinedRows db repoURL ext ++ [(char, freq)]) := by
  have hw' := addCharFrequency_wf db u0.ID e0.ID char freq hw
  unfold addCharFrequency at hw'
  obtain ⟨h1, h2, h3⟩ := execUpsert_shape db u0.ID e0.ID char freq
  have hq' := joinedRows_bucket _ hw' repoURL ext u0 e0 (by rw [h1]; exact hu) hu1
    (by rw [h2]; exact he) he1
  have hq := joinedRows_bucket db hw repoURL ext u0 e0 hu hu1 he he1
  rcases h3 with ⟨hn, h3⟩ | ⟨-, ⟨r, hr, hk⟩, -⟩ | ⟨hn, -, -, -, h3⟩
  · left
    exact ⟨hn, by rw [hq', hq, h3]⟩
  · exfalso
    obtain ⟨k1, k2, k3⟩ := (hasKey_iff r u0.ID e0.ID char).1 hk
    apply hnew
    rw [hq, List.map_map]
    exact List.mem_map.2 ⟨r, List.mem_filter.2 ⟨hr, by simp [k1, k2]⟩, k3⟩
  · right
    refine ⟨hn, ?_⟩
    rw [hq', hq, h3, List.filter_append, List.map_append]
    simp

/-- The insert loop on a bucket that holds the rows `pre`: when it returns no
error all entries have been added behind `pre`; when it returns an error only
the entries before the failing insert have. -/
theorem joinedRows_saveLoop_bucket (stat : GoMap) (db : DB) (hw : db.WF)
    (repoURL ext : String) (u0 : URL) (e0 : FileExt) (hu : u0 ∈ db.urls)
    (hu1 : u0.Url = repoURL) (he : e0 ∈ db.file_extensions) (he1 : e0.Extension = ext)
    (hnd : (stat.map (fun p => encodeRune p.1)).Nodup)
    (hnew : ∀ p ∈ stat, encodeRune p.1 ∉ (joinedRows db repoURL ext).map Prod.fst) :
    ((saveLoop db u0.ID e0.ID stat).2 = none ∧
      joinedRows (saveLoop db u0.ID e0.ID stat).1 repoURL ext
        = joinedRows db repoURL ext ++ stat.map statRow) ∨
    ((saveLoop db u0.ID e0.ID stat).2 ≠ none ∧ ∃ k, k < stat.length ∧
      joinedRows (saveLoop db u0.ID e0.ID stat).1 repoURL ext
        = joinedRows db repoURL ext ++ (stat.take k).map statRow) := by
  induction stat generalizing db with
  | nil => left; exact ⟨rfl, by simp [saveLoop]⟩
  | cons p rest ih =>
    obtain ⟨char, freq⟩ := p
    rw [List.map_cons, List.nodup_cons] at hnd
    have hstep := joinedRows_execUpsert_bucket db hw repoURL ext u0 e0 hu hu1 he he1
      (encodeRune char) freq (hnew (char, freq) (List.mem_cons_self _ _))
    have hw1 := addCharFrequency_wf db u0.ID e0.ID (encodeRune char) freq hw
    obtain ⟨s1, s2, -⟩ := execUpsert_shape db u0.ID e0.ID (encodeRune char) freq
    unfold addCharFrequency at hw1
    unfold saveLoop addCharFrequency
    rcases hr : execUpsert db u0.ID e0.ID (encodeRune char) freq with ⟨db1, _ | e⟩
    · rw [hr] at hstep hw1 s1 s2
      simp only at hstep hw1 s1 s2 ⊢
      rcases hstep with ⟨hc, -⟩ | ⟨-, hq1⟩
      · exact absurd rfl hc
      · have hnew1 : ∀ p ∈ rest,
            encodeRune p.1 ∉ (joinedRows db1 repoURL ext).map Prod.fst := by
          intro p hp hmem
          rw [hq1, List.map_append, List.mem_append] at hmem
          rcases hmem with hmem | hmem
          · exact hnew p (List.mem_cons_of_mem _ hp) hmem
          · simp only [List.map_cons, List.map_nil, List.mem_singleton] at hmem
            exact hnd.1 (hmem ▸ List.mem_map_of_mem (fun p => encodeRune p.1) hp)
        rcases ih db1 hw1 (by rw [s1]; exact hu) (by rw [s2]; exact he) hnd.2 hnew1 with
          ⟨a1, a2⟩ | ⟨a1, k, hk, a2⟩
        · left
          refine ⟨a1, ?_⟩
          rw [a2, hq1, List.append_assoc]
          rfl
        · right
          refine ⟨a1, k + 1, by simp only [List.length_cons]; omega, ?_⟩
          rw [a2, hq1, List.append_assoc]
          rfl
    · rw [hr] at hstep
      simp only at hstep ⊢
      rcases hstep with ⟨-, hq1⟩ | ⟨hc, -⟩
      · right
        exact ⟨by simp, 0, by simp, by rw [hq1]; simp⟩
      · exact absurd hc (by simp)

/-- On a bucket without rows, `saveStatistics` that returns no error has stored
exactly the rows of the aggregate; `saveStatistics` that returns an error has
stored the rows of the entries before the failure, and not all of them. -/
theorem joinedRows_saveStatistics_fresh (db : DB) (repoURL ext : String) (stat : GoMap)
    (hw : db.WF) (hfresh : joinedRows db repoURL ext = [])
    (hnd : (stat.map (fun p => encodeRune p.1)).Nodup) :
    ((saveStatistics db repoURL ext stat).2 = none ∧
      joinedRows (saveStatistics db repoURL ext stat).1 repoURL ext = stat.map statRow) ∨
    ((saveStatistics db repoURL ext stat).2 ≠ none ∧ ∃ k, (k < stat.length ∨ stat = []) ∧
      joinedRows (saveStatistics db repoURL ext stat).1 repoURL ext
        = (stat.take k).map statRow) := by
  have q1 := joinedRows_addURL db repoURL hw repoURL ext
  have w1 := addURL_wf db repoURL hw
  obtain ⟨-, -, -, a4⟩ := addURL_shape db repoURL
  have hk0 : (0 < stat.length ∨ stat = []) := by
    cases stat with
    | nil => right; rfl
    | cons p rest => left; simp
  unfold saveStatistics
  rcases hr : addURL db repoURL with ⟨db1, urlID, _ | e⟩
  · rw [hr] at q1 w1 a4
    simp only at q1 w1 a4 ⊢
    have q2 := joinedRows_addExtension db1 ext w1 repoURL ext
    have w2 := addExtension_wf db1 ext w1
    obtain ⟨b1, -, -, b4⟩ := addExtension_shape db1 ext
    rcases hr2 : addExtension db1 ext with ⟨db2, extID, _ | e⟩
    · rw [hr2] at q2 w2 b1 b4
      simp only at q2 w2 b1 b4 ⊢
      have hd := deleteStatistics_sameData db2 urlID extID
      have w3 := hd.schema_kept w2
      obtain ⟨u0, hu, hu1, hu2⟩ := a4 trivial
      obtain ⟨e0, he, he1, he2⟩ := b4 trivial
      have hq3 : joinedRows (deleteStatistics db2 urlID extID).1 repoURL ext = [] := by
        rw [joinedRows_sameData hd, q2, q1, hfresh]
      subst hu2 he2
      have := joinedRows_saveLoop_bucket stat _ w3 repoURL ext u0 e0
        (by rw [hd.1, b1]; exact hu) hu1 (by rw [hd.2.2.1]; exact he) he1 hnd
        (by intro p _; rw [hq3]; simp)
      rw [hq3, List.nil_append] at this
      rcases this with ⟨c1, c2⟩ | ⟨c1, k, hk, c2⟩
      · left; exact ⟨c1, c2⟩
      · right
        refine ⟨c1, k, Or.inl hk, ?_⟩
        rw [c2, List.nil_append]
    · rw [hr2] at q2
      simp only at q2 ⊢
      right
      exact ⟨by simp, 0, hk0, by rw [q2, q1, hfresh]; simp⟩
  · rw [hr] at q1
    simp only at q1 ⊢
    right
    exact ⟨by simp, 0, hk0, by rw [q1, hfresh]; simp⟩

/-- The bucket after `saveStatistics` that returns an error: unchanged when the
error is that of `addURL` or `addExtension`; otherwise, on a bucket without
rows, the rows of the entries before the failing insert. -/
theorem joinedRows_saveStatistics_error (db : DB) (repoURL ext : String) (stat : GoMap)
    (hw : db.WF) (herr : (saveStatistics db repoURL ext stat).2 ≠ none) :
    (((addURL db repoURL).2.2 ≠ none ∨ (addExtension (addURL db repoURL).1 ext).2.2 ≠ none) ∧
      joinedRows (saveStatistics db repoURL ext stat).1 repoURL ext
        = joinedRows db repoURL ext) ∨
    (¬((addURL db repoURL).2.2 ≠ none ∨ (addExtension (addURL db repoURL).1 ext).2.2 ≠ none) ∧
      (joinedRows db repoURL ext = [] → (stat.map (fun p => encodeRune p.1)).Nodup →
        ∃ k, k < stat.length ∧
          joinedRows (saveStatistics db repoURL ext stat).1 repoURL ext
            = (stat.take k).map statRow)) := by
  have q1 := joinedRows_addURL db repoURL hw repoURL ext
  have w1 := addURL_wf db repoURL hw
  obtain ⟨-, -, -, a4⟩ := addURL_shape db repoURL
  unfold saveStatistics at herr ⊢
  rcases hr : addURL db repoURL with ⟨db1, urlID, _ | e⟩
  · rw [hr] at q1 w1 a4 herr
    simp only at q1 w1 a4 herr ⊢
    have q2 := joinedRows_addExtension db1 ext w1 repoURL ext
    have w2 := addExtension_wf db1 ext w1
    obtain ⟨b1, -, -, b4⟩ := addExtension_shape db1 ext
    rcases hr2 : addExtension db1 ext with ⟨db2, extID, _ | e⟩
    · rw [hr2] at q2 w2 b1 b4 herr
      simp only at q2 w2 b1 b4 herr ⊢
      right
      refine ⟨by simp, fun hfresh hnd => ?_⟩
      have hd := deleteStatistics_sameData db2 urlID extID
      have w3 := hd.schema_kept w2
      obtain ⟨u0, hu, hu1, hu2⟩ := a4 trivial
      obtain ⟨e0, he, he1, he2⟩ := b4 trivial
      have hq3 : joinedRows (deleteStatistics db2 urlID extID).1 repoURL ext = [] := by
        rw [joinedRows_sameData hd, q2, q1, hfresh]
      subst hu2 he2
      have := joinedRows_saveLoop_bucket stat _ w3 repoURL ext u0 e0
        (by rw [hd.1, b1]; exact hu) hu1 (by rw [hd.2.2.1]; exact he) he1 hnd
        (by intro p _; rw [hq3]; simp)
      rw [hq3, List.nil_append] at this
      rcases this with ⟨c1, -⟩ | ⟨-, k, hk, c2⟩
      · exact absurd c1 herr
      · exact ⟨k, hk, by rw [c2, List.nil_append]⟩
    · rw [hr2] at q2
      simp only at q2 ⊢
      left
      exact ⟨Or.inr (by simp), by rw [q2, q1]⟩
  · rw [hr] at q1
    simp only at q1 ⊢
    left
    exact ⟨Or.inl (by simp), q1⟩

theorem F64.div_zero (n : Int) :
    F64.div (F64.mul (F64.ofInt n) (F64.ofInt 100)) (F64.ofInt 0)
      = if n = 0 then F64.nan else if 0 < n then F64.posInf else F64.negInf := by
  simp only [F64.ofInt, F64.mul, F64.div, Int.cast_zero, if_true, F64.sign]
  rcases lt_trichotomy n 0 with h | h | h
  · have h1 : ¬ (0 : ℚ) < (n : ℚ) * ((100 : Int) : ℚ) := by
      have : ((n : ℚ)) < 0 := by exact_mod_cast h
      push_cast; linarith
    have h2 : (n : ℚ) * ((100 : Int) : ℚ) < 0 := by
      have : ((n : ℚ)) < 0 := by exact_mod_cast h
      push_cast; linarith
    have h3 : ¬ n = 0 := by omega
    have h4 : ¬ 0 < n := by omega
    simp only [h1, h2, h3, h4, if_true, if_false, F64.infOfSign]
    decide
  · subst h
    simp [F64.infOfSign]
  · have h1 : (0 : ℚ) < (n : ℚ) * ((100 : Int) : ℚ) := by
      have : (0 : ℚ) < (n : ℚ) := by exact_mod_cast h
      push_cast; linarith
    have h3 : ¬ n = 0 := by omega
    simp only [h1, h3, h, if_true, if_false, F64.infOfSign]
    decide

theorem printLoop_sublist (T : UnicodeTables) (s : Settings) (sum sumsel : F64)
    (l : List charFreq) (i : Int) :
    ((printLoop T s sum sumsel l i).1.map Row.entry).Sublist l := by
  induction l generalizing i with
  | nil => simp [printLoop]
  | cons kv rest ih =>
    unfold printLoop
    by_cases hig : isIgnoredChar T kv.Char s = true
    · simp only [hig, Bool.not_true, Bool.false_eq_true, if_false]
      exact (ih i).cons kv
    · simp only [Bool.not_eq_true] at hig
      simp only [hig, Bool.not_false, if_true]
      by_cases hlim : i + 1 > s.limitTop
      · simp only [hlim, if_true, List.map_cons, List.map_nil, Row.entry]
        exact (List.nil_sublist rest).cons₂ kv
      · simp only [hlim, if_false, List.map_cons, Row.entry]
        exact (ih (i + 1)).cons₂ kv

theorem printLoop_ranks (T : UnicodeTables) (s : Settings) (sum sumsel : F64)
    (l : List charFreq) (i : Int) :
    (printLoop T s sum sumsel l i).1.map Row.rank
      = (List.range (printLoop T s sum sumsel l i).1.length).map (fun (j : Nat) => i + 1 + (j : Int)) := by
  induction l generalizing i with
  | nil => simp [printLoop]
  | cons kv rest ih =>
    unfold printLoop
    by_cases hig : isIgnoredChar T kv.Char s = true
    · simp only [hig, Bool.not_true, Bool.false_eq_true, if_false]
      exact ih i
    · simp only [Bool.not_eq_true] at hig
      simp only [hig, Bool.not_false, if_true]
      by_cases hlim : i + 1 > s.limitTop
      · simp [hlim, List.range_succ]
      · simp only [hlim, if_false, List.map_cons, List.length_cons, List.range_succ_eq_map,
          List.map_map, ih (i + 1)]
        simp only [Nat.cast_zero, add_zero, List.cons.injEq, true_and]
        apply List.map_congr_left
        intro j _
        simp only [Function.comp, Nat.succ_eq_add_one, Nat.cast_add, Nat.cast_one]
        ring

theorem and_3F (x : Nat) : x &&& 0x3F = x % 64 := Nat.and_pow_two_sub_one_eq_mod x 6

theorem and_1F (x : Nat) : x &&& 0x1F = x % 32 := Nat.and_pow_two_sub_one_eq_mod x 5

theorem and_0F (x : Nat) : x &&& 0x0F = x % 16 := Nat.and_pow_two_sub_one_eq_mod x 4

theorem and_07 (x : Nat) : x &&& 0x07 = x % 8 := Nat.and_pow_two_sub_one_eq_mod x 3

theorem or_of_lt (i a b : Nat) (h : b < 2 ^ i) : (2 ^ i * a) ||| b = 2 ^ i * a + b :=
  (Nat.mul_add_lt_is_or h a).symm

theorem or_80 (b : Nat) (h : b < 64) : 0x80 ||| b = 0x80 + b := or_of_lt 6 2 b h

theorem or_C0 (b : Nat) (h : b < 64) : 0xC0 ||| b = 0xC0 + b := or_of_lt 6 3 b h

theorem or_E0 (b : Nat) (h : b < 32) : 0xE0 ||| b = 0xE0 + b := or_of_lt 5 7 b h

theorem or_F0 (b : Nat) (h : b < 16) : 0xF0 ||| b = 0xF0 + b := or_of_lt 4 15 b h

theorem shl_or_6 (a b : Nat) (h : b < 64) : (a <<< 6) ||| b = a * 64 + b := by
  rw [Nat.shiftLeft_eq, Nat.mul_comm]
  exact or_of_lt 6 a b h

theorem shl_or_12 (a b : Nat) (h : b < 4096) : (a <<< 12) ||| b = a * 4096 + b := by
  rw [Nat.shiftLeft_eq, Nat.mul_comm]
  exact or_of_lt 12 a b h

theorem shl_or_18 (a b : Nat) (h : b < 262144) : (a <<< 18) ||| b = a * 262144 + b := by
  rw [Nat.shiftLeft_eq, Nat.mul_comm]
  exact or_of_lt 18 a b h

theorem shr_6 (n : Nat) : n >>> 6 = n / 64 := Nat.shiftRight_eq_div_pow n 6

theorem shr_12 (n : Nat) : n >>> 12 = n / 4096 := Nat.shiftRight_eq_div_pow n 12

theorem shr_18 (n : Nat) : n >>> 18 = n / 262144 := Nat.shiftRight_eq_div_pow n 18

theorem or_three (a b c : Nat) (hb : b < 64) (hc : c < 64) :
    (a <<< 12) ||| (b <<< 6) ||| c = a * 4096 + b * 64 + c := by
  have e1 : b <<< 6 = b * 64 := Nat.shiftLeft_eq b 6
  rw [e1, shl_or_12 _ _ (by omega)]
  have e2 : a * 4096 + b * 64 = 2 ^ 6 * (a * 64 + b) := by omega
  rw [e2, or_of_lt 6 _ c hc]

theorem or_four (a b c d : Nat) (hb : b < 64) (hc : c < 64) (hd : d < 64) :
    (a <<< 18) ||| (b <<< 12) ||| (c <<< 6) ||| d = a * 262144 + b * 4096 + c * 64 + d := by
  have e1 : b <<< 12 = b * 4096 := Nat.shiftLeft_eq b 12
  have e0 : c <<< 6 = c * 64 := Nat.shiftLeft_eq c 6
  rw [e1, e0, shl_or_18 _ _ (by omega)]
  have e2 : a * 262144 + b * 4096 = 2 ^ 12 * (a * 64 + b) := by omega
  rw [e2, or_of_lt 12 _ (c * 64) (by omega)]
  have e3 : 2 ^ 12 * (a * 64 + b) + c * 64 = 2 ^ 6 * (a * 4096 + b * 64 + c) := by omega
  rw [e3, or_of_lt 6 _ d hd]

theorem decodeRune_two (n : Nat) (tail : GoString) (h1 : 0x80 ≤ n) (h2 : n ≤ 0x7FF) :
    decodeRune ((0xC0 ||| (n >>> 6)) :: (0x80 ||| (n &&& 0x3F)) :: tail) = (Int.ofNat n, 2) := by
  rw [shr_6, and_3F, or_C0 _ (by omega), or_80 _ (by omega)]
  unfold decodeRune
  have c1 : ¬ (0xC0 + n / 64 < 0x80) := by omega
  have c2 : 0xC2 ≤ 0xC0 + n / 64 ∧ 0xC0 + n / 64 ≤ 0xDF := by omega
  have c3 : isContByte (0x80 + n % 64) = true := by
    simp only [isContByte, decide_eq_true_eq]; omega
  simp only [c1, c2, c3, if_true, if_false, and_self]
  rw [and_1F, and_3F, shl_or_6 _ _ (by omega)]
  congr 2
  omega

theorem decodeRune_three (n : Nat) (tail : GoString) (h1 : 0x800 ≤ n) (h2 : n ≤ 0xFFFF)
    (h3 : ¬(0xD800 ≤ n ∧ n ≤ 0xDFFF)) :
    decodeRune ((0xE0 ||| (n >>> 12)) :: (0x80 ||| ((n >>> 6) &&& 0x3F)) ::
      (0x80 ||| (n &&& 0x3F)) :: tail) = (Int.ofNat n, 3) := by
  rw [shr_6, shr_12, and_3F, and_3F, or_E0 _ (by omega), or_80 _ (by omega),
    or_80 _ (by omega)]
  unfold decodeRune
  have c1 : ¬ (0xE0 + n / 4096 < 0x80) := by omega
  have c2 : ¬ (0xC2 ≤ 0xE0 + n / 4096 ∧ 0xE0 + n / 4096 ≤ 0xDF) := by omega
  have c3 : 0xE0 ≤ 0xE0 + n / 4096 ∧ 0xE0 + n / 4096 ≤ 0xEF := by omega
  have c4 : isContByte (0x80 + n % 64) = true := by
    simp only [isContByte, decide_eq_true_eq]; omega
  have c5 : (if 0xE0 + n / 4096 = 0xE0 then 0xA0 else 0x80) ≤ 0x80 + n / 64 % 64 := by
    split <;> omega
  have c6 : 0x80 + n / 64 % 64 ≤ (if 0xE0 + n / 4096 = 0xED then 0x9F else 0xBF) := by
    split <;> omega
  simp only [c1, c2, c3, c4, c5, c6, if_true, if_false, and_self]
  rw [and_0F, and_3F, and_3F, or_three _ _ _ (by omega) (by omega)]
  congr 2
  omega

theorem decodeRune_four (n : Nat) (tail : GoString) (h1 : 0x10000 ≤ n) (h2 : n ≤ 0x10FFFF) :
    decodeRune ((0xF0 ||| (n >>> 18)) :: (0x80 ||| ((n >>> 12) &&& 0x3F)) ::
      (0x80 ||| ((n >>> 6) &&& 0x3F)) :: (0x80 ||| (n &&& 0x3F)) :: tail)
      = (Int.ofNat n, 4) := by
  rw [shr_6, shr_12, shr_18, and_3F, and_3F, and_3F, or_F0 _ (by omega), or_80 _ (by omega),
    or_80 _ (by omega), or_80 _ (by omega)]
  unfold decodeRune
  have c1 : ¬ (0xF0 + n / 262144 < 0x80) := by omega
  have c2 : ¬ (0xC2 ≤ 0xF0 + n / 262144 ∧ 0xF0 + n / 262144 ≤ 0xDF) := by omega
  have c3 : ¬ (0xE0 ≤ 0xF0 + n / 262144 ∧ 0xF0 + n / 262144 ≤ 0xEF) := by omega
  have c3' : 0xF0 ≤ 0xF0 + n / 262144 ∧ 0xF0 + n / 262144 ≤ 0xF4 := by omega
  have c4 : isContByte (0x80 + n % 64) = true := by
    simp only [isContByte, decide_eq_true_eq]; omega
  have c4' : isContByte (0x80 + n / 64 % 64) = true := by
    simp only [isContByte, decide_eq_true_eq]; omega
  have c5 : (if 0xF0 + n / 262144 = 0xF0 then 0x90 else 0x80) ≤ 0x80 + n / 4096 % 64 := by
    split <;> omega
  have c6 : 0x80 + n / 4096 % 64 ≤ (if 0xF0 + n / 262144 = 0xF4 then 0x8F else 0xBF) := by
    split <;> omega
  simp only [c1, c2, c3, c3', c4, c4', c5, c6, if_true, if_false, and_self]
  rw [and_07, and_3F, and_3F, and_3F, or_four _ _ _ _ (by omega) (by omega) (by omega)]
  congr 2
  omega

theorem rangeRunes_skip (pre tail : GoString) :
    rangeRunes pre.length (pre ++ tail) = rangeRunes 0 tail := by
  induction pre with
  | nil => rfl
  | cons b rest ih =>
    show rangeRunes (rest.length + 1) (b :: (rest ++ tail)) = _
    rw [rangeRunes]
    exact ih

theorem rangeRunes_of_decode (b : Nat) (rest tail : GoString) (r : Rune)
    (h : decodeRune (b :: rest ++ tail) = (r, rest.length + 1)) :
    rangeRunes 0 (b :: rest ++ tail) = r :: rangeRunes 0 tail := by
  show rangeRunes 0 (b :: (rest ++ tail)) = _
  rw [rangeRunes]
  have h' : decodeRune (b :: (rest ++ tail)) = (r, rest.length + 1) := h
  rw [h']
  simp only [Nat.add_sub_cancel]
  rw [rangeRunes_skip]

/-- Reading back the UTF-8 bytes that `string(r)` produces gives the rune itself
when it is a valid code point and U+FFFD otherwise. -/
theorem rangeRunes_encodeRune (r : Int) (tail : GoString) :
    rangeRunes 0 (encodeRune r ++ tail) = normRune r :: rangeRunes 0 tail := by
  unfold encodeRune normRune
  by_cases h1 : 0 ≤ r ∧ r ≤ 0x7F
  · have hn : ¬(r < 0 ∨ 0x10FFFF < r ∨ (0xD800 ≤ r ∧ r ≤ 0xDFFF)) := by omega
    rw [if_pos h1, if_neg hn]
    refine rangeRunes_of_decode r.toNat [] tail r ?_
    have hlt : r.toNat < 0x80 := by omega
    simp only [List.cons_append, List.nil_append, decodeRune, hlt, if_true, List.length_nil,
      zero_add, Prod.mk.injEq, and_true]
    exact Int.toNat_of_nonneg h1.1
  · by_cases h2 : 0 ≤ r ∧ r ≤ 0x7FF
    · have hn : ¬(r < 0 ∨ 0x10FFFF < r ∨ (0xD800 ≤ r ∧ r ≤ 0xDFFF)) := by omega
      rw [if_neg h1, if_pos h2, if_neg hn]
      refine rangeRunes_of_decode _ [_] tail r ?_
      have := decodeRune_two r.toNat tail (by omega) (by omega)
      rw [show (Int.ofNat r.toNat) = r from Int.toNat_of_nonneg h2.1] at this
      exact this
    · by_cases h3 : r < 0 ∨ 0x10FFFF < r ∨ (0xD800 ≤ r ∧ r ≤ 0xDFFF)
      · rw [if_neg h1, if_neg h2, if_pos h3, if_pos h3]
        exact rangeRunes_of_decode 0xEF [0xBF, 0xBD] tail RuneError rfl
      · have h0 : 0 ≤ r := by omega
        by_cases h4 : r ≤ 0xFFFF
        · rw [if_neg h1, if_neg h2, if_neg h3, if_pos h4, if_neg h3]
          refine rangeRunes_of_decode _ [_, _] tail r ?_
          have := decodeRune_three r.toNat tail (by omega) (by omega) (by omega)
          rw [show (Int.ofNat r.toNat) = r from Int.toNat_of_nonneg h0] at this
          exact this
        · rw [if_neg h1, if_neg h2, if_neg h3, if_neg h4, if_neg h3]
          refine rangeRunes_of_decode _ [_, _, _] tail r ?_
          have := decodeRune_four r.toNat tail (by omega) (by omega)
          rw [show (Int.ofNat r.toNat) = r from Int.toNat_of_nonneg h0] at this
          exact this

theorem rangeRunes_flatMap_encode (mapping : Rune → Rune) (rs : List Rune) :
    rangeRunes 0 (rs.flatMap (fun c => if 0 ≤ mapping c then encodeRune (mapping c) else []))
      = rs.filterMap (mapRune mapping) := by
  induction rs with
  | nil => rfl
  | cons c rest ih =>
    rw [List.flatMap_cons, List.filterMap_cons]
    by_cases h : 0 ≤ mapping c
    · simp only [h, if_true, mapRune]
      rw [rangeRunes_encodeRune, ih]
    · simp only [h, if_false, mapRune, List.nil_append]
      exact ih

theorem rangeRunes_stringsMap (mapping : Rune → Rune) (s : GoString) :
    rangeRunes 0 (stringsMap mapping s) = (rangeRunes 0 s).filterMap (mapRune mapping) :=
  rangeRunes_flatMap_encode mapping (rangeRunes 0 s)

theorem rangeRunes_ascii (s : GoString) (h : s.all (fun c => c < 0x80) = true) :
    rangeRunes 0 s = s.map Int.ofNat := by
  induction s with
  | nil => rfl
  | cons b rest ih =>
    rw [List.all_cons, Bool.and_eq_true] at h
    have hb : b < 0x80 := by simpa using h.1
    rw [rangeRunes]
    simp only [decodeRune, hb, if_true, Nat.sub_self, List.map_cons]
    rw [ih h.2]

theorem mapRune_toLower_ascii (T : UnicodeTables) (b : Nat) (hb : b < 0x80) :
    mapRune (unicodeToLower T) (Int.ofNat b)
      = some (Int.ofNat (if 0x41 ≤ b ∧ b ≤ 0x5A then b + 32 else b)) := by
  have h1 : (Int.ofNat b) ≤ 0x7F := by simp only [Int.ofNat_eq_coe]; omega
  unfold mapRune unicodeToLower normRune
  rw [if_pos h1]
  by_cases hu : 0x41 ≤ b ∧ b ≤ 0x5A
  · have hu' : (0x41 : Int) ≤ Int.ofNat b ∧ Int.ofNat b ≤ 0x5A := by
      simp only [Int.ofNat_eq_coe]; omega
    rw [if_pos hu, if_pos hu']
    have h0 : (0 : Int) ≤ Int.ofNat b + 32 := by simp only [Int.ofNat_eq_coe]; omega
    have hv : ¬(Int.ofNat b + 32 < 0 ∨ 0x10FFFF < Int.ofNat b + 32 ∨
        (0xD800 ≤ Int.ofNat b + 32 ∧ Int.ofNat b + 32 ≤ 0xDFFF)) := by
      simp only [Int.ofNat_eq_coe]; omega
    rw [if_pos h0, if_neg hv]
    simp
  · have hu' : ¬((0x41 : Int) ≤ Int.ofNat b ∧ Int.ofNat b ≤ 0x5A) := by
      simp only [Int.ofNat_eq_coe]; omega
    rw [if_neg hu, if_neg hu']
    have h0 : (0 : Int) ≤ Int.ofNat b := by simp only [Int.ofNat_eq_coe]; omega
    have hv : ¬(Int.ofNat b < 0 ∨ 0x10FFFF < Int.ofNat b ∨
        (0xD800 ≤ Int.ofNat b ∧ Int.ofNat b ≤ 0xDFFF)) := by
      simp only [Int.ofNat_eq_coe]; omega
    rw [if_pos h0, if_neg hv]

theorem filterMap_mapRune_ascii (T : UnicodeTables) (s : GoString)
    (h : s.all (fun c => c < 0x80) = true) :
    (s.map Int.ofNat).filterMap (mapRune (unicodeToLower T))
      = (s.map (fun c => if 0x41 ≤ c ∧ c ≤ 0x5A then c + 32 else c)).map Int.ofNat := by
  induction s with
  | nil => rfl
  | cons b rest ih =>
    rw [List.all_cons, Bool.and_eq_true] at h
    have hb : b < 0x80 := by simpa using h.1
    rw [List.map_cons, List.filterMap_cons, mapRune_toLower_ascii T b hb]
    simp only [List.map_cons]
    rw [ih h.2]

theorem map_lower_of_no_upper (s : GoString)
    (h : s.any (fun c => 0x41 ≤ c ∧ c ≤ 0x5A) = false) :
    s.map (fun c => if 0x41 ≤ c ∧ c ≤ 0x5A then c + 32 else c) = s := by
  induction s with
  | nil => rfl
  | cons b rest ih =>
    rw [List.any_cons, Bool.or_eq_false_iff] at h
    have hb : ¬(0x41 ≤ b ∧ b ≤ 0x5A) := by simpa using h.1
    rw [List.map_cons, if_neg hb, ih h.2]

theorem all_ascii_lower (s : GoString) (h : s.all (fun c => c < 0x80) = true) :
    (s.map (fun c => if 0x41 ≤ c ∧ c ≤ 0x5A then c + 32 else c)).all (fun c => c < 0x80)
      = true := by
  rw [List.all_eq_true] at h ⊢
  intro x hx
  obtain ⟨b, hb, rfl⟩ := List.mem_map.1 hx
  have := h b hb
  simp only [decide_eq_true_eq] at this ⊢
  split <;> omega

/-- The runes of the lower-cased text are the lower-cased runes of the text. -/
theorem rangeRunes_stringsToLower (T : UnicodeTables) (s : GoString) :
    rangeRunes 0 (stringsToLower T s)
      = (rangeRunes 0 s).filterMap (mapRune (unicodeToLower T)) := by
  unfold stringsToLower
  by_cases ha : s.all (fun c => c < 0x80) = true
  · rw [if_pos ha, rangeRunes_ascii s ha, filterMap_mapRune_ascii T s ha]
    by_cases hu : s.any (fun c => 0x41 ≤ c ∧ c ≤ 0x5A) = true
    · simp only [hu, Bool.not_true, Bool.false_eq_true, if_false]
      exact rangeRunes_ascii _ (all_ascii_lower s ha)
    · simp only [Bool.not_eq_true] at hu
      simp only [hu, Bool.not_false, if_true]
      rw [map_lower_of_no_upper s hu]
      exact rangeRunes_ascii s ha
  · rw [if_neg ha]
    exact rangeRunes_stringsMap _ s

theorem normRune_eq_ascii (x c : Int) (hc0 : 0 ≤ c) (hc : c ≤ 0x7F) :
    (0 ≤ x ∧ normRune x = c) ↔ x = c := by
  unfold normRune RuneError Rune
  constructor
  · rintro ⟨h0, h⟩
    split at h <;> omega
  · rintro rfl
    refine ⟨hc0, ?_⟩
    rw [if_neg (by omega)]

theorem mapRune_eq_some_iff (mapping : Int → Int) (r : Int) (c : Int) (hc0 : 0 ≤ c)
    (hc : c ≤ 0x7F) : mapRune mapping r = some c ↔ mapping r = c := by
  unfold mapRune
  rw [← normRune_eq_ascii (mapping r) c hc0 hc]
  by_cases h : 0 ≤ mapping r
  · simp [h]
  · simp [h]

theorem unicodeToLower_eq_lower (T : UnicodeTables) (r c : Int) (h1 : 0x61 ≤ c)
    (h2 : c ≤ 0x7A) :
    unicodeToLower T r = c ↔ (r = c ∨ r = c - 32 ∨ (0x7F < r ∧ T.lowerCase r = c)) := by
  unfold unicodeToLower Rune
  by_cases ha : r ≤ 0x7F
  · rw [if_pos ha]
    by_cases hu : 0x41 ≤ r ∧ r ≤ 0x5A
    · rw [if_pos hu]; omega
    · rw [if_neg hu]; omega
  · rw [if_neg ha]
    constructor
    · intro h; exact Or.inr (Or.inr ⟨by omega, h⟩)
    · rintro (h | h | ⟨-, h⟩)
      · omega
      · omega
      · exact h

theorem unicodeToLower_ne_upper (T : UnicodeTables)
    (hT : ∀ r : Int, 0x7F < r → ¬(0x41 ≤ T.lowerCase r ∧ T.lowerCase r ≤ 0x5A))
    (r c : Int) (h1 : 0x41 ≤ c) (h2 : c ≤ 0x5A) : unicodeToLower T r ≠ c := by
  unfold unicodeToLower Rune
  by_cases ha : r ≤ 0x7F
  · rw [if_pos ha]
    by_cases hu : 0x41 ≤ r ∧ r ≤ 0x5A
    · rw [if_pos hu]; omega
    · rw [if_neg hu]; omega
  · rw [if_neg ha]
    intro h
    exact hT r (by omega) (by rw [h]; exact ⟨h1, h2⟩)

theorem count_filterMap_toLower (T : UnicodeTables) (rs : List Int) (c : Int) (h1 : 0x61 ≤ c)
    (h2 : c ≤ 0x7A) :
    (((rs.filterMap (mapRune (unicodeToLower T))).count c : Nat) : Int)
      = (rs.count c : Int) + (rs.count (c - 32) : Int)
        + (rs.countP (fun r => decide (0x7F < r ∧ T.lowerCase r = c)) : Int) := by
  induction rs with
  | nil => simp
  | cons r rest ih =>
    have hiff := (mapRune_eq_some_iff (unicodeToLower T) r c (by omega) (by omega)).trans
      (unicodeToLower_eq_lower T r c h1 h2)
    rw [List.filterMap_cons, List.count_cons, List.count_cons, List.countP_cons]
    cases hm : mapRune (unicodeToLower T) r with
    | none =>
      have hno : ¬(r = c ∨ r = c - 32 ∨ (0x7F < r ∧ T.lowerCase r = c)) := by
        rw [← hiff, hm]; simp
      simp only [not_or] at hno
      have e1 : (r == c) = false := by simpa using hno.1
      have e2 : (r == c - 32) = false := by simpa using hno.2.1
      have e3 : decide (0x7F < r ∧ T.lowerCase r = c) = false := by simpa using hno.2.2
      simp only [e1, e2, e3, Bool.false_eq_true, if_false, add_zero]
      exact ih
    | some x =>
      simp only
      rw [List.count_cons]
      by_cases hx : x = c
      · subst hx
        have hyes := hiff.1 hm
        have e0 : (x == x) = true := by simp
        rcases hyes with h | h | h
        · have e1 : (r == x) = true := by simpa using h
          have e2 : (r == x - 32) = false := by simp; omega
          have e3 : decide (0x7F < r ∧ T.lowerCase r = x) = false := by simp; omega
          simp only [e0, e1, e2, e3, Bool.false_eq_true, if_true, if_false]
          push_cast
          omega
        · have e1 : (r == x) = false := by simp; omega
          have e2 : (r == x - 32) = true := by simpa using h
          have e3 : decide (0x7F < r ∧ T.lowerCase r = x) = false := by simp; omega
          simp only [e0, e1, e2, e3, Bool.false_eq_true, if_true, if_false]
          push_cast
          omega
        · have e1 : (r == x) = false := by simp; omega
          have e2 : (r == x - 32) = false := by simp; omega
          have e3 : decide (0x7F < r ∧ T.lowerCase r = x) = true := by simpa using h
          simp only [e0, e1, e2, e3, Bool.false_eq_true, if_true, if_false]
          push_cast
          omega
      · have hno : ¬(r = c ∨ r = c - 32 ∨ (0x7F < r ∧ T.lowerCase r = c)) := by
          rw [← hiff, hm]; simpa using hx
        simp only [not_or] at hno
        have e0 : (x == c) = false := by simpa using hx
        have e1 : (r == c) = false := by simpa using hno.1
        have e2 : (r == c - 32) = false := by simpa using hno.2.1
        have e3 : decide (0x7F < r ∧ T.lowerCase r = c) = false := by simpa using hno.2.2
        simp only [e0, e1, e2, e3, Bool.false_eq_true, if_false, add_zero]
        exact ih

theorem fileRunes_fold (T : UnicodeTables) (fs : FS) (s : Settings) (file : String)
    (data : GoString) (hfile : fs file = .ok data) :
    fileRunes T fs { s with caseSensetive := false } file
      = (rangeRunes 0 data).filterMap (mapRune (unicodeToLower T)) := by
  unfold fileRunes
  rw [hfile]
  exact rangeRunes_stringsToLower T data

/-- The row loop of `getStatistics` panics only on an empty stored character:
on rows with non-empty characters it returns a map, or the error of `rows.Scan`
when one of the counts is outside the 64-bit range. -/
theorem scanRows_noPanic (rows : List (GoString × Int)) (stats : GoMap)
    (h : ∀ p ∈ rows, p.1 ≠ []) :
    (∃ result, scanRows rows stats = .ok result) ∨
      (scanRows rows stats = .err .scan ∧ ∃ p ∈ rows, isInt64 p.2 = false) := by
  induction rows generalizing stats with
  | nil => exact Or.inl ⟨stats, rfl⟩
  | cons p rest ih =>
    obtain ⟨char, freq⟩ := p
    cases char with
    | nil => exact absurd rfl (h ([], freq) (List.mem_cons_self _ _))
    | cons b bs =>
      unfold scanRows
      by_cases hi : isInt64 freq = true
      · rw [if_pos hi]
        rcases ih (stats.set (Int.ofNat b) freq) (fun q hq => h q (List.mem_cons_of_mem _ hq)) with
          h1 | ⟨h1, q, hq, h2⟩
        · exact Or.inl h1
        · exact Or.inr ⟨h1, q, List.mem_cons_of_mem _ hq, h2⟩
      · rw [if_neg hi]
        exact Or.inr ⟨rfl, (b :: bs, freq), List.mem_cons_self _ _, by simpa using hi⟩

/-- On rows with non-empty characters and counts in the 64-bit range the row loop
of `getStatistics` returns a map. -/
theorem scanRows_ok (rows : List (GoString × Int)) (stats : GoMap)
    (h : ∀ p ∈ rows, p.1 ≠ []) (hi : ∀ p ∈ rows, isInt64 p.2 = true) :
    ∃ result, scanRows rows stats = .ok result := by
  rcases scanRows_noPanic rows stats h with h1 | ⟨-, q, hq, h2⟩
  · exact h1
  · rw [hi q hq] at h2
    exact absurd h2 (by simp)

theorem addURL_ok (db : DB) (url : String) (hf : db.faults = []) :
    (addURL db url).2.2 = none := by
  unfold addURL execInsertOrIgnoreUrl queryRowUrlId
  rw [DB.step_of_noFaults db hf]
  by_cases hany : db.urls.any (fun r => r.Url = url) = true
  · simp only [hany, if_true, DB.step, hf]
    obtain ⟨u, hu, hk⟩ := List.any_eq_true.1 hany
    cases hfind : db.urls.find? (fun r => decide (r.Url = url)) with
    | none => exact absurd hk (by simpa using List.find?_eq_none.1 hfind u hu)
    | some r => rfl
  · simp only [hany, if_false, Bool.false_eq_true, DB.step, hf]
    simp [List.find?_append]
    split <;> simp_all

theorem addExtension_ok (db : DB) (ext : String) (hf : db.faults = []) :
    (addExtension db ext).2.2 = none := by
  unfold addExtension execInsertOrIgnoreExt queryRowExtId
  rw [DB.step_of_noFaults db hf]
  by_cases hany : db.file_extensions.any (fun r => r.Extension = ext) = true
  · simp only [hany, if_true, DB.step, hf]
    obtain ⟨e, he, hk⟩ := List.any_eq_true.1 hany
    cases hfind : db.file_extensions.find? (fun r => decide (r.Extension = ext)) with
    | none => exact absurd hk (by simpa using List.find?_eq_none.1 hfind e he)
    | some r => rfl
  · simp only [hany, if_false, Bool.false_eq_true, DB.step, hf]
    simp [List.find?_append]
    split <;> simp_all

theorem execUpsert_ok (db : DB) (urlID extID : Int) (char : GoString) (freq : Int)
    (hf : db.faults = []) (hu : urlID ∈ db.urls.map URL.ID)
    (he : extID ∈ db.file_extensions.map FileExt.ID) :
    (execUpsert db urlID extID char freq).2 = none := by
  obtain ⟨u, hu, hu'⟩ := List.mem_map.1 hu
  obtain ⟨e, he, he'⟩ := List.mem_map.1 he
  exact (storedCount_execUpsert db urlID extID char freq hf ⟨u, hu, hu'⟩ ⟨e, he, he'⟩).1

theorem saveLoop_ok (db : DB) (urlID extID : Int) (stat : GoMap)
    (hf : db.faults = []) (hu : urlID ∈ db.urls.map URL.ID)
    (he : extID ∈ db.file_extensions.map FileExt.ID) :
    (saveLoop db urlID extID stat).2 = none := by
  induction stat generalizing db with
  | nil => rfl
  | cons p rest ih =>
    obtain ⟨char, freq⟩ := p
    have h0 := execUpsert_ok db urlID extID (encodeRune char) freq hf hu he
    have h1 := execUpsert_noFaults db urlID extID (encodeRune char) freq hf
    obtain ⟨s1, s2, -⟩ := execUpsert_shape db urlID extID (encodeRune char) freq
    unfold saveLoop addCharFrequency
    rcases hr : execUpsert db urlID extID (encodeRune char) freq with ⟨db1, _ | e⟩
    · rw [hr] at h1 s1 s2
      exact ih db1 h1 (by rw [s1]; exact hu) (by rw [s2]; exact he)
    · rw [hr] at h0
      exact absurd h0 (by simp)

/-- When storage does not fail, `saveStatistics` returns no error. -/
theorem saveStatistics_ok (db : DB) (repoURL ext : String) (stat : GoMap)
    (hf : db.faults = []) : (saveStatistics db repoURL ext stat).2 = none := by
  have a0 := addURL_ok db repoURL hf
  have a1 := addURL_noFaults db repoURL hf
  obtain ⟨-, -, -, a4⟩ := addURL_shape db repoURL
  unfold saveStatistics
  rcases hr : addURL db repoURL with ⟨db1, urlID, _ | e⟩
  · rw [hr] at a1 a4
    simp only at a1 a4 ⊢
    have b0 := addExtension_ok db1 ext a1
    have b1 := addExtension_noFaults db1 ext a1
    obtain ⟨c1, -, -, b4⟩ := addExtension_shape db1 ext
    rcases hr2 : addExtension db1 ext with ⟨db2, extID, _ | e⟩
    · rw [hr2] at b1 b4 c1
      simp only at b1 b4 c1 ⊢
      have hd := deleteStatistics_sameData db2 urlID extID
      obtain ⟨u0, hu, -, hu2⟩ := a4 trivial
      obtain ⟨e0, he, -, he2⟩ := b4 trivial
      refine saveLoop_ok _ urlID extID stat (deleteStatistics_noFaults db2 urlID extID b1) ?_ ?_
      · rw [hd.1, c1]; exact List.mem_map.2 ⟨u0, hu, hu2⟩
      · rw [hd.2.2.1]; exact List.mem_map.2 ⟨e0, he, he2⟩
    · rw [hr2] at b0
      exact absurd b0 (by simp)
  · rw [hr] at a0
    exact absurd a0 (by simp)

theorem encodeRune_ascii (r : Int) (h : 0 ≤ r ∧ r ≤ 0x7F) : encodeRune r = [r.toNat] := by
  unfold encodeRune
  rw [if_pos h]

theorem scanRows_ascii (stat : GoMap) (stats : GoMap)
    (hascii : ∀ p ∈ stat, (0 : Int) ≤ p.1 ∧ p.1 ≤ 0x7F)
    (hrange : ∀ p ∈ stat, isInt64 p.2 = true) :
    scanRows (stat.map statRow) stats = .ok (stat.foldl (fun m p => m.set p.1 p.2) stats) := by
  induction stat generalizing stats with
  | nil => rfl
  | cons p rest ih =>
    obtain ⟨k, v⟩ := p
    have hk := hascii (k, v) (List.mem_cons_self _ _)
    have hv : isInt64 v = true := hrange (k, v) (List.mem_cons_self _ _)
    rw [List.map_cons, statRow, encodeRune_ascii k hk]
    unfold scanRows
    simp only [List.foldl_cons]
    rw [if_pos hv, show Int.ofNat k.toNat = k from Int.toNat_of_nonneg hk.1]
    exact ih _ (fun q hq => hascii q (List.mem_cons_of_mem _ hq))
      (fun q hq => hrange q (List.mem_cons_of_mem _ hq))

theorem get?_foldl_set (stat : GoMap) (stats : GoMap) (k : Int) :
    (stat.foldl (fun m p => m.set p.1 p.2) stats).get? k
      = match GoMap.get? stat.reverse k with
        | some v => some v
        | none => stats.get? k := by
  induction stat generalizing stats with
  | nil => simp [GoMap.get?]
  | cons p rest ih =>
    obtain ⟨a, b⟩ := p
    rw [List.foldl_cons, ih, List.reverse_cons]
    have happ : ∀ (l : GoMap), GoMap.get? (l ++ [(a, b)]) k
        = match GoMap.get? l k with
          | some v => some v
          | none => if a = k then some b else none := by
      intro l
      induction l with
      | nil => simp [GoMap.get?]
      | cons q l ihl =>
        obtain ⟨c, d⟩ := q
        by_cases hc : c = k
        · simp [GoMap.get?, hc]
        · simp only [List.cons_append, GoMap.get?, hc, if_false]
          exact ihl
    rw [happ, GoMap.get?_set]
    cases GoMap.get? rest.reverse k with
    | some v => rfl
    | none => by_cases hak : a = k <;> simp [hak]

theorem get?_eq_some_iff_mem (l : GoMap) (hl : l.WF) (k v : Int) :
    GoMap.get? l k = some v ↔ (k, v) ∈ l := by
  induction l with
  | nil => simp [GoMap.get?]
  | cons q l ihl =>
    obtain ⟨c, d⟩ := q
    unfold GoMap.WF at hl
    rw [List.map_cons, List.nodup_cons] at hl
    by_cases hc : c = k
    · subst hc
      simp only [GoMap.get?, if_true, Option.some.injEq, List.mem_cons, Prod.mk.injEq,
        true_and]
      constructor
      · intro h; exact Or.inl h.symm
      · rintro (h | h)
        · exact h.symm
        · exact absurd (List.mem_map_of_mem Prod.fst h) hl.1
    · simp only [GoMap.get?, hc, if_false, List.mem_cons, Prod.mk.injEq]
      rw [ihl hl.2]
      constructor
      · intro h; exact Or.inr h
      · rintro (h | h)
        · exact absurd h.1.symm hc
        · exact h

/-- Two maps with distinct keys and the same entries answer every lookup alike. -/
theorem get?_of_perm (l l' : GoMap) (hl : l.WF) (hp : l'.Perm l) (k : Int) :
    GoMap.get? l' k = GoMap.get? l k := by
  have hl' : GoMap.WF l' := by
    unfold GoMap.WF at hl ⊢
    exact (hp.map Prod.fst).nodup_iff.2 hl
  cases h1 : GoMap.get? l k with
  | none =>
    cases h2 : GoMap.get? l' k with
    | none => rfl
    | some v =>
      have := (get?_eq_some_iff_mem l hl k v).2 (hp.mem_iff.1 ((get?_eq_some_iff_mem _ hl' k v).1 h2))
      rw [h1] at this
      exact absurd this (by simp)
  | some v =>
    exact (get?_eq_some_iff_mem _ hl' k v).2 (hp.mem_iff.2 ((get?_eq_some_iff_mem l hl k v).1 h1))

theorem get?_reverse_of_wf (stat : GoMap) (hwf : stat.WF) (k : Int) :
    GoMap.get? stat.reverse k = GoMap.get? stat k :=
  get?_of_perm stat stat.reverse hwf (List.reverse_perm stat) k

theorem queryStatistics_perm (db : DB) (url ext : String) :
    (queryStatistics db url ext).Perm (joinedRows db url ext) :=
  List.perm_insertionSort _ _

theorem queryStatistics_eq_nil_iff (db : DB) (url ext : String) :
    queryStatistics db url ext = [] ↔ joinedRows db url ext = [] :=
  ⟨fun h => List.Perm.eq_nil (h ▸ (queryStatistics_perm db url ext).symm),
    fun h => List.Perm.eq_nil (h ▸ queryStatistics_perm db url ext)⟩

theorem queryStatistics_congr {db db' : DB} {url ext url' ext' : String}
    (h : joinedRows db url ext = joinedRows db' url' ext') :
    queryStatistics db url ext = queryStatistics db' url' ext' := by
  unfold queryStatistics
  rw [h]

/-- Sorting the stored rows of an aggregate by character bytes is sorting the
aggregate by the encodings of its keys. -/
theorem insertionSort_statRow (stat : GoMap) :
    (stat.map statRow).insertionSort (fun a b => bytesLE a.1 b.1 = true)
      = (stat.insertionSort
          (fun p q => bytesLE (encodeRune p.1) (encodeRune q.1) = true)).map statRow :=
  (List.map_insertionSort _ _ statRow stat (fun _ _ _ _ => Iff.rfl)).symm

/-- The round trip on a fresh bucket holds for aggregates of ASCII characters
with counts in the 64-bit range: when storage does not fail, `saveStatistics`
followed by `getStatistics` returns a map with the keys and counts of the
aggregate. -/
theorem saveStatistics_getStatistics_ascii (db : DB) (repoURL ext : String) (stat : GoMap)
    (hw : db.WF) (hf : db.faults = []) (hfresh : queryStatistics db repoURL ext = [])
    (hwf : stat.WF) (hascii : ∀ p ∈ stat, (0 : Int) ≤ p.1 ∧ p.1 ≤ 0x7F)
    (hrange : ∀ p ∈ stat, isInt64 p.2 = true) :
    (saveStatistics db repoURL ext stat).2 = none ∧
    ∃ m, (getStatistics (saveStatistics db repoURL ext stat).1 repoURL ext).2 = .ok m ∧
      ∀ k, m.get? k = stat.get? k := by
  have hok := saveStatistics_ok db repoURL ext stat hf
  have hnd : (stat.map (fun p => encodeRune p.1)).Nodup := by
    have e : stat.map (fun p => encodeRune p.1) = (stat.map Prod.fst).map (fun r => [r.toNat]) := by
      rw [List.map_map]
      exact List.map_congr_left (fun p hp => encodeRune_ascii p.1 (hascii p hp))
    rw [e]
    refine List.Nodup.map_on ?_ hwf
    intro x hx y hy hxy
    obtain ⟨p, hp, rfl⟩ := List.mem_map.1 hx
    obtain ⟨q, hq, rfl⟩ := List.mem_map.1 hy
    have h1 := (hascii p hp).1
    have h2 := (hascii q hq).1
    have h3 : p.1.toNat = q.1.toNat := List.head_eq_of_cons_eq hxy
    have e1 : ((p.1.toNat : Nat) : Int) = p.1 := Int.toNat_of_nonneg h1
    have e2 : ((q.1.toNat : Nat) : Int) = q.1 := Int.toNat_of_nonneg h2
    rw [← e1, ← e2, h3]
  refine ⟨hok, ?_⟩
  rcases joinedRows_saveStatistics_fresh db repoURL ext stat hw
    ((queryStatistics_eq_nil_iff db repoURL ext).1 hfresh) hnd with ⟨-, hq⟩ | ⟨herr, -⟩
  · have hp := List.perm_insertionSort
      (fun p q : Rune × Int => bytesLE (encodeRune p.1) (encodeRune q.1) = true) stat
    have hwf' : GoMap.WF (stat.insertionSort
        (fun p q => bytesLE (encodeRune p.1) (encodeRune q.1) = true)) := by
      unfold GoMap.WF at hwf ⊢
      exact (hp.map Prod.fst).nodup_iff.2 hwf
    refine ⟨(stat.insertionSort
      (fun p q => bytesLE (encodeRune p.1) (encodeRune q.1) = true)).foldl
        (fun m p => m.set p.1 p.2) [], ?_, ?_⟩
    · unfold getStatistics
      rw [DB.step_of_noFaults _ (saveStatistics_noFaults db repoURL ext stat hf)]
      simp only [queryStatistics, hq, insertionSort_statRow]
      exact scanRows_ascii _ [] (fun p h => hascii p (hp.mem_iff.1 h))
        (fun p h => hrange p (hp.mem_iff.1 h))
    · intro k
      rw [get?_foldl_set, get?_reverse_of_wf _ hwf' k, get?_of_perm stat _ hwf hp k]
      cases GoMap.get? stat k <;> rfl
  · exact absurd hok herr

theorem encodeRune_ne_nil (r : Rune) : encodeRune r ≠ [] := by
  unfold encodeRune
  split
  · simp
  · split
    · simp
    · split
      · simp
      · split <;> simp

theorem addCharFrequency_chars (db : DB) (urlID extID : Int) (char : GoString) (freq : Int)
    (hc : char ≠ []) (h : ∀ f ∈ db.char_frequencies, f.Char ≠ []) :
    ∀ f ∈ (addCharFrequency db urlID extID char freq).1.char_frequencies, f.Char ≠ [] := by
  obtain ⟨-, -, h3⟩ := execUpsert_shape db urlID extID char freq
  unfold addCharFrequency
  rcases h3 with ⟨-, h3⟩ | ⟨-, -, h3⟩ | ⟨-, -, -, -, h3⟩
  · rw [h3]; exact h
  · rw [h3]
    intro f hf
    obtain ⟨g, hg, rfl⟩ := List.mem_map.1 hf
    unfold CharFrequency.addFreq
    split
    · exact h g hg
    · exact h g hg
  · rw [h3]
    intro f hf
    rcases List.mem_append.1 hf with hf | hf
    · exact h f hf
    · rw [List.mem_singleton.1 hf]; exact hc

theorem saveLoop_chars (db : DB) (urlID extID : Int) (stat : GoMap)
    (h : ∀ f ∈ db.char_frequencies, f.Char ≠ []) :
    ∀ f ∈ (saveLoop db urlID extID stat).1.char_frequencies, f.Char ≠ [] := by
  induction stat generalizing db with
  | nil => exact h
  | cons p rest ih =>
    obtain ⟨char, freq⟩ := p
    have h1 := addCharFrequency_chars db urlID extID (encodeRune char) freq
      (encodeRune_ne_nil char) h
    unfold saveLoop
    rcases hr : addCharFrequency db urlID extID (encodeRune char) freq with ⟨db1, _ | e⟩
    · rw [hr] at h1
      exact ih db1 h1
    · rw [hr] at h1
      exact h1

theorem saveStatistics_chars (db : DB) (repoURL ext : String) (stat : GoMap)
    (h : ∀ f ∈ db.char_frequencies, f.Char ≠ []) :
    ∀ f ∈ (saveStatistics db repoURL ext stat).1.char_frequencies, f.Char ≠ [] := by
  obtain ⟨-, a2, -, -⟩ := addURL_shape db repoURL
  unfold saveStatistics
  rcases hr : addURL db repoURL with ⟨db1, urlID, _ | e⟩
  · rw [hr] at a2
    simp only at a2 ⊢
    obtain ⟨-, b2, -, -⟩ := addExtension_shape db1 ext
    rcases hr2 : addExtension db1 ext with ⟨db2, extID, _ | e⟩
    · rw [hr2] at b2
      simp only at b2 ⊢
      have hd := deleteStatistics_sameData db2 urlID extID
      refine saveLoop_chars _ urlID extID stat ?_
      rw [hd.2.2.2.2.1, b2, a2]
      exact h
    · rw [hr2] at b2
      simp only at b2 ⊢
      rw [b2, a2]
      exact h
  · rw [hr] at a2
    simp only at a2 ⊢
    rw [a2]
    exact h

/-- No store that the write path of the program reaches holds an empty character. -/
theorem ReachableNonEmpty.chars_ne_nil {db : DB} (h : ReachableNonEmpty db) :
    ∀ f ∈ db.char_frequencies, f.Char ≠ [] := by
  induction h with
  | init faults clock => exact fun f hf => (nomatch hf)
  | advance clock _ ih => exact ih
  | addURL url _ ih => rw [(addURL_shape _ url).2.1]; exact ih
  | addExtension ext _ ih => rw [(addExtension_shape _ ext).2.1]; exact ih
  | addCharFrequency urlID extID char freq hc _ ih =>
    exact addCharFrequency_chars _ _ _ _ _ hc ih
  | getStatistics url ext _ ih => rw [(getStatistics_sameData _ url ext).2.2.2.2.1]; exact ih
  | deleteStatistics urlID extID _ ih =>
    rw [(deleteStatistics_sameData _ urlID extID).2.2.2.2.1]; exact ih
  | saveStatistics repoURL ext stat _ ih => exact saveStatistics_chars _ _ _ _ ih

theorem mem_joinedRows {db : DB} {url ext : String} {p : GoString × Int}
    (h : p ∈ joinedRows db url ext) :
    ∃ f ∈ db.char_frequencies, p = (f.Char, f.Frequency) := by
  unfold joinedRows at h
  obtain ⟨f, hf, h⟩ := List.mem_flatMap.1 h
  obtain ⟨e, -, h⟩ := List.mem_flatMap.1 h
  obtain ⟨u, -, h⟩ := List.mem_map.1 h
  exact ⟨f, hf, h.symm⟩

theorem mem_queryStatistics {db : DB} {url ext : String} {p : GoString × Int}
    (h : p ∈ queryStatistics db url ext) :
    ∃ f ∈ db.char_frequencies, p = (f.Char, f.Frequency) :=
  mem_joinedRows ((queryStatistics_perm db url ext).mem_iff.1 h)

/-! ## The claims -/

/-- C1, at the input on which the code departs from it: saving the aggregate
é:1 (U+00E9) into the fresh bucket ("r", "*.go") of an empty store succeeds and
stores the character as its two UTF-8 bytes C3 A9, but `getStatistics` then
returns the map Ã:1 (U+00C3, the value of the first byte alone), in which the
submitted key U+00E9 is absent. -/
theorem saveStatistics_getStatistics_nonASCII :
    (saveStatistics DB.empty "r" "*.go" [(0xE9, 1)]).2 = none ∧
    (saveStatistics DB.empty "r" "*.go" [(0xE9, 1)]).1.char_frequencies
      = [⟨1, 1, [0xC3, 0xA9], 1⟩] ∧
    (getStatistics (saveStatistics DB.empty "r" "*.go" [(0xE9, 1)]).1 "r" "*.go").2
      = .ok [(0xC3, 1)] ∧
    GoMap.get? [(0xC3, 1)] 0xE9 = none ∧
    GoMap.get? [(0xE9, 1)] 0xE9 = some 1 := by
  decide

/-- C2, at the input on which the code departs from it: the bucket ("r", "*.go")
holds a:1, b:1; `deleteStatistics` on it is rejected by the database (its
statement names a column that table `file_extensions` does not have) and changes
nothing; `saveStatistics` with the new aggregate a:2 returns no error and leaves
a:3, b:1 in the bucket, so b survives and the count of a is the old count plus
the new one. -/
theorem saveStatistics_keeps_prior_aggregate :
    (getStatistics exampleStore "r" "*.go").2 = .ok [(97, 1), (98, 1)] ∧
    deleteStatistics exampleStore 1 1 = (exampleStore, some (.noSuchColumn "url_id")) ∧
    (saveStatistics exampleStore "r" "*.go" [(97, 2)]).2 = none ∧
    storedCount (saveStatistics exampleStore "r" "*.go" [(97, 2)]).1 1 1 [97] = some 3 ∧
    storedCount (saveStatistics exampleStore "r" "*.go" [(97, 2)]).1 1 1 [98] = some 1 ∧
    (getStatistics (saveStatistics exampleStore "r" "*.go" [(97, 2)]).1 "r" "*.go").2
      = .ok [(97, 3), (98, 1)] := by
  decide

/-- C3 as stated fails, for two kinds of input.  On the empty store the key
(1, 1, "a") has no parent rows: both calls of `addCharFrequency` (with 5, then
with 7) are rejected by the foreign keys, and the key has no stored count
afterwards instead of 0 + 5 + 7.  On the store with repository 1 and extension
1, the counts 9223372036854775807 and 1 are both accepted, but their sum is
outside the 64-bit range: the column then holds a REAL, no count that a Go
`int` can take, and `getStatistics` on the bucket fails in `rows.Scan`. -/
theorem addCharFrequency_unknown_ids :
    (addCharFrequency DB.empty 1 1 [97] 5).2 = some .foreignKey ∧
    (addCharFrequency (addCharFrequency DB.empty 1 1 [97] 5).1 1 1 [97] 7).2
      = some .foreignKey ∧
    ¬ (storedCount (addCharFrequency (addCharFrequency DB.empty 1 1 [97] 5).1 1 1 [97] 7).1
        1 1 [97] = some ((storedCount DB.empty 1 1 [97]).getD 0 + 5 + 7)) ∧
    (addCharFrequency exampleIdentities 1 1 [97] 9223372036854775807).2 = none ∧
    (addCharFrequency (addCharFrequency exampleIdentities 1 1 [97] 9223372036854775807).1
      1 1 [97] 1).2 = none ∧
    (storedCount (addCharFrequency
        (addCharFrequency exampleIdentities 1 1 [97] 9223372036854775807).1
        1 1 [97] 1).1 1 1 [97]).map isInt64 = some false ∧
    (getStatistics (addCharFrequency
        (addCharFrequency exampleIdentities 1 1 [97] 9223372036854775807).1
        1 1 [97] 1).1 "r" "*.go").2 = .err .scan := by
  decide

/-- C3, amended: when storage does not fail, `urlID` and `extID` are ids of rows
of `urls` and `file_extensions`, v1 and v2 are values of a Go `int`, and the
previous count of the key (0 if the key was absent), that count plus v1 and
that count plus v1 plus v2 all lie in the signed 64-bit range, then for every
character both calls of
`addCharFrequency` return no error, after the first call the stored count is
the previous count (0 if absent) plus v1, after the second it is the previous
count (0 if absent) plus v1 plus v2, and both stored values are 64-bit
integers. -/
theorem addCharFrequency_additive (db : DB) (urlID extID : Int) (char : GoString)
    (v1 v2 : Int) (hf : db.faults = [])
    (hu : ∃ u ∈ db.urls, u.ID = urlID) (he : ∃ e ∈ db.file_extensions, e.ID = extID)
    (_hv1 : isInt64 v1 = true) (_hv2 : isInt64 v2 = true)
    (_h0 : isInt64 ((storedCount db urlID extID char).getD 0) = true)
    (h1 : isInt64 ((storedCount db urlID extID char).getD 0 + v1) = true)
    (h2 : isInt64 ((storedCount db urlID extID char).getD 0 + v1 + v2) = true) :
    (addCharFrequency db urlID extID char v1).2 = none ∧
    storedCount (addCharFrequency db urlID extID char v1).1 urlID extID char
      = some ((storedCount db urlID extID char).getD 0 + v1) ∧
    (addCharFrequency (addCharFrequency db urlID extID char v1).1 urlID extID char v2).2 = none ∧
    storedCount (addCharFrequency (addCharFrequency db urlID extID char v1).1
        urlID extID char v2).1 urlID extID char
      = some ((storedCount db urlID extID char).getD 0 + v1 + v2) ∧
    (storedCount (addCharFrequency db urlID extID char v1).1 urlID extID char).map isInt64
      = some true ∧
    (storedCount (addCharFrequency (addCharFrequency db urlID extID char v1).1
        urlID extID char v2).1 urlID extID char).map isInt64 = some true := by
  obtain ⟨g1, g2, g3, g4, g5⟩ := storedCount_execUpsert db urlID extID char v1 hf hu he
  obtain ⟨k1, -, -, -, k5⟩ := storedCount_execUpsert (addCharFrequency db urlID extID char v1).1
    urlID extID char v2 g2 (g3 ▸ hu) (g4 ▸ he)
  have e2 : storedCount (addCharFrequency (addCharFrequency db urlID extID char v1).1
      urlID extID char v2).1 urlID extID char
      = some ((storedCount db urlID extID char).getD 0 + v1 + v2) := by
    rw [k5, g5]
    rfl
  refine ⟨g1, g5, k1, e2, ?_, ?_⟩
  · rw [g5, Option.map_some', h1]
  · rw [e2, Option.map_some', h2]

/-- C3, amended, on the store with repository 1 and extension 1 and the absent
key (1, 1, "a"): after 5 the count is 5, after 5 and 7 it is 12. -/
theorem addCharFrequency_additive_witness :
    (exampleIdentities.faults = [] ∧ (∃ u ∈ exampleIdentities.urls, u.ID = 1) ∧
      (∃ e ∈ exampleIdentities.file_extensions, e.ID = 1) ∧
      isInt64 5 = true ∧ isInt64 7 = true ∧
      isInt64 ((storedCount exampleIdentities 1 1 [97]).getD 0) = true ∧
      isInt64 ((storedCount exampleIdentities 1 1 [97]).getD 0 + 5) = true ∧
      isInt64 ((storedCount exampleIdentities 1 1 [97]).getD 0 + 5 + 7) = true) ∧
    ((addCharFrequency exampleIdentities 1 1 [97] 5).2 = none ∧
    storedCount (addCharFrequency exampleIdentities 1 1 [97] 5).1 1 1 [97]
      = some ((storedCount exampleIdentities 1 1 [97]).getD 0 + 5) ∧
    (addCharFrequency (addCharFrequency exampleIdentities 1 1 [97] 5).1 1 1 [97] 7).2 = none ∧
    storedCount (addCharFrequency (addCharFrequency exampleIdentities 1 1 [97] 5).1
        1 1 [97] 7).1 1 1 [97]
      = some ((storedCount exampleIdentities 1 1 [97]).getD 0 + 5 + 7) ∧
    (storedCount (addCharFrequency exampleIdentities 1 1 [97] 5).1 1 1 [97]).map isInt64
      = some true ∧
    (storedCount (addCharFrequency (addCharFrequency exampleIdentities 1 1 [97] 5).1
        1 1 [97] 7).1 1 1 [97]).map isInt64 = some true) ∧
    storedCount (addCharFrequency (addCharFrequency exampleIdentities 1 1 [97] 5).1
        1 1 [97] 7).1 1 1 [97] = some 12 :=
  ⟨⟨rfl, by decide, by decide, by decide, by decide, by decide, by decide, by decide⟩,
    addCharFrequency_additive exampleIdentities 1 1 [97] 5 7 rfl (by decide) (by decide)
      (by decide) (by decide) (by decide) (by decide) (by decide),
    by decide⟩

/-- C4: when storage does not fail and no row of `char_frequencies` is linked to
a `urls` row with the given url and a `file_extensions` row with the given
extension (in particular when the url or the extension has no row at all),
`getStatistics` returns the empty map and no error, and changes nothing. -/
theorem getStatistics_miss (db : DB) (url ext : String) (hf : db.faults = [])
    (h : ∀ f ∈ db.char_frequencies, ∀ u ∈ db.urls, ∀ e ∈ db.file_extensions,
      u.Url = url → e.Extension = ext → ¬(f.URLID = u.ID ∧ f.FileExtID = e.ID)) :
    getStatistics db url ext = (db, .ok []) := by
  have hq : queryStatistics db url ext = [] := by
    rw [queryStatistics_eq_nil_iff]
    unfold joinedRows
    rw [List.flatMap_eq_nil_iff]
    intro f hfm
    rw [List.flatMap_eq_nil_iff]
    intro e hem
    rw [List.map_eq_nil_iff, List.filter_eq_nil_iff]
    intro u hum hu
    simp only [List.mem_filter, decide_eq_true_eq] at hem hu
    exact h f hfm u hum e hem.1 hu.2 hem.2.2 ⟨hu.1, hem.2.1⟩
  simp [getStatistics, DB.step_of_noFaults db hf, hq, scanRows]

/-- C4 on the store whose only bucket is ("r", "*.go"): the lookup of
("r", "*.txt"), an extension without identity row, is an empty map. -/
theorem getStatistics_miss_witness :
    (exampleStore.faults = [] ∧
      ∀ f ∈ exampleStore.char_frequencies, ∀ u ∈ exampleStore.urls,
        ∀ e ∈ exampleStore.file_extensions,
        u.Url = "r" → e.Extension = "*.txt" → ¬(f.URLID = u.ID ∧ f.FileExtID = e.ID)) ∧
    getStatistics exampleStore "r" "*.txt" = (exampleStore, .ok []) :=
  ⟨⟨rfl, by decide⟩, getStatistics_miss exampleStore "r" "*.txt" rfl (by decide)⟩

/-- C5: when storage does not fail and the store holds at most one `urls` row
with key `url` (the column is UNIQUE), then after `n ≥ 1` calls of `addURL` the
table holds exactly one row with that key, and every call returned that row's
id and no error; the same for `addExtension` and `file_extensions`. -/
theorem identity_creation_idempotent (db : DB) (url ext : String) (n : Nat) (hn : 1 ≤ n)
    (hf : db.faults = [])
    (hu : (db.urls.filter (fun r => r.Url = url)).length ≤ 1)
    (he : (db.file_extensions.filter (fun r => r.Extension = ext)).length ≤ 1) :
    (∃ row, (addURLRepeat db url n).1.urls.filter (fun r => r.Url = url) = [row] ∧
      (addURLRepeat db url n).2 = List.replicate n (row.ID, none)) ∧
    (∃ row, (addExtensionRepeat db ext n).1.file_extensions.filter
        (fun r => r.Extension = ext) = [row] ∧
      (addExtensionRepeat db ext n).2 = List.replicate n (row.ID, none)) :=
  ⟨addURLRepeat_spec db url n hn hf hu, addExtensionRepeat_spec db ext n hn hf he⟩

/-- C5 on the empty store, three calls each for "r" and "*.go". -/
theorem identity_creation_idempotent_witness :
    (1 ≤ 3 ∧ DB.empty.faults = [] ∧
      (DB.empty.urls.filter (fun r => r.Url = "r")).length ≤ 1 ∧
      (DB.empty.file_extensions.filter (fun r => r.Extension = "*.go")).length ≤ 1) ∧
    ((∃ row, (addURLRepeat DB.empty "r" 3).1.urls.filter (fun r => r.Url = "r") = [row] ∧
      (addURLRepeat DB.empty "r" 3).2 = List.replicate 3 (row.ID, none)) ∧
    (∃ row, (addExtensionRepeat DB.empty "*.go" 3).1.file_extensions.filter
        (fun r => r.Extension = "*.go") = [row] ∧
      (addExtensionRepeat DB.empty "*.go" 3).2 = List.replicate 3 (row.ID, none))) :=
  ⟨⟨by decide, rfl, by decide, by decide⟩,
    identity_creation_idempotent DB.empty "r" "*.go" 3 (by decide) rfl (by decide) (by decide)⟩

/-- C6: for all files, file contents and settings, folding `countChars` over a
list of files into an empty map gives, for every reordering of the list, a map
with the same keys and counts; the count of a character is the sum over the
files of the count `countChars` gives it for that file alone, and a character
is absent exactly when it is absent for every file.  These counts are those of
the file contents: for one file `countChars` counts the occurrences of the
character among the runes of the content (of the lower-cased content without
case sensitivity; an unreadable file has none), and the fold gives a character
that occurs in some file the number of its occurrences in all files, and has no
key for a character that occurs in none. -/
theorem countFiles_order_independent (T : UnicodeTables) (fs : FS) (s : Settings)
    (files files' : List String) (hperm : files.Perm files') (c : Rune) :
    (countFiles T fs files' s).get? c = (countFiles T fs files s).get? c ∧
    (countFiles T fs files s).index c
      = (files.map (fun file => (countChars T fs file [] s).1.index c)).sum ∧
    ((countFiles T fs files s).get? c = none ↔
      ∀ file ∈ files, (countChars T fs file [] s).1.get? c = none) ∧
    (∀ file data, fs file = .ok data →
      (countChars T fs file [] s).1.index c
        = ((rangeRunes 0 (if !s.caseSensetive then stringsToLower T data else data)).count c
            : Int)) ∧
    (∀ file err, fs file = .error err → (countChars T fs file [] s).1.index c = 0) ∧
    (countFiles T fs files s).get? c
      = (if c ∈ files.flatMap (fileRunes T fs s) then
          some (((files.flatMap (fileRunes T fs s)).count c : Nat) : Int) else none) ∧
    (countFiles T fs files s).index c
      = (files.map (fun file => ((fileRunes T fs s file).count c : Int))).sum := by
  have hp : (files.flatMap (fileRunes T fs s)).Perm (files'.flatMap (fileRunes T fs s)) :=
    hperm.flatMap_right _
  have hidx : (countFiles T fs files s).index c
      = (files.map (fun file => ((fileRunes T fs s file).count c : Int))).sum := by
    rw [GoMap.index, countFiles_get?, ← count_flatMap_sum]
    by_cases h : c ∈ files.flatMap (fileRunes T fs s)
    · simp [h]
    · simp [h, List.count_eq_zero_of_not_mem h]
  refine ⟨?_, ?_, ?_, ?_, ?_, countFiles_get? T fs s files c, hidx⟩
  · rw [countFiles_get?, countFiles_get?, hp.count_eq c]
    simp only [hp.mem_iff]
  · rw [hidx]
    simp only [perFile_index]
  · rw [countFiles_get?]
    simp only [countChars_fst, GoMap.get?_countLoop, GoMap.get?]
    constructor
    · intro h file hf
      by_cases hc : c ∈ fileRunes T fs s file
      · have : c ∈ files.flatMap (fileRunes T fs s) := List.mem_flatMap.2 ⟨file, hf, hc⟩
        simp [this] at h
      · simp [hc]
    · intro h
      by_cases hc : c ∈ files.flatMap (fileRunes T fs s)
      · obtain ⟨file, hf, hcf⟩ := List.mem_flatMap.1 hc
        have := h file hf
        simp [hcf] at this
      · simp [hc]
  · intro file data hd
    rw [perFile_index, fileRunes, hd]
  · intro file err hd
    rw [perFile_index, fileRunes, hd]
    rfl

/-- C6 on the files "a.txt" ("Aba") and "b.txt" ("b ") in both orders, for the
character b, without case sensitivity: b is counted once in "a.txt", once in
"b.txt" and twice by the fold. -/
theorem countFiles_order_independent_witness :
    ["a.txt", "b.txt"].Perm ["b.txt", "a.txt"] ∧
    ((countFiles asciiTables exampleFS ["b.txt", "a.txt"] (exampleSettings false)).get? 98
      = (countFiles asciiTables exampleFS ["a.txt", "b.txt"] (exampleSettings false)).get? 98 ∧
    (countFiles asciiTables exampleFS ["a.txt", "b.txt"] (exampleSettings false)).index 98
      = (["a.txt", "b.txt"].map (fun file =>
          (countChars asciiTables exampleFS file [] (exampleSettings false)).1.index 98)).sum ∧
    ((countFiles asciiTables exampleFS ["a.txt", "b.txt"] (exampleSettings false)).get? 98 = none ↔
      ∀ file ∈ ["a.txt", "b.txt"],
        (countChars asciiTables exampleFS file [] (exampleSettings false)).1.get? 98 = none) ∧
    (∀ file data, exampleFS file = .ok data →
      (countChars asciiTables exampleFS file [] (exampleSettings false)).1.index 98
        = ((rangeRunes 0 (if !(exampleSettings false).caseSensetive
            then stringsToLower asciiTables data else data)).count 98 : Int)) ∧
    (∀ file err, exampleFS file = .error err →
      (countChars asciiTables exampleFS file [] (exampleSettings false)).1.index 98 = 0) ∧
    (countFiles asciiTables exampleFS ["a.txt", "b.txt"] (exampleSettings false)).get? 98
      = (if (98 : Rune) ∈ ["a.txt", "b.txt"].flatMap
            (fileRunes asciiTables exampleFS (exampleSettings false)) then
          some (((["a.txt", "b.txt"].flatMap
            (fileRunes asciiTables exampleFS (exampleSettings false))).count 98 : Nat) : Int)
          else none) ∧
    (countFiles asciiTables exampleFS ["a.txt", "b.txt"] (exampleSettings false)).index 98
      = (["a.txt", "b.txt"].map (fun file =>
          ((fileRunes asciiTables exampleFS (exampleSettings false) file).count 98 : Int))).sum) ∧
    (countChars asciiTables exampleFS "a.txt" [] (exampleSettings false)).1 = [(97, 2), (98, 1)] ∧
    (countChars asciiTables exampleFS "b.txt" [] (exampleSettings false)).1 = [(98, 1), (32, 1)] ∧
    countFiles asciiTables exampleFS ["a.txt", "b.txt"] (exampleSettings false)
      = [(97, 2), (98, 2), (32, 1)] ∧
    countFiles asciiTables exampleFS ["b.txt", "a.txt"] (exampleSettings false)
      = [(98, 2), (32, 1), (97, 2)] :=
  ⟨List.Perm.swap _ _ _,
    countFiles_order_independent asciiTables exampleFS (exampleSettings false)
      ["a.txt", "b.txt"] ["b.txt", "a.txt"] (List.Perm.swap _ _ _) 98,
    by decide, by decide, by decide, by decide⟩

/-- C7: for every aggregate and settings, with any `sort.Slice` that keeps its
promise, the first loop of `printFrequency` leaves in `sum` the sum of all
counts and in `sumsel` the sum of the counts of the characters that
`isIgnoredChar` does not ignore; every line written is for a character that is
not ignored, carries that character's count of the aggregate, and its two
percentages are count*100/sum and count*100/sumsel.  For a:10, b:5, space:3
with only white space ignored and top 2, the sums are 18 and 15 and the lines
are a (rank 1, 10*100/18, 10*100/15), then b (rank 2, 5*100/18, 5*100/15). -/
theorem printFrequency_totals_and_rows (T : UnicodeTables)
    (sortSlice : List charFreq → (charFreq → charFreq → Bool) → List charFreq)
    (hs : SortSliceSpec sortSlice) (frequency : GoMap) (s : Settings) (cs : Bool) :
    (totalsLoop T s frequency ([], F64.fin 0, F64.fin 0)).2
      = (F64.ofInt (totalAll frequency), F64.ofInt (totalSelected T s frequency)) ∧
    (∀ row ∈ (printFrequency T sortSlice frequency s).1,
      isIgnoredChar T row.char s = false ∧ (row.char, row.freq) ∈ frequency ∧
      row.pctAll = F64.div (F64.mul (F64.ofInt row.freq) (F64.ofInt 100))
        (F64.ofInt (totalAll frequency)) ∧
      row.pctSelected = F64.div (F64.mul (F64.ofInt row.freq) (F64.ofInt 100))
        (F64.ofInt (totalSelected T s frequency))) ∧
    (totalsLoop T (exampleSettings cs) [(97, 10), (98, 5), (32, 3)] ([], F64.fin 0, F64.fin 0)).2
      = (F64.fin 18, F64.fin 15) ∧
    (printFrequency T sortSlice [(97, 10), (98, 5), (32, 3)] (exampleSettings cs)).1
      = [⟨1, 10, F64.fin (10 * 100 / 18), F64.fin (10 * 100 / 15), 97⟩,
         ⟨2, 5, F64.fin (5 * 100 / 18), F64.fin (5 * 100 / 15), 98⟩] := by
  have hign : ∀ r : Rune, isIgnoredChar T r (exampleSettings cs) = unicodeIsSpace r := by
    intro r; simp [isIgnoredChar, exampleSettings]
  have hA : totalAll [(97, 10), (98, 5), (32, 3)] = 18 := by decide
  have hS : totalSelected T (exampleSettings cs) [(97, 10), (98, 5), (32, 3)] = 15 := by
    simp [totalSelected, hign, unicodeIsSpace]
  refine ⟨by rw [totalsLoop_init], ?_, ?_, ?_⟩
  · intro row hrow
    rw [printFrequency_eq] at hrow
    obtain ⟨h1, h2, h3, h4⟩ := printLoop_rows T s _ _ _ 0 row hrow
    refine ⟨h1, ?_, h3, h4⟩
    have := (hs.perm _ _).mem_iff.1 h2
    obtain ⟨p, hp, hpe⟩ := List.mem_map.1 this
    have e1 : p.1 = row.char := congrArg charFreq.Char hpe
    have e2 : p.2 = row.freq := congrArg charFreq.Freq hpe
    rw [← e1, ← e2]
    exact hp
  · rw [totalsLoop_init, hA, hS]
    simp [F64.ofInt]
  · rw [printFrequency_eq, hA, hS]
    have hsort := sorted_example _ (hs.perm ([(97, 10), (98, 5), (32, 3)].map
      (fun p : Rune × Int => (⟨p.1, p.2⟩ : charFreq))) freqGreater) (hs.sorted _)
    rw [hsort]
    have hl : (exampleSettings cs).limitTop = 2 := rfl
    simp [printLoop, hign, unicodeIsSpace, hl, F64.ofInt, F64.mul, F64.div]

/-- C7 with the ASCII tables and the insertion sort, on the aggregate
a:10, space:3, b:5. -/
theorem printFrequency_totals_and_rows_witness :
    SortSliceSpec insertionSortSlice ∧
    ((totalsLoop asciiTables (exampleSettings false) [(97, 10), (32, 3), (98, 5)]
        ([], F64.fin 0, F64.fin 0)).2
      = (F64.ofInt (totalAll [(97, 10), (32, 3), (98, 5)]),
        F64.ofInt (totalSelected asciiTables (exampleSettings false)
          [(97, 10), (32, 3), (98, 5)])) ∧
    (∀ row ∈ (printFrequency asciiTables insertionSortSlice [(97, 10), (32, 3), (98, 5)]
        (exampleSettings false)).1,
      isIgnoredChar asciiTables row.char (exampleSettings false) = false ∧
      (row.char, row.freq) ∈ [((97 : Rune), (10 : Int)), (32, 3), (98, 5)] ∧
      row.pctAll = F64.div (F64.mul (F64.ofInt row.freq) (F64.ofInt 100))
        (F64.ofInt (totalAll [(97, 10), (32, 3), (98, 5)])) ∧
      row.pctSelected = F64.div (F64.mul (F64.ofInt row.freq) (F64.ofInt 100))
        (F64.ofInt (totalSelected asciiTables (exampleSettings false)
          [(97, 10), (32, 3), (98, 5)]))) ∧
    (totalsLoop asciiTables (exampleSettings true) [(97, 10), (98, 5), (32, 3)]
        ([], F64.fin 0, F64.fin 0)).2 = (F64.fin 18, F64.fin 15) ∧
    (printFrequency asciiTables insertionSortSlice [(97, 10), (98, 5), (32, 3)]
        (exampleSettings true)).1
      = [⟨1, 10, F64.fin (10 * 100 / 18), F64.fin (10 * 100 / 15), 97⟩,
         ⟨2, 5, F64.fin (5 * 100 / 18), F64.fin (5 * 100 / 15), 98⟩]) :=
  ⟨insertionSortSlice_spec,
    printFrequency_totals_and_rows asciiTables insertionSortSlice insertionSortSlice_spec
      [(97, 10), (32, 3), (98, 5)] (exampleSettings false) true⟩

/-- C8: for every aggregate and settings with `limitTop ≥ 0`, with any
`sort.Slice` that keeps its promise, the number of lines `printFrequency`
writes is the minimum of the number of characters of the aggregate that are not
ignored and of `limitTop + 1`. -/
theorem printFrequency_row_count (T : UnicodeTables)
    (sortSlice : List charFreq → (charFreq → charFreq → Bool) → List charFreq)
    (hs : SortSliceSpec sortSlice) (frequency : GoMap) (s : Settings) (h0 : 0 ≤ s.limitTop) :
    (((printFrequency T sortSlice frequency s).1.length : Nat) : Int)
      = min (((frequency.filter (fun p => !isIgnoredChar T p.1 s)).length : Nat) : Int)
          (s.limitTop + 1) := by
  rw [printFrequency_eq, printLoop_length T s _ _ _ 0 h0, ← survivors_map]
  have hp := hs.perm (frequency.map (fun p => (⟨p.1, p.2⟩ : charFreq))) freqGreater
  have : survivors T s (sortSlice (frequency.map (fun p => (⟨p.1, p.2⟩ : charFreq))) freqGreater)
      = survivors T s (frequency.map (fun p => (⟨p.1, p.2⟩ : charFreq))) :=
    (hp.filter _).length_eq
  rw [this]; simp

/-- C8 on five surviving characters with top 2: three lines are written. -/
theorem printFrequency_row_count_witness :
    (SortSliceSpec insertionSortSlice ∧ 0 ≤ (exampleSettings true).limitTop) ∧
    (((printFrequency asciiTables insertionSortSlice
        [(97, 10), (98, 5), (32, 3), (99, 5), (100, 7), (101, 1)]
        (exampleSettings true)).1.length : Nat) : Int)
      = min ((([((97 : Rune), (10 : Int)), (98, 5), (32, 3), (99, 5), (100, 7), (101, 1)].filter
          (fun p => !isIgnoredChar asciiTables p.1 (exampleSettings true))).length : Nat) : Int)
          ((exampleSettings true).limitTop + 1) :=
  ⟨⟨insertionSortSlice_spec, by decide⟩,
    printFrequency_row_count asciiTables insertionSortSlice insertionSortSlice_spec
      [(97, 10), (98, 5), (32, 3), (99, 5), (100, 7), (101, 1)] (exampleSettings true)
      (by decide)⟩

/-- C9: for all settings (every ignore-policy and every `limitTop`), with any
`sort.Slice` that keeps its promise, `printFrequency` on the empty map writes no
line and evaluates no division. -/
theorem printFrequency_empty (T : UnicodeTables)
    (sortSlice : List charFreq → (charFreq → charFreq → Bool) → List charFreq)
    (hs : SortSliceSpec sortSlice) (s : Settings) :
    printFrequency T sortSlice [] s = ([], 0) := by
  rw [printFrequency_eq]
  have h : sortSlice [] freqGreater = [] := List.Perm.eq_nil (hs.perm [] freqGreater)
  simp only [List.map_nil, h, printLoop]

/-- C9 with the ASCII tables and the insertion sort. -/
theorem printFrequency_empty_witness :
    SortSliceSpec insertionSortSlice ∧
    printFrequency asciiTables insertionSortSlice [] (exampleSettings false) = ([], 0) :=
  ⟨insertionSortSlice_spec,
    printFrequency_empty asciiTables insertionSortSlice insertionSortSlice_spec
      (exampleSettings false)⟩

/-- C10: when reading the file fails, `countChars` returns the read error and the
frequency map it was given, unchanged. -/
theorem countChars_read_failure (T : UnicodeTables) (fs : FS) (file : String)
    (frequency : GoMap) (s : Settings) (err : String) (h : fs file = .error err) :
    countChars T fs file frequency s = (frequency, some err) := by
  simp only [countChars, h]

/-- C10 on a missing file, with counts a:2, b:1 already gathered. -/
theorem countChars_read_failure_witness :
    exampleFS "missing.txt" = .error "open: no such file or directory" ∧
    countChars asciiTables exampleFS "missing.txt" [(97, 2), (98, 1)] (exampleSettings false)
      = ([(97, 2), (98, 1)], some "open: no such file or directory") :=
  ⟨rfl, countChars_read_failure asciiTables exampleFS "missing.txt" [(97, 2), (98, 1)]
    (exampleSettings false) "open: no such file or directory" rfl⟩

/-- C11, at the input on which the code departs from it: on the store with the
identity rows of ("r", "*.go"), `deleteStatistics` fails (the statement is
rejected), and it also fails when its database call, the fifth of
`saveStatistics`, hits a storage failure; in both cases `saveStatistics`
returns no error.  A storage failure of the first insert, the sixth call, is
returned. -/
theorem saveStatistics_drops_delete_error :
    deleteStatistics exampleIdentities 1 1
      = (exampleIdentities, some (.noSuchColumn "url_id")) ∧
    (saveStatistics exampleIdentities "r" "*.go" [(97, 1)]).2 = none ∧
    (addExtension (addURL { exampleIdentities with faults := [4] } "r").1 "*.go").1.faults
      = [0] ∧
    (deleteStatistics { exampleIdentities with faults := [0] } 1 1).2 = some .storage ∧
    (saveStatistics { exampleIdentities with faults := [4] } "r" "*.go" [(97, 1)]).2 = none ∧
    (saveStatistics { exampleIdentities with faults := [5] } "r" "*.go" [(97, 1)]).2
      = some .storage := by
  decide

/-- C12 as stated fails: on an empty store whose seventh database call (the
second insert) fails, `saveStatistics` of a:1, b:2 returns the storage error and
leaves the bucket with the single entry a:1, which is neither the prior (empty)
aggregate nor the new one; a later `getStatistics` returns that part. -/
theorem saveStatistics_partial_bucket :
    (saveStatistics exampleFailingStore "r" "*.go" [(97, 1), (98, 2)]).2 = some .storage ∧
    queryStatistics exampleFailingStore "r" "*.go" = [] ∧
    queryStatistics (saveStatistics exampleFailingStore "r" "*.go" [(97, 1), (98, 2)]).1
      "r" "*.go" = [([97], 1)] ∧
    (getStatistics (saveStatistics exampleFailingStore "r" "*.go" [(97, 1), (98, 2)]).1
      "r" "*.go").2 = .ok [(97, 1)] ∧
    ¬(queryStatistics (saveStatistics exampleFailingStore "r" "*.go" [(97, 1), (98, 2)]).1
          "r" "*.go" = queryStatistics exampleFailingStore "r" "*.go" ∨
      queryStatistics (saveStatistics exampleFailingStore "r" "*.go" [(97, 1), (98, 2)]).1
          "r" "*.go" = [(97, 1), (98, 2)].map statRow) := by
  decide

/-- C12, amended: for every store state that satisfies the constraints of the
schema, whenever `saveStatistics` returns an error (under any schedule of
storage failures): if the error is that of `addURL` or `addExtension`, the rows
selected for the bucket are unchanged; otherwise, when the bucket had no
frequency rows before the call and the characters of the aggregate have
distinct encodings, the error is that of an insert and the bucket holds, in
some row order, exactly the entries of the aggregate inserted before the
failure: the first `k` entries in iteration order, each with the aggregate's
count, for some `k` smaller than the number of entries. -/
theorem saveStatistics_error_prefix (db : DB) (repoURL ext : String) (stat : GoMap)
    (hw : db.WF)
    (hcase : ((addURL db repoURL).2.2 ≠ none ∨
        (addExtension (addURL db repoURL).1 ext).2.2 ≠ none) ∨
      (queryStatistics db repoURL ext = [] ∧ (stat.map (fun p => encodeRune p.1)).Nodup))
    (herr : (saveStatistics db repoURL ext stat).2 ≠ none) :
    (((addURL db repoURL).2.2 ≠ none ∨ (addExtension (addURL db repoURL).1 ext).2.2 ≠ none) ∧
      queryStatistics (saveStatistics db repoURL ext stat).1 repoURL ext
        = queryStatistics db repoURL ext) ∨
    (¬((addURL db repoURL).2.2 ≠ none ∨ (addExtension (addURL db repoURL).1 ext).2.2 ≠ none) ∧
      ∃ k, k < stat.length ∧
        (queryStatistics (saveStatistics db repoURL ext stat).1 repoURL ext).Perm
          ((stat.take k).map statRow)) := by
  rcases joinedRows_saveStatistics_error db repoURL ext stat hw herr with ⟨h1, h2⟩ | ⟨h1, h2⟩
  · exact Or.inl ⟨h1, queryStatistics_congr h2⟩
  · rcases hcase with hc | ⟨hfresh, hnd⟩
    · exact absurd hc h1
    · obtain ⟨k, hk, hq⟩ := h2 ((queryStatistics_eq_nil_iff db repoURL ext).1 hfresh) hnd
      exact Or.inr ⟨h1, k, hk, hq ▸ queryStatistics_perm _ repoURL ext⟩

/-- C12, amended, on the empty store whose seventh database call (the second
insert) fails, and on the store whose bucket ("r", "*.go") holds a:1, b:1 and
whose next database call (the insert of `addURL`) fails. -/
theorem saveStatistics_error_prefix_witness :
    ((exampleFailingStore.WF ∧
      (((addURL exampleFailingStore "r").2.2 ≠ none ∨
          (addExtension (addURL exampleFailingStore "r").1 "*.go").2.2 ≠ none) ∨
        (queryStatistics exampleFailingStore "r" "*.go" = [] ∧
          (([((97 : Rune), (1 : Int)), (98, 2)]).map (fun p => encodeRune p.1)).Nodup)) ∧
      (saveStatistics exampleFailingStore "r" "*.go" [(97, 1), (98, 2)]).2 ≠ none) ∧
    ((((addURL exampleFailingStore "r").2.2 ≠ none ∨
          (addExtension (addURL exampleFailingStore "r").1 "*.go").2.2 ≠ none) ∧
        queryStatistics (saveStatistics exampleFailingStore "r" "*.go" [(97, 1), (98, 2)]).1
          "r" "*.go" = queryStatistics exampleFailingStore "r" "*.go") ∨
      (¬((addURL exampleFailingStore "r").2.2 ≠ none ∨
          (addExtension (addURL exampleFailingStore "r").1 "*.go").2.2 ≠ none) ∧
        ∃ k, k < [((97 : Rune), (1 : Int)), (98, 2)].length ∧
          (queryStatistics (saveStatistics exampleFailingStore "r" "*.go"
              [(97, 1), (98, 2)]).1 "r" "*.go").Perm
            (([((97 : Rune), (1 : Int)), (98, 2)].take k).map statRow)))) ∧
    ((exampleStoreFailingNext.WF ∧
      (((addURL exampleStoreFailingNext "r").2.2 ≠ none ∨
          (addExtension (addURL exampleStoreFailingNext "r").1 "*.go").2.2 ≠ none) ∨
        (queryStatistics exampleStoreFailingNext "r" "*.go" = [] ∧
          (([((97 : Rune), (2 : Int))]).map (fun p => encodeRune p.1)).Nodup)) ∧
      (saveStatistics exampleStoreFailingNext "r" "*.go" [(97, 2)]).2 ≠ none) ∧
    ((((addURL exampleStoreFailingNext "r").2.2 ≠ none ∨
          (addExtension (addURL exampleStoreFailingNext "r").1 "*.go").2.2 ≠ none) ∧
        queryStatistics (saveStatistics exampleStoreFailingNext "r" "*.go" [(97, 2)]).1
          "r" "*.go" = queryStatistics exampleStoreFailingNext "r" "*.go") ∨
      (¬((addURL exampleStoreFailingNext "r").2.2 ≠ none ∨
          (addExtension (addURL exampleStoreFailingNext "r").1 "*.go").2.2 ≠ none) ∧
        ∃ k, k < [((97 : Rune), (2 : Int))].length ∧
          (queryStatistics (saveStatistics exampleStoreFailingNext "r" "*.go"
              [(97, 2)]).1 "r" "*.go").Perm
            (([((97 : Rune), (2 : Int))].take k).map statRow)))) ∧
    queryStatistics exampleStoreFailingNext "r" "*.go" = [([97], 1), ([98], 1)] :=
  ⟨⟨⟨(Reachable.init [6] 0).schema_holds, Or.inr ⟨by decide, by decide⟩, by decide⟩,
      saveStatistics_error_prefix exampleFailingStore "r" "*.go" [(97, 1), (98, 2)]
        (Reachable.init [6] 0).schema_holds (Or.inr ⟨by decide, by decide⟩) (by decide)⟩,
    ⟨⟨(Reachable.saveStatistics _ _ _ (Reachable.init [7] 0)).schema_holds,
        Or.inl (Or.inl (by decide)), by decide⟩,
      saveStatistics_error_prefix exampleStoreFailingNext "r" "*.go" [(97, 2)]
        (Reachable.saveStatistics _ _ _ (Reachable.init [7] 0)).schema_holds
        (Or.inl (Or.inl (by decide))) (by decide)⟩,
    by decide⟩

/-- C13: in every store state that `addURL`, `addExtension`, `addCharFrequency`,
`deleteStatistics` and `saveStatistics` (and `getStatistics`) reach from the
empty store, whatever storage failures occur, no two rows of `char_frequencies`
have the same (url_id, extension_id, character). -/
theorem char_frequencies_key_unique (db : DB) (h : Reachable db) :
    db.char_frequencies.Pairwise
      (fun a b => ¬(a.URLID = b.URLID ∧ a.FileExtID = b.FileExtID ∧ a.Char = b.Char)) :=
  h.schema_holds.primaryKey

/-- C13 on the store reached by saving a:1, b:1 and then a:2 into the same
bucket. -/
theorem char_frequencies_key_unique_witness :
    Reachable (saveStatistics exampleStore "r" "*.go" [(97, 2)]).1 ∧
    (saveStatistics exampleStore "r" "*.go" [(97, 2)]).1.char_frequencies.Pairwise
      (fun a b => ¬(a.URLID = b.URLID ∧ a.FileExtID = b.FileExtID ∧ a.Char = b.Char)) :=
  ⟨Reachable.saveStatistics _ _ _ (Reachable.saveStatistics _ _ _ (Reachable.init [] 0)),
    char_frequencies_key_unique _
      (Reachable.saveStatistics _ _ _ (Reachable.saveStatistics _ _ _ (Reachable.init [] 0)))⟩

/-- C14, at the input on which the code departs from it: saving é:1 (U+00E9) and
è:2 (U+00E8) into a fresh bucket of the empty store stores two rows, with the
characters C3 A9 and C3 A8; the SELECT returns them in the byte order of the
character, è before é, and `getStatistics` returns a map with the single key
U+00C3 (the shared first byte), whose count 1 is that of é, the row read last;
the count 2 of è is lost, and neither U+00E9 nor U+00E8 is a key.  The result
is the same when the aggregate is iterated in the other order. -/
theorem getStatistics_splits_code_points :
    (saveStatistics DB.empty "r" "*.go" [(0xE9, 1), (0xE8, 2)]).2 = none ∧
    (saveStatistics DB.empty "r" "*.go" [(0xE9, 1), (0xE8, 2)]).1.char_frequencies
      = [⟨1, 1, [0xC3, 0xA9], 1⟩, ⟨1, 1, [0xC3, 0xA8], 2⟩] ∧
    queryStatistics (saveStatistics DB.empty "r" "*.go" [(0xE9, 1), (0xE8, 2)]).1 "r" "*.go"
      = [([0xC3, 0xA8], 2), ([0xC3, 0xA9], 1)] ∧
    (getStatistics (saveStatistics DB.empty "r" "*.go" [(0xE9, 1), (0xE8, 2)]).1 "r" "*.go").2
      = .ok [(0xC3, 1)] ∧
    (saveStatistics DB.empty "r" "*.go" [(0xE8, 2), (0xE9, 1)]).1.char_frequencies
      = [⟨1, 1, [0xC3, 0xA8], 2⟩, ⟨1, 1, [0xC3, 0xA9], 1⟩] ∧
    (getStatistics (saveStatistics DB.empty "r" "*.go" [(0xE8, 2), (0xE9, 1)]).1 "r" "*.go").2
      = .ok [(0xC3, 1)] ∧
    GoMap.get? [(0xC3, 1)] 0xE9 = none ∧ GoMap.get? [(0xC3, 1)] 0xE8 = none := by
  decide

/-- C15: for every aggregate (a map, so with distinct keys) and settings, with
any `sort.Slice` that keeps its promise, the lines `printFrequency` writes are
in non-increasing order of count, show pairwise distinct characters, each with
its count in the aggregate, and carry the ranks 1, 2, 3, ... without gap. -/
theorem printFrequency_ranking (T : UnicodeTables)
    (sortSlice : List charFreq → (charFreq → charFreq → Bool) → List charFreq)
    (hs : SortSliceSpec sortSlice) (frequency : GoMap) (hwf : frequency.WF) (s : Settings) :
    (printFrequency T sortSlice frequency s).1.Pairwise (fun a b => a.freq ≥ b.freq) ∧
    ((printFrequency T sortSlice frequency s).1.map Row.char).Nodup ∧
    (∀ row ∈ (printFrequency T sortSlice frequency s).1, (row.char, row.freq) ∈ frequency) ∧
    (printFrequency T sortSlice frequency s).1.map Row.rank
      = (List.range (printFrequency T sortSlice frequency s).1.length).map
        (fun (j : Nat) => (j : Int) + 1) := by
  rw [printFrequency_eq]
  have hsub := printLoop_sublist T s (F64.ofInt (totalAll frequency))
    (F64.ofInt (totalSelected T s frequency))
    (sortSlice (frequency.map (fun p => ⟨p.1, p.2⟩)) freqGreater) 0
  have hperm := hs.perm (frequency.map (fun p => (⟨p.1, p.2⟩ : charFreq))) freqGreater
  refine ⟨?_, ?_, ?_, ?_⟩
  · have h1 := (hs.sorted (frequency.map (fun p => (⟨p.1, p.2⟩ : charFreq)))).sublist hsub
    rw [List.pairwise_map] at h1
    refine h1.imp ?_
    intro a b hab
    simp only [freqGreater, Row.entry, decide_eq_false_iff_not, not_lt] at hab
    exact hab
  · have hnd : ((sortSlice (frequency.map (fun p => (⟨p.1, p.2⟩ : charFreq)))
        freqGreater).map charFreq.Char).Nodup := by
      rw [(hperm.map charFreq.Char).nodup_iff, List.map_map]
      exact hwf
    have := hnd.sublist (hsub.map charFreq.Char)
    rw [List.map_map] at this
    exact this
  · intro row hrow
    have hm : row.entry ∈ sortSlice (frequency.map (fun p => (⟨p.1, p.2⟩ : charFreq)))
        freqGreater := hsub.subset (List.mem_map_of_mem Row.entry hrow)
    obtain ⟨p, hp, hpe⟩ := List.mem_map.1 (hperm.mem_iff.1 hm)
    have e1 : p.1 = row.char := congrArg charFreq.Char hpe
    have e2 : p.2 = row.freq := congrArg charFreq.Freq hpe
    rw [← e1, ← e2]
    exact hp
  · rw [printLoop_ranks]
    apply List.map_congr_left
    intro j _
    ring

/-- C15 with the ASCII tables and the insertion sort, on the aggregate
b:5, space:3, a:10, c:5. -/
theorem printFrequency_ranking_witness :
    (SortSliceSpec insertionSortSlice ∧
      GoMap.WF [(98, 5), (32, 3), (97, 10), (99, 5)]) ∧
    ((printFrequency asciiTables insertionSortSlice [(98, 5), (32, 3), (97, 10), (99, 5)]
        (exampleSettings true)).1.Pairwise (fun a b => a.freq ≥ b.freq) ∧
    ((printFrequency asciiTables insertionSortSlice [(98, 5), (32, 3), (97, 10), (99, 5)]
        (exampleSettings true)).1.map Row.char).Nodup ∧
    (∀ row ∈ (printFrequency asciiTables insertionSortSlice
        [(98, 5), (32, 3), (97, 10), (99, 5)] (exampleSettings true)).1,
      (row.char, row.freq) ∈ [((98 : Rune), (5 : Int)), (32, 3), (97, 10), (99, 5)]) ∧
    (printFrequency asciiTables insertionSortSlice [(98, 5), (32, 3), (97, 10), (99, 5)]
        (exampleSettings true)).1.map Row.rank
      = (List.range (printFrequency asciiTables insertionSortSlice
          [(98, 5), (32, 3), (97, 10), (99, 5)] (exampleSettings true)).1.length).map
        (fun (j : Nat) => (j : Int) + 1)) :=
  ⟨⟨insertionSortSlice_spec, by unfold GoMap.WF; decide⟩,
    printFrequency_ranking asciiTables insertionSortSlice insertionSortSlice_spec
      [(98, 5), (32, 3), (97, 10), (99, 5)] (by unfold GoMap.WF; decide) (exampleSettings true)⟩

/-- C16 as stated fails: the file "k.txt" holds U+212A KELVIN SIGN and the
letter K; without case sensitivity `countChars` from the empty map gives k the
count 2, although the letter occurs once in either case (the lower case of
U+212A is k). -/
theorem countChars_folds_kelvin_sign :
    kelvinFS "k.txt" = .ok [0xE2, 0x84, 0xAA, 0x4B] ∧
    rangeRunes 0 [0xE2, 0x84, 0xAA, 0x4B] = [0x212A, 0x4B] ∧
    countChars kelvinTables kelvinFS "k.txt" [] (exampleSettings false) = ([(0x6B, 2)], none) ∧
    ¬((countChars kelvinTables kelvinFS "k.txt" [] (exampleSettings false)).1.index 0x6B
        = (((rangeRunes 0 [0xE2, 0x84, 0xAA, 0x4B]).count 0x6B : Nat) : Int)
          + (((rangeRunes 0 [0xE2, 0x84, 0xAA, 0x4B]).count 0x4B : Nat) : Int)) := by
  refine ⟨rfl, by decide, by decide, by decide⟩

/-- C16, amended: for every readable file and every starting map, `countChars`
without case sensitivity produces the same map as `countChars` with case
sensitivity on the content lower-cased by `strings.ToLower`.  Consequently,
starting from the empty map, no upper-case ASCII letter is a key of the result
(given that no code point above U+007F has an upper-case ASCII letter as its
lower case), and the count of each lower-case ASCII letter is the number of
occurrences of that letter in either case plus the number of code points above
U+007F in the content whose lower case is that letter. -/
theorem countChars_case_folding (T : UnicodeTables) (fs : FS) (file : String)
    (data : GoString) (frequency : GoMap) (s : Settings) (hfile : fs file = .ok data)
    (hT : ∀ r : Int, 0x7F < r → ¬(0x41 ≤ T.lowerCase r ∧ T.lowerCase r ≤ 0x5A)) :
    countChars T fs file frequency { s with caseSensetive := false }
      = countChars T (fun path => if path = file then .ok (stringsToLower T data) else fs path)
          file frequency { s with caseSensetive := true } ∧
    (∀ c : Int, 0x41 ≤ c → c ≤ 0x5A →
      (countChars T fs file [] { s with caseSensetive := false }).1.get? c = none) ∧
    (∀ c : Int, 0x61 ≤ c → c ≤ 0x7A →
      (countChars T fs file [] { s with caseSensetive := false }).1.index c
        = (((rangeRunes 0 data).count c : Nat) : Int)
          + (((rangeRunes 0 data).count (c - 32) : Nat) : Int)
          + (((rangeRunes 0 data).countP
              (fun r => decide (0x7F < r ∧ T.lowerCase r = c)) : Nat) : Int)) := by
  refine ⟨?_, ?_, ?_⟩
  · simp only [countChars, hfile, if_true, Bool.not_false, Bool.not_true, Bool.false_eq_true,
      if_false]
  · intro c h1 h2
    rw [countChars_fst, GoMap.get?_countLoop, fileRunes_fold T fs s file data hfile]
    have hnot : c ∉ (rangeRunes 0 data).filterMap (mapRune (unicodeToLower T)) := by
      intro hmem
      obtain ⟨r, -, hr⟩ := List.mem_filterMap.1 hmem
      exact unicodeToLower_ne_upper T hT r c h1 h2
        ((mapRune_eq_some_iff (unicodeToLower T) r c (by omega) (by omega)).1 hr)
    rw [if_neg hnot]
    rfl
  · intro c h1 h2
    rw [perFile_index, fileRunes_fold T fs s file data hfile]
    exact count_filterMap_toLower T (rangeRunes 0 data) c h1 h2

/-- C16, amended, on the file "k.txt" (U+212A, K) with the tables that know the
lower case of U+212A. -/
theorem countChars_case_folding_witness :
    (kelvinFS "k.txt" = .ok [0xE2, 0x84, 0xAA, 0x4B] ∧
      ∀ r : Int, 0x7F < r →
        ¬(0x41 ≤ kelvinTables.lowerCase r ∧ kelvinTables.lowerCase r ≤ 0x5A)) ∧
    (countChars kelvinTables kelvinFS "k.txt" [(0x6B, 1)]
        { exampleSettings true with caseSensetive := false }
      = countChars kelvinTables
          (fun path => if path = "k.txt"
            then .ok (stringsToLower kelvinTables [0xE2, 0x84, 0xAA, 0x4B])
            else kelvinFS path)
          "k.txt" [(0x6B, 1)] { exampleSettings true with caseSensetive := true } ∧
    (∀ c : Int, 0x41 ≤ c → c ≤ 0x5A →
      (countChars kelvinTables kelvinFS "k.txt" []
        { exampleSettings true with caseSensetive := false }).1.get? c = none) ∧
    (∀ c : Int, 0x61 ≤ c → c ≤ 0x7A →
      (countChars kelvinTables kelvinFS "k.txt" []
          { exampleSettings true with caseSensetive := false }).1.index c
        = (((rangeRunes 0 [0xE2, 0x84, 0xAA, 0x4B]).count c : Nat) : Int)
          + (((rangeRunes 0 [0xE2, 0x84, 0xAA, 0x4B]).count (c - 32) : Nat) : Int)
          + (((rangeRunes 0 [0xE2, 0x84, 0xAA, 0x4B]).countP
              (fun r => decide (0x7F < r ∧ kelvinTables.lowerCase r = c)) : Nat) : Int))) :=
  have hT : ∀ r : Int, 0x7F < r →
      ¬(0x41 ≤ kelvinTables.lowerCase r ∧ kelvinTables.lowerCase r ≤ 0x5A) := by
    intro r hr
    simp only [kelvinTables]
    split
    · decide
    · split
      · decide
      · intro h
        have h2 : r ≤ (0x5A : Int) := h.2
        omega
  ⟨⟨rfl, hT⟩,
    countChars_case_folding kelvinTables kelvinFS "k.txt" [0xE2, 0x84, 0xAA, 0x4B] [(0x6B, 1)]
      (exampleSettings true) rfl hT⟩

/-- C17 as stated fails: for the aggregate a:0 (nothing ignored but white
space) both totals are zero, one line is written, and both of its percentages
are NaN, not 0. -/
theorem printFrequency_zero_totals_nan :
    (totalsLoop asciiTables (exampleSettings true) [(97, 0)] ([], F64.fin 0, F64.fin 0)).2
      = (F64.fin 0, F64.fin 0) ∧
    (printFrequency asciiTables insertionSortSlice [(97, 0)] (exampleSettings true)).1
      = [⟨1, 0, F64.nan, F64.nan, 97⟩] ∧
    ¬(∀ row ∈ (printFrequency asciiTables insertionSortSlice [(97, 0)]
        (exampleSettings true)).1, row.pctAll = F64.fin 0 ∧ row.pctSelected = F64.fin 0) := by
  have h : (printFrequency asciiTables insertionSortSlice [(97, 0)] (exampleSettings true)).1
      = [⟨1, 0, F64.nan, F64.nan, 97⟩] := by
    simp [printFrequency, totalsLoop, printLoop, insertionSortSlice, isIgnoredChar,
      asciiTables, unicodeIsSpace, exampleSettings, F64.ofInt, F64.add, F64.mul, F64.div,
      F64.sign, F64.infOfSign]
  refine ⟨?_, h, ?_⟩
  · simp [totalsLoop, isIgnoredChar, asciiTables, unicodeIsSpace, exampleSettings, F64.ofInt,
      F64.add]
  · rw [h]
    intro hall
    have := (hall _ (List.mem_singleton_self _)).1
    exact F64.noConfusion this

/-- C17, amended: for every aggregate and settings, whatever order `sort.Slice`
produces, `printFrequency` divides without a test for zero: in every
line written, a percentage whose total (`sum`, respectively `sumsel`) is zero is
NaN when the line's count is 0, +Inf when the count is positive and -Inf when
it is negative; it is never 0. -/
theorem printFrequency_zero_totals (T : UnicodeTables)
    (sortSlice : List charFreq → (charFreq → charFreq → Bool) → List charFreq)
    (frequency : GoMap) (s : Settings) :
    ∀ row ∈ (printFrequency T sortSlice frequency s).1,
      (totalAll frequency = 0 →
        row.pctAll = (if row.freq = 0 then F64.nan
          else if 0 < row.freq then F64.posInf else F64.negInf) ∧
        row.pctAll ≠ F64.fin 0) ∧
      (totalSelected T s frequency = 0 →
        row.pctSelected = (if row.freq = 0 then F64.nan
          else if 0 < row.freq then F64.posInf else F64.negInf) ∧
        row.pctSelected ≠ F64.fin 0) := by
  intro row hrow
  obtain ⟨-, -, h3, h4⟩ := (printLoop_rows T s _ _ _ 0 row (printFrequency_eq T sortSlice
    frequency s ▸ hrow))
  have hne : (if row.freq = 0 then F64.nan
      else if 0 < row.freq then F64.posInf else F64.negInf) ≠ F64.fin 0 := by
    split
    · exact fun h => F64.noConfusion h
    · split <;> exact fun h => F64.noConfusion h
  constructor
  · intro h0
    rw [h0, F64.div_zero] at h3
    exact ⟨h3, h3 ▸ hne⟩
  · intro h0
    rw [h0, F64.div_zero] at h4
    exact ⟨h4, h4 ▸ hne⟩

/-- C17, amended, on the aggregate a:0 with the ASCII tables and the insertion
sort: both totals are zero and both percentages of the line are NaN. -/
theorem printFrequency_zero_totals_witness :
    totalAll [(97, 0)] = 0 ∧ totalSelected asciiTables (exampleSettings true) [(97, 0)] = 0 ∧
    ∀ row ∈ (printFrequency asciiTables insertionSortSlice [(97, 0)] (exampleSettings true)).1,
      (row.pctAll = (if row.freq = 0 then F64.nan
          else if 0 < row.freq then F64.posInf else F64.negInf) ∧
        row.pctAll ≠ F64.fin 0) ∧
      (row.pctSelected = (if row.freq = 0 then F64.nan
          else if 0 < row.freq then F64.posInf else F64.negInf) ∧
        row.pctSelected ≠ F64.fin 0) :=
  ⟨by decide, by decide, fun row hrow =>
    ⟨(printFrequency_zero_totals asciiTables insertionSortSlice [(97, 0)]
        (exampleSettings true) row hrow).1 (by decide),
      (printFrequency_zero_totals asciiTables insertionSortSlice [(97, 0)]
        (exampleSettings true) row hrow).2 (by decide)⟩⟩

/-- C18 as stated fails: the store reached by `addURL("r")`,
`addExtension("*.go")` and `addCharFrequency(1, 1, "", 4)`, the last of which
succeeds, holds a row with the empty character, and with no storage failure
`getStatistics("r", "*.go")` stops with the run-time panic of indexing `char[0]`
in the empty string.  And on the store reached by `addCharFrequency(1, 1, "a",
9223372036854775807)` and `addCharFrequency(1, 1, "a", 1)`, `getStatistics`
returns the error of `rows.Scan`, again with no storage failure. -/
theorem getStatistics_panics_on_empty_character :
    Reachable (addCharFrequency exampleIdentities 1 1 [] 4).1 ∧
    (addCharFrequency exampleIdentities 1 1 [] 4).2 = none ∧
    (addCharFrequency exampleIdentities 1 1 [] 4).1.faults = [] ∧
    (getStatistics (addCharFrequency exampleIdentities 1 1 [] 4).1 "r" "*.go").2
      = .runtimePanic ∧
    Reachable (addCharFrequency
      (addCharFrequency exampleIdentities 1 1 [97] 9223372036854775807).1 1 1 [97] 1).1 ∧
    (addCharFrequency
      (addCharFrequency exampleIdentities 1 1 [97] 9223372036854775807).1 1 1 [97] 1).1.faults
      = [] ∧
    (getStatistics (addCharFrequency
      (addCharFrequency exampleIdentities 1 1 [97] 9223372036854775807).1 1 1 [97] 1).1
      "r" "*.go").2 = .err .scan :=
  ⟨Reachable.addCharFrequency _ _ _ _
      (Reachable.addExtension _ (Reachable.addURL _ (Reachable.init [] 0))),
    by decide, by decide, by decide,
    Reachable.addCharFrequency _ _ _ _ (Reachable.addCharFrequency _ _ _ _
      (Reachable.addExtension _ (Reachable.addURL _ (Reachable.init [] 0)))),
    by decide, by decide⟩

/-- C18, amended: in every store state reached through `addURL`, `addExtension`,
`saveStatistics` and `addCharFrequency` with a non-empty character (under any
schedule of storage failures), for every url and extension `getStatistics` does
not panic: it returns a map, or the storage error when its database call
fails, or the error of `rows.Scan` when a stored count is outside the signed
64-bit range. -/
theorem getStatistics_never_panics (db : DB) (h : ReachableNonEmpty db) (url ext : String) :
    (getStatistics db url ext).2 ≠ .runtimePanic ∧
    ((∃ m, (getStatistics db url ext).2 = .ok m) ∨
      ((getStatistics db url ext).2 = .err .storage ∧ db.step.1 = true) ∨
      ((getStatistics db url ext).2 = .err .scan ∧
        ∃ f ∈ db.char_frequencies, isInt64 f.Frequency = false)) := by
  have hc := h.chars_ne_nil
  have hsd := DB.step_sameData db
  have key : (∃ m, (getStatistics db url ext).2 = .ok m) ∨
      ((getStatistics db url ext).2 = .err .storage ∧ db.step.1 = true) ∨
      ((getStatistics db url ext).2 = .err .scan ∧
        ∃ f ∈ db.char_frequencies, isInt64 f.Frequency = false) := by
    unfold getStatistics
    rcases hs : db.step with ⟨b, db1⟩
    rw [hs] at hsd
    cases b
    · simp only
      have hrows : ∀ p ∈ queryStatistics db1 url ext, p.1 ≠ [] := by
        intro p hp
        obtain ⟨f, hf, rfl⟩ := mem_queryStatistics hp
        rw [hsd.2.2.2.2.1] at hf
        exact hc f hf
      rcases scanRows_noPanic (queryStatistics db1 url ext) [] hrows with h1 | ⟨h1, q, hq, h2⟩
      · exact Or.inl h1
      · obtain ⟨f, hf, rfl⟩ := mem_queryStatistics hq
        rw [hsd.2.2.2.2.1] at hf
        exact Or.inr (Or.inr ⟨h1, f, hf, h2⟩)
    · exact Or.inr (Or.inl ⟨rfl, rfl⟩)
  refine ⟨?_, key⟩
  rcases key with ⟨m, hm⟩ | ⟨hm, -⟩ | ⟨hm, -⟩ <;> rw [hm] <;> simp

/-- C18, amended, on the store whose bucket ("r", "*.go") holds a:1, b:1. -/
theorem getStatistics_never_panics_witness :
    ReachableNonEmpty exampleStore ∧
    ((getStatistics exampleStore "r" "*.go").2 ≠ .runtimePanic ∧
    ((∃ m, (getStatistics exampleStore "r" "*.go").2 = .ok m) ∨
      ((getStatistics exampleStore "r" "*.go").2 = .err .storage ∧
        exampleStore.step.1 = true) ∨
      ((getStatistics exampleStore "r" "*.go").2 = .err .scan ∧
        ∃ f ∈ exampleStore.char_frequencies, isInt64 f.Frequency = false))) ∧
    (getStatistics exampleStore "r" "*.go").2 = .ok [(97, 1), (98, 1)] :=
  ⟨ReachableNonEmpty.saveStatistics _ _ _ (ReachableNonEmpty.init [] 0),
    getStatistics_never_panics exampleStore
      (ReachableNonEmpty.saveStatistics _ _ _ (ReachableNonEmpty.init [] 0)) "r" "*.go",
    by decide⟩

/-- C19: for every store state and every schedule of storage failures,
`deleteStatistics` leaves the tables `urls` and `file_extensions` exactly as
they were (its DELETE on `file_extensions` removes nothing), and
`saveStatistics` leaves every row of both tables in place, unchanged, adding at
most new rows behind them. -/
theorem identities_never_deleted (db : DB) (urlID extID : Int) (repoURL ext : String)
    (stat : GoMap) :
    (deleteStatistics db urlID extID).1.urls = db.urls ∧
    (deleteStatistics db urlID extID).1.file_extensions = db.file_extensions ∧
    (∃ added, (saveStatistics db repoURL ext stat).1.urls = db.urls ++ added) ∧
    (∃ added, (saveStatistics db repoURL ext stat).1.file_extensions
      = db.file_extensions ++ added) := by
  have hd := deleteStatistics_sameData db urlID extID
  refine ⟨hd.1, hd.2.2.1, ?_⟩
  obtain ⟨a1, a2, a3, -⟩ := addURL_shape db repoURL
  have hu : ∃ added, (addURL db repoURL).1.urls = db.urls ++ added := by
    rcases a3 with h | ⟨h, -⟩
    · exact ⟨[], by rw [h, List.append_nil]⟩
    · exact ⟨_, h⟩
  unfold saveStatistics
  rcases hr : addURL db repoURL with ⟨db1, uid, _ | e⟩
  · rw [hr] at a1 hu
    simp only at a1 hu ⊢
    obtain ⟨b1, b2, b3, -⟩ := addExtension_shape db1 ext
    have he : ∃ added, (addExtension db1 ext).1.file_extensions
        = db.file_extensions ++ added := by
      rw [← a1]
      rcases b3 with h | ⟨h, -⟩
      · exact ⟨[], by rw [h, List.append_nil]⟩
      · exact ⟨_, h⟩
    rcases hr2 : addExtension db1 ext with ⟨db2, eid, _ | e⟩
    · rw [hr2] at b1 he
      simp only at b1 he ⊢
      obtain ⟨c1, c2⟩ := saveLoop_identities (deleteStatistics db2 uid eid).1 uid eid stat
      have hd2 := deleteStatistics_sameData db2 uid eid
      rw [c1, c2, hd2.1, hd2.2.2.1, b1]
      exact ⟨hu, he⟩
    · rw [hr2] at b1 he
      simp only at b1 he ⊢
      rw [b1]
      exact ⟨hu, he⟩
  · rw [hr] at a1 hu
    simp only at a1 hu ⊢
    exact ⟨hu, ⟨[], by rw [a1, List.append_nil]⟩⟩

/-- C20: for every store state that satisfies the constraints of the schema,
when storage does not fail, for every bucket (repoURL, ext), every aggregate
and every other pair (url, ext1) that differs in the repository key or in the
extension key, `saveStatistics` on the bucket leaves the rows selected for the
other pair, and with them the result of `getStatistics` for it, unchanged. -/
theorem saveStatistics_other_bucket (db : DB) (repoURL ext : String) (stat : GoMap)
    (url ext1 : String) (hw : db.WF) (hf : db.faults = [])
    (hne : url ≠ repoURL ∨ ext1 ≠ ext) :
    queryStatistics (saveStatistics db repoURL ext stat).1 url ext1
      = queryStatistics db url ext1 ∧
    (getStatistics (saveStatistics db repoURL ext stat).1 url ext1).2
      = (getStatistics db url ext1).2 := by
  have hq := queryStatistics_congr
    (joinedRows_saveStatistics_other db repoURL ext stat url ext1 hw hne)
  refine ⟨hq, ?_⟩
  unfold getStatistics
  rw [DB.step_of_noFaults db hf,
    DB.step_of_noFaults _ (saveStatistics_noFaults db repoURL ext stat hf)]
  simp only [hq]

/-- C20 on the store whose bucket ("r", "*.go") holds a:1, b:1: saving c:7 into
the bucket ("r", "*.txt") of the same repository leaves the first bucket's
lookup as it was. -/
theorem saveStatistics_other_bucket_witness :
    (exampleStore.WF ∧ exampleStore.faults = [] ∧ ("r" ≠ "r" ∨ "*.go" ≠ "*.txt")) ∧
    (queryStatistics (saveStatistics exampleStore "r" "*.txt" [(99, 7)]).1 "r" "*.go"
      = queryStatistics exampleStore "r" "*.go" ∧
    (getStatistics (saveStatistics exampleStore "r" "*.txt" [(99, 7)]).1 "r" "*.go").2
      = (getStatistics exampleStore "r" "*.go").2) :=
  ⟨⟨(Reachable.saveStatistics _ _ _ (Reachable.init [] 0)).schema_holds, rfl, Or.inr (by decide)⟩,
    saveStatistics_other_bucket exampleStore "r" "*.txt" [(99, 7)] "r" "*.go"
      (Reachable.saveStatistics _ _ _ (Reachable.init [] 0)).schema_holds rfl (Or.inr (by decide))⟩

end CharCounter
